import Mathlib

/-!
# Bloom filter family (`src/Bloom.cc`): shallow embedding and verified properties

The three tiers of `src/Bloom.cc` are embedded as pure state-passing functions:

* `BloomSlice`    : one bit array (`vector<bitset<64>>`) with its probe loop,
* `BloomInstance` : an ordered list of slices with insert routing and rotation,
* `Bloom`         : an ordered list of instances.

Conventions of the embedding.

* Objects reached through owning pointers are embedded as values; every
  `new` in the source creates a fresh object, so there is no aliasing.
* A C++ `int` is an `Int`; conversions to and from `unsigned int` are the
  explicit functions `toUnsigned` and `toInt` (reduction modulo `2^32`).
* A `bitset<64>` is the natural number `to_ullong()` would return.
* A member function returns `Option (result × new state)`; `none` stands for
  an execution that does not return (integer division by zero, an exception
  nobody catches, dereferencing the begin iterator of an empty vector).
* A key is the byte sequence of a `std::string`.  The source hashes
  `key.c_str()` over `strlen(key.c_str())` bytes, which is `c_str_bytes key`.
* `murmurhash2` (declared in `murmurhash2.h`), the enumerator
  `RESET_FIRST_INSTANCE_FIRST_SLICE` and the constant
  `TRANSITION_PERIOD_SECONDS` (declared in `Bloom.h`) are parameters.
* The floating-point sizing of a slice (`log`, `ceil` and the casts to `int`
  in the `BloomSlice` constructor) is a parameter `sizing`, and so are the
  readings of `time(NULL)`.
* The counter `int hits` of `Add` and `Test` is incremented at most
  `2^32 - 1` times; it is read as a 32-bit two's complement value.  With
  `m_hashes ≥ 0` it never exceeds `m_hashes` and no wrap-around occurs.
* The protobuf message classes of `pb_bloom.pb.h` are records that hold the
  fields `SaveBloom` writes and `InitBloom` reads; the wire codec
  (`SerializeToString`, `ParseFromString`) is a parameter.

The file has two parts: the definitions (the embedding, the observations and
relations the statements use, and concrete data), then the lemmas and the
theorems on the claims of the specification, each named by its identifier.
-/

/-! ## Machine integers -/

/-- The least value of a C++ `int`. -/
def INT_MIN : Int := -2147483648

/-- The greatest value of a C++ `int`. -/
def INT_MAX : Int := 2147483647

/-- The value is representable as a C++ `int`. -/
def IsInt (x : Int) : Prop := INT_MIN ≤ x ∧ x ≤ INT_MAX

instance (x : Int) : Decidable (IsInt x) := by
  unfold IsInt; exact inferInstance

/-- Conversion of an `int` to `unsigned int`: the value modulo `2^32`. -/
def toUnsigned (x : Int) : Nat := (x % 4294967296).toNat

/-- Conversion of an unsigned value to `int`: the two's complement reading of
its low 32 bits. -/
def toInt (n : Nat) : Int :=
  if n % 4294967296 < 2147483648 then ((n % 4294967296 : Nat) : Int)
  else ((n % 4294967296 : Nat) : Int) - 4294967296

/-! ## `std::bitset<64>` -/

/-- The call `bitset<64>::test(p)` for `p < 64`. -/
def bitset_test (w : Nat) (p : Nat) : Bool := w.testBit p

/-- The call `bitset<64>::set(p)` for `p < 64`. -/
def bitset_set (w : Nat) (p : Nat) : Nat := w ||| (1 <<< p)

/-- The call `bitset<64>::count()`: how many of the 64 bits are set. -/
def bitset_count (w : Nat) : Nat := (List.range 64).countP (fun i => w.testBit i)

/-! ## Keys -/

/-- The bytes that `strlen(key.c_str())` covers: the key up to, and not
including, its first zero byte. -/
def c_str_bytes (key : List Nat) : List Nat := key.takeWhile (fun c => c != 0)

/-! ## BloomSlice -/

/-- The data members of `BloomSlice`. -/
structure BloomSlice where
  /-- Field `int m_bits`. -/
  m_bits : Int
  /-- Field `int m_hashes`. -/
  m_hashes : Int
  /-- Field `vector<bitset<64>> m_data`. -/
  m_data : List Nat
  /-- Field set by `SetCreateTime` and read by `GetCreateTime`. -/
  m_create_time : Int
  /-- Field set by `SetAccessTime` and read by `GetAccessTime`. -/
  m_access_time : Int
deriving DecidableEq

/-- The function `BloomSlice::testOk(int pos, bool needSet)`. -/
def BloomSlice.testOk (s : BloomSlice) (pos : Int) (needSet : Bool) :
    Option (Bool × BloomSlice) :=
  let bitset_idx : Nat := toUnsigned (pos >>> (6 : Nat))
  if s.m_data.length ≤ bitset_idx then
    some (false, s)
  else
    let p : Int := Int.tmod pos 64
    -- a negative `pos % 64` converts to a `size_t` beyond 63 and
    -- `bitset::test` throws `std::out_of_range`
    if p < 0 then none
    else if bitset_test (s.m_data.getD bitset_idx 0) p.toNat then
      some (true, s)
    else if needSet then
      some (false, { s with
        m_data := s.m_data.set bitset_idx (bitset_set (s.m_data.getD bitset_idx 0) p.toNat) })
    else
      some (false, s)

/-- The loop `for (i = 0; i < (unsigned int)m_hashes; i++)` shared by
`BloomSlice::Add` (`needSet = true`) and `BloomSlice::Test`
(`needSet = false`, the default argument of `testOk`).  The first argument
counts the iterations that remain, `i` is the loop counter and `hits` the
number of increments of the `int hits` so far.  The arithmetic on
`a`, `i`, `b` is `unsigned int` arithmetic, and in `% m_bits` the `int`
operand is converted to `unsigned int`. -/
def BloomSlice.probeLoop (a b : Nat) (needSet : Bool) :
    Nat → Nat → Nat → BloomSlice → Option (Nat × BloomSlice)
  | 0, _, hits, s => some (hits, s)
  | n + 1, i, hits, s =>
    if toUnsigned s.m_bits = 0 then none
    else
      let x : Nat := ((a + i * b) % 4294967296) % toUnsigned s.m_bits
      match s.testOk (toInt x) needSet with
      | none => none
      | some (true, s1) => BloomSlice.probeLoop a b needSet n (i + 1) (hits + 1) s1
      | some (false, s1) => BloomSlice.probeLoop a b needSet n (i + 1) hits s1

/-- The function `BloomSlice::Add(string& key)`.  The `int hits` holds the
number of increments read as a 32-bit two's complement value. -/
def BloomSlice.Add (murmurhash2 : List Nat → Nat → Nat) (s : BloomSlice) (key : List Nat) :
    Option (Bool × BloomSlice) :=
  let a : Nat := murmurhash2 (c_str_bytes key) 0x9747b28c % 4294967296
  let b : Nat := murmurhash2 (c_str_bytes key) a % 4294967296
  match BloomSlice.probeLoop a b true (toUnsigned s.m_hashes) 0 0 s with
  | none => none
  | some (hits, s1) => if toInt hits = s1.m_hashes then some (false, s1) else some (true, s1)

/-- The function `BloomSlice::Test(string& key)`. -/
def BloomSlice.Test (murmurhash2 : List Nat → Nat → Nat) (s : BloomSlice) (key : List Nat) :
    Option (Bool × BloomSlice) :=
  let a : Nat := murmurhash2 (c_str_bytes key) 0x9747b28c % 4294967296
  let b : Nat := murmurhash2 (c_str_bytes key) a % 4294967296
  match BloomSlice.probeLoop a b false (toUnsigned s.m_hashes) 0 0 s with
  | none => none
  | some (hits, s1) => if toInt hits = s1.m_hashes then some (true, s1) else some (false, s1)

/-- The accumulator `int ones` of `BloomSlice::Full` after the loop.  In
`ones += it->count()` the sum is formed in `size_t` and converted back to
`int`. -/
def BloomSlice.ones (s : BloomSlice) : Int :=
  s.m_data.foldl (fun ones w => toInt (toUnsigned (ones + (bitset_count w : Int)))) 0

/-- The function `BloomSlice::Full()`; `m_bits / 2` truncates toward zero. -/
def BloomSlice.Full (s : BloomSlice) : Bool :=
  decide (s.ones ≥ Int.tdiv s.m_bits 2)

/-- The function `BloomSlice::Reset()`. -/
def BloomSlice.Reset (s : BloomSlice) : BloomSlice :=
  { s with m_data := s.m_data.map (fun _ => 0) }

/-- The part of the constructor `BloomSlice::BloomSlice(int entries, double error)`
that follows the floating-point computation of `bits` and `hashes`: it stores
them and sizes `m_data`.  A negative `elements` converts to a `size_t` that
`vector::resize` rejects with an exception.  `now` is the value of
`time(NULL)`; `m_access_time` is not assigned by the constructor and keeps
the value `access_time` it happens to have. -/
def BloomSlice.construct (bits hashes : Int) (now access_time : Int) : Option BloomSlice :=
  let elements : Int := if Int.tmod bits 64 ≠ 0 then Int.tdiv bits 64 + 1 else Int.tdiv bits 64
  if elements < 0 then none
  else some
    { m_bits := bits, m_hashes := hashes, m_data := List.replicate elements.toNat 0,
      m_create_time := now, m_access_time := access_time }

/-! ## BloomInstance -/

/-- The data members of `BloomInstance`. -/
structure BloomInstance where
  /-- Field `m_entries`. -/
  m_entries : Int
  /-- Field `m_err_mode`. -/
  m_err_mode : Int
  /-- Field `m_err_deno`. -/
  m_err_deno : Int
  /-- Field `m_slice_num`. -/
  m_slice_num : Int
  /-- Field `m_reset`. -/
  m_reset : Bool
  /-- Field `m_slices`, in storage order. -/
  m_slices : List BloomSlice
  /-- Field `m_create_time`. -/
  m_create_time : Int
deriving DecidableEq

/-- The loop of `BloomInstance::Add` over `m_slices`, with the `return false`
that follows it. -/
def BloomInstance.addLoop (murmurhash2 : List Nat → Nat → Nat) (key : List Nat) :
    List BloomSlice → Option (Bool × List BloomSlice)
  | [] => some (false, [])
  | slice :: rest =>
    if !slice.Full then
      match slice.Add murmurhash2 key with
      | none => none
      | some (r, slice1) => some (r, slice1 :: rest)
    else
      match BloomInstance.addLoop murmurhash2 key rest with
      | none => none
      | some (r, rest1) => some (r, slice :: rest1)

/-- The function `BloomInstance::Add(string& key)`.  The statements after the
unconditional `return false` are never executed. -/
def BloomInstance.Add (murmurhash2 : List Nat → Nat → Nat) (inst : BloomInstance)
    (key : List Nat) : Option (Bool × BloomInstance) :=
  match BloomInstance.addLoop murmurhash2 key inst.m_slices with
  | none => none
  | some (r, slices1) => some (r, { inst with m_slices := slices1 })

/-- The loop of `BloomInstance::Test` over `m_slices`, with the `return false`
that follows it. -/
def BloomInstance.testLoop (murmurhash2 : List Nat → Nat → Nat) (key : List Nat) :
    List BloomSlice → Option (Bool × List BloomSlice)
  | [] => some (false, [])
  | slice :: rest =>
    match slice.Test murmurhash2 key with
    | none => none
    | some (true, slice1) => some (true, slice1 :: rest)
    | some (false, slice1) =>
      match BloomInstance.testLoop murmurhash2 key rest with
      | none => none
      | some (r, rest1) => some (r, slice1 :: rest1)

/-- The function `BloomInstance::Test(string& key)`. -/
def BloomInstance.Test (murmurhash2 : List Nat → Nat → Nat) (inst : BloomInstance)
    (key : List Nat) : Option (Bool × BloomInstance) :=
  match BloomInstance.testLoop murmurhash2 key inst.m_slices with
  | none => none
  | some (r, slices1) => some (r, { inst with m_slices := slices1 })

/-- The function `BloomInstance::Reset()` ("method 2").  With `m_slice_num ≥ 2`
and no slice, `*(m_slices.begin())` has no object to yield. -/
def BloomInstance.Reset (inst : BloomInstance) : Option (Bool × BloomInstance) :=
  if inst.m_slice_num < 2 then some (false, inst)
  else
    match inst.m_slices with
    | [] => none
    | ptr :: rest => some (true, { inst with m_slices := rest ++ [ptr.Reset] })

/-- The slices pushed by the loop `for (int i = 0; i < m_slice_num; i++)` of the
constructor: `n` iterations remain and `i` is the number of the next call of
`time(NULL)`. -/
def BloomInstance.constructSlices (bits hashes : Int) (clock junk : Nat → Int) :
    Nat → Nat → Option (List BloomSlice)
  | 0, _ => some []
  | n + 1, i =>
    match BloomSlice.construct bits hashes (clock i) (junk i) with
    | none => none
    | some slice =>
      match BloomInstance.constructSlices bits hashes clock junk n (i + 1) with
      | none => none
      | some rest => some (slice :: rest)

/-- The constructor
`BloomInstance::BloomInstance(int entries, int err_mode, int err_deno, int slice_num, bool reset)`.
The integer quotient `entries / slice_num` does not exist for `slice_num = 0`
nor for `INT_MIN / -1`.  The floating-point sizing of a slice (the `log`, the
products and the two casts to `int` of the `BloomSlice` constructor) is the
parameter `sizing`: from the integer `avg_entries` and the three integers that
determine `avg_error` it yields the pair `(bits, hashes)`.  `clock i` is the
result of the `i`-th call of `time(NULL)` and `junk i` the unassigned
`m_access_time` of the `i`-th slice. -/
def BloomInstance.construct (sizing : Int → Int → Int → Int → Int × Int)
    (clock junk : Nat → Int) (entries err_mode err_deno slice_num : Int) (reset : Bool) :
    Option BloomInstance :=
  if slice_num = 0 ∨ (entries = INT_MIN ∧ slice_num = -1) then none
  else
    let avg_entries : Int := Int.tdiv entries slice_num
    let bh := sizing avg_entries err_mode err_deno slice_num
    match BloomInstance.constructSlices bh.1 bh.2 clock junk slice_num.toNat 0 with
    | none => none
    | some slices => some
      { m_entries := entries, m_err_mode := err_mode, m_err_deno := err_deno,
        m_slice_num := slice_num, m_reset := reset, m_slices := slices,
        m_create_time := clock slice_num.toNat }

/-! ## Bloom -/

/-- The data members of `Bloom`. -/
structure Bloom where
  /-- Field `m_trans_period`. -/
  m_trans_period : Int
  /-- Field `m_instances`, oldest first. -/
  m_instances : List BloomInstance
deriving DecidableEq

/-- The function `Bloom::Add(string& key)`; `*(m_instances.rbegin())` is the
last element. -/
def Bloom.Add (murmurhash2 : List Nat → Nat → Nat) (b : Bloom) (key : List Nat) :
    Option (Bool × Bloom) :=
  match b.m_instances.getLast? with
  | none => some (false, b)
  | some inst =>
    match inst.Add murmurhash2 key with
    | none => none
    | some (r, inst1) =>
      some (r, { b with m_instances := b.m_instances.dropLast ++ [inst1] })

/-- The loop of `Bloom::Test` over `m_instances`, with the `return false` that
follows it. -/
def Bloom.testLoop (murmurhash2 : List Nat → Nat → Nat) (key : List Nat) :
    List BloomInstance → Option (Bool × List BloomInstance)
  | [] => some (false, [])
  | inst :: rest =>
    match inst.Test murmurhash2 key with
    | none => none
    | some (true, inst1) => some (true, inst1 :: rest)
    | some (false, inst1) =>
      match Bloom.testLoop murmurhash2 key rest with
      | none => none
      | some (r, rest1) => some (r, inst1 :: rest1)

/-- The function `Bloom::Test(string& key)`. -/
def Bloom.Test (murmurhash2 : List Nat → Nat → Nat) (b : Bloom) (key : List Nat) :
    Option (Bool × Bloom) :=
  match Bloom.testLoop murmurhash2 key b.m_instances with
  | none => none
  | some (r, instances1) => some (r, { b with m_instances := instances1 })

/-- The function `Bloom::Reset(RESET_TYPE type)`.  The enumeration `RESET_TYPE`
is declared in `Bloom.h`; a value of it is embedded as its integer value and
the enumerator `RESET_FIRST_INSTANCE_FIRST_SLICE` is a parameter. -/
def Bloom.Reset (RESET_FIRST_INSTANCE_FIRST_SLICE : Int) (b : Bloom) (type : Int) :
    Option (Bool × Bloom) :=
  match b.m_instances with
  | [] => some (false, b)
  | inst :: rest =>
    if type = RESET_FIRST_INSTANCE_FIRST_SLICE then
      match inst.Reset with
      | none => none
      | some (r, inst1) => some (r, { b with m_instances := inst1 :: rest })
    else some (false, b)

/-- The function `Bloom::NewBloomInstance`.  `TRANSITION_PERIOD_SECONDS` is
declared in `Bloom.h` and is a parameter.  The branch `if (!instance)` is not
taken: `new` does not yield a null pointer. -/
def Bloom.NewBloomInstance (TRANSITION_PERIOD_SECONDS : Int)
    (sizing : Int → Int → Int → Int → Int × Int) (clock junk : Nat → Int)
    (b : Bloom) (entries err_mode err_deno slice_num : Int) (reset : Bool) :
    Option (Bool × Bloom) :=
  match BloomInstance.construct sizing clock junk entries err_mode err_deno slice_num reset with
  | none => none
  | some inst =>
    some (true, { m_trans_period := TRANSITION_PERIOD_SECONDS,
                  m_instances := b.m_instances ++ [inst] })

/-! ## Persistence -/

/-- Modelled from the spec: the message `pb_bloom::BloomSlice` of `bloom.pb.h`
(not part of the source): `create_time`, `access_time` (int64), `bits`,
`hashes` (int) and `data`, one `uint64` per backing word, in order. -/
structure PbBloomSlice where
  /-- Field `create_time`. -/
  create_time : Int
  /-- Field `access_time`. -/
  access_time : Int
  /-- Field `bits`. -/
  bits : Int
  /-- Field `hashes`. -/
  hashes : Int
  /-- Repeated field `data`. -/
  data : List Nat
deriving DecidableEq

/-- Modelled from the spec: the message `pb_bloom::BloomInstance` of
`bloom.pb.h` (not part of the source): `entries`, `err_mode`, `err_deno`,
`slice_num` (int), `create_time` (int64), `reset` (bool) and the repeated
`slices`. -/
structure PbBloomInstance where
  /-- Field `entries`. -/
  entries : Int
  /-- Field `err_mode`. -/
  err_mode : Int
  /-- Field `err_deno`. -/
  err_deno : Int
  /-- Field `slice_num`. -/
  slice_num : Int
  /-- Field `create_time`. -/
  create_time : Int
  /-- Field `reset`. -/
  reset : Bool
  /-- Repeated field `slices`. -/
  slices : List PbBloomSlice
deriving DecidableEq

/-- Modelled from the spec: the message `pb_bloom::Bloom` of `bloom.pb.h` (not
part of the source): `trans_period` and the repeated `instances`. -/
structure PbBloom where
  /-- Field `trans_period`. -/
  trans_period : Int
  /-- Repeated field `instances`. -/
  instances : List PbBloomInstance
deriving DecidableEq

/-- The message that the inner loop body of `Bloom::SaveBloom` fills for one
slice; `to_ullong()` yields the word. -/
def BloomSlice.record (s : BloomSlice) : PbBloomSlice :=
  { create_time := s.m_create_time, access_time := s.m_access_time,
    bits := s.m_bits, hashes := s.m_hashes, data := s.m_data.map (fun w => w) }

/-- The message that the loop body of `Bloom::SaveBloom` fills for one instance. -/
def BloomInstance.record (inst : BloomInstance) : PbBloomInstance :=
  { entries := inst.m_entries, err_mode := inst.m_err_mode, err_deno := inst.m_err_deno,
    slice_num := inst.m_slice_num, create_time := inst.m_create_time, reset := inst.m_reset,
    slices := inst.m_slices.map BloomSlice.record }

/-- The message `pbBloom` that `Bloom::SaveBloom` has filled when it calls
`SerializeToString`. -/
def Bloom.record (b : Bloom) : PbBloom :=
  { trans_period := b.m_trans_period, instances := b.m_instances.map BloomInstance.record }

/-- The function `Bloom::SaveBloom(string &buf)`.  The encoder
`SerializeToString` of the message is a parameter; the result is the buffer
when `SaveBloom` returns true and `none` when it returns false. -/
def Bloom.SaveBloom (SerializeToString : PbBloom → Option (List Nat)) (b : Bloom) :
    Option (List Nat) :=
  SerializeToString b.record

/-- The slice that the inner loop body of `Bloom::InitBloom` rebuilds from one
message; `bitset<64>(v)` holds the word `v`. -/
def BloomSlice.rebuild (pbSlice : PbBloomSlice) : BloomSlice :=
  { m_create_time := pbSlice.create_time, m_access_time := pbSlice.access_time,
    m_bits := pbSlice.bits, m_hashes := pbSlice.hashes,
    m_data := pbSlice.data.map (fun v => v) }

/-- The instance that the loop body of `Bloom::InitBloom` rebuilds from one
message; `SetSliceNum` receives `slices_size()`, the number of slice messages. -/
def BloomInstance.rebuild (pbInstance : PbBloomInstance) : BloomInstance :=
  { m_entries := pbInstance.entries, m_err_mode := pbInstance.err_mode,
    m_err_deno := pbInstance.err_deno, m_slice_num := (pbInstance.slices.length : Int),
    m_create_time := pbInstance.create_time, m_reset := pbInstance.reset,
    m_slices := pbInstance.slices.map BloomSlice.rebuild }

/-- The function `Bloom::InitBloom(string& pb)`.  The decoder `ParseFromString`
of the message is a parameter: it yields the message or rejects the buffer.
The result is the boolean returned and the filter left behind. -/
def Bloom.InitBloom (ParseFromString : List Nat → Option PbBloom) (b : Bloom) (pb : List Nat) :
    Bool × Bloom :=
  match ParseFromString pb with
  | none => (false, b)
  | some pbBloom =>
    (true, { m_trans_period := pbBloom.trans_period,
             m_instances := pbBloom.instances.map BloomInstance.rebuild })

/-! ## Observations used in the statements -/

/-- The bit that position `x` addresses: bit `x mod 64` of word `x div 64`
(a word beyond the end of `m_data` reads as zero). -/
def BloomSlice.bit (s : BloomSlice) (x : Nat) : Bool :=
  bitset_test (s.m_data.getD (x / 64) 0) (x % 64)

/-- The slice with the bit that position `x` addresses set. -/
def BloomSlice.setBit (s : BloomSlice) (x : Nat) : BloomSlice :=
  { s with m_data := s.m_data.set (x / 64) (bitset_set (s.m_data.getD (x / 64) 0) (x % 64)) }

/-- The population count of the words of a slice. -/
def BloomSlice.popcount (s : BloomSlice) : Nat := (s.m_data.map bitset_count).sum

/-- The position that iteration `i` of the loops of `BloomSlice::Add` and
`BloomSlice::Test` computes for `key`: the value of `(a + i*b) % m_bits`. -/
def BloomSlice.probe (murmurhash2 : List Nat → Nat → Nat) (s : BloomSlice) (key : List Nat)
    (i : Nat) : Nat :=
  let a : Nat := murmurhash2 (c_str_bytes key) 0x9747b28c % 4294967296
  let b : Nat := murmurhash2 (c_str_bytes key) a % 4294967296
  ((a + i * b) % 4294967296) % toUnsigned s.m_bits

/-- The fields `m_bits` and `m_hashes` hold values of their C++ type `int`. -/
def BloomSlice.Typed (s : BloomSlice) : Prop := IsInt s.m_bits ∧ IsInt s.m_hashes

instance (s : BloomSlice) : Decidable s.Typed := by
  unfold BloomSlice.Typed; exact inferInstance

/-- The storage invariant of a slice: `m_bits > 0` and `m_data` has
`ceil(m_bits / 64)` words. -/
def BloomSlice.WellFormed (s : BloomSlice) : Prop :=
  0 < s.m_bits ∧ (s.m_data.length : Int) = (s.m_bits + 63) / 64

instance (s : BloomSlice) : Decidable s.WellFormed := by
  unfold BloomSlice.WellFormed; exact inferInstance

/-- Nothing but the words differs between `s` and `t`, the number of words is
the same, and every bit set in `s` is set in `t`. -/
def BloomSlice.Sub (s t : BloomSlice) : Prop :=
  t.m_bits = s.m_bits ∧ t.m_hashes = s.m_hashes ∧
  t.m_create_time = s.m_create_time ∧ t.m_access_time = s.m_access_time ∧
  t.m_data.length = s.m_data.length ∧
  ∀ j p : Nat, (s.m_data.getD j 0).testBit p = true → (t.m_data.getD j 0).testBit p = true

/-- Every probed bit of `key` is set in the slice: each iteration of the loop
of `BloomSlice::Add` / `BloomSlice::Test` finds its bit set. -/
def BloomSlice.AllSet (murmurhash2 : List Nat → Nat → Nat) (s : BloomSlice) (key : List Nat) :
    Prop :=
  ∀ k, k < toUnsigned s.m_hashes → s.bit (s.probe murmurhash2 key k) = true

/-- A call on a slice: `Add(key)` or `Test(key)`. -/
inductive SliceOp where
  | Add (key : List Nat)
  | Test (key : List Nat)
deriving DecidableEq

/-- The slice after one call; the result of the call is dropped. -/
def BloomSlice.step (murmurhash2 : List Nat → Nat → Nat) (s : BloomSlice) :
    SliceOp → Option BloomSlice
  | SliceOp.Add key => (s.Add murmurhash2 key).map Prod.snd
  | SliceOp.Test key => (s.Test murmurhash2 key).map Prod.snd

/-- The slice after a sequence of calls, `none` when one of them does not return. -/
def BloomSlice.run (murmurhash2 : List Nat → Nat → Nat) :
    BloomSlice → List SliceOp → Option BloomSlice
  | s, [] => some s
  | s, op :: ops =>
    match s.step murmurhash2 op with
    | none => none
    | some s1 => BloomSlice.run murmurhash2 s1 ops

/-- The loop of `BloomSlice::Add` and `BloomSlice::Test` once more, recording
in order the values of `x` at which it calls `testOk`; apart from the
recording it is `BloomSlice.probeLoop`. -/
def BloomSlice.probeLoopTrace (a b : Nat) (needSet : Bool) :
    Nat → Nat → Nat → BloomSlice → Option (Nat × BloomSlice × List Nat)
  | 0, _, hits, s => some (hits, s, [])
  | n + 1, i, hits, s =>
    if toUnsigned s.m_bits = 0 then none
    else
      let x : Nat := ((a + i * b) % 4294967296) % toUnsigned s.m_bits
      match s.testOk (toInt x) needSet with
      | none => none
      | some (true, s1) =>
        (BloomSlice.probeLoopTrace a b needSet n (i + 1) (hits + 1) s1).map
          (fun r => (r.1, r.2.1, x :: r.2.2))
      | some (false, s1) =>
        (BloomSlice.probeLoopTrace a b needSet n (i + 1) hits s1).map
          (fun r => (r.1, r.2.1, x :: r.2.2))

/-- The positions that `BloomSlice::Add` (`needSet = true`) or
`BloomSlice::Test` (`needSet = false`) examines for `key`, in order; `none`
when the call does not return. -/
def BloomSlice.trace (murmurhash2 : List Nat → Nat → Nat) (s : BloomSlice) (key : List Nat)
    (needSet : Bool) : Option (List Nat) :=
  let a : Nat := murmurhash2 (c_str_bytes key) 0x9747b28c % 4294967296
  let b : Nat := murmurhash2 (c_str_bytes key) a % 4294967296
  (BloomSlice.probeLoopTrace a b needSet (toUnsigned s.m_hashes) 0 0 s).map (fun r => r.2.2)

/-- The probe positions in the words of the specification:
`x_i = (a + i*b) mod bitCount` for `i = 0 .. hashCount-1`, on the integers,
with `a = hash(key, 0x9747b28c)` and `b = hash(key, a)` the 32-bit digests. -/
def BloomSlice.specPositions (murmurhash2 : List Nat → Nat → Nat) (s : BloomSlice)
    (key : List Nat) : List Int :=
  let a : Nat := murmurhash2 (c_str_bytes key) 0x9747b28c % 4294967296
  let b : Nat := murmurhash2 (c_str_bytes key) a % 4294967296
  (List.range s.m_hashes.toNat).map (fun i => ((a : Int) + (i : Int) * (b : Int)) % s.m_bits)

/-- The value of the local `a` of `BloomSlice::Add` and `BloomSlice::Test`: the
digest of the key under the seed `0x9747b28c`, an `unsigned int`. -/
def digest_a (murmurhash2 : List Nat → Nat → Nat) (key : List Nat) : Nat :=
  murmurhash2 (c_str_bytes key) 0x9747b28c % 4294967296

/-- The value of the local `b` of `BloomSlice::Add` and `BloomSlice::Test`: the
digest of the key under the seed `a`, an `unsigned int`. -/
def digest_b (murmurhash2 : List Nat → Nat → Nat) (key : List Nat) : Nat :=
  murmurhash2 (c_str_bytes key) (digest_a murmurhash2 key) % 4294967296

/-- The instance with `m_slice_num` replaced by the number of slices it holds. -/
def BloomInstance.withCount (inst : BloomInstance) : BloomInstance :=
  { inst with m_slice_num := (inst.m_slices.length : Int) }

/-- No bit is set at a position at or beyond `m_bits`: the bits that the
positions `(a + i*b) % m_bits` cannot address are clear, as they are in every
slice that the constructor, `Add`, `Test` and `Reset` leave. -/
def BloomSlice.InRange (s : BloomSlice) : Prop :=
  ∀ x, s.m_bits.toNat ≤ x → s.bit x = false

/-! ## Relations between states and sequences of calls -/

/-- Slice by slice, `j` holds the slices of `i` with no bit cleared. -/
def BloomInstance.Sub (i j : BloomInstance) : Prop :=
  List.Forall₂ BloomSlice.Sub i.m_slices j.m_slices

/-- Every slice of the instance has `int` fields and satisfies the storage
invariant. -/
def BloomInstance.WellFormed (inst : BloomInstance) : Prop :=
  ∀ s ∈ inst.m_slices, s.Typed ∧ s.WellFormed

instance (inst : BloomInstance) : Decidable inst.WellFormed := by
  unfold BloomInstance.WellFormed; exact inferInstance

/-- Some slice of the instance has every probed bit of `key` set. -/
def BloomInstance.Holds (murmurhash2 : List Nat → Nat → Nat) (inst : BloomInstance)
    (key : List Nat) : Prop :=
  ∃ s ∈ inst.m_slices, s.AllSet murmurhash2 key

/-- The second list of instances starts with the instances of the first, in
the same order and with no bit cleared. -/
def Bloom.Grows : List BloomInstance → List BloomInstance → Prop
  | [], _ => True
  | _ :: _, [] => False
  | a :: l, b :: m => a.Sub b ∧ Bloom.Grows l m

/-- Every slice of every instance has `int` fields and satisfies the storage
invariant. -/
def Bloom.WellFormed (b : Bloom) : Prop :=
  ∀ inst ∈ b.m_instances, inst.WellFormed

instance (b : Bloom) : Decidable b.WellFormed := by
  unfold Bloom.WellFormed; exact inferInstance

/-- A call on a filter: `Add(key)`, `Test(key)` or `NewBloomInstance(...)`; the
latter carries the readings of `time(NULL)` and the unassigned access times of
the slices it constructs. -/
inductive BloomOp where
  | Add (key : List Nat)
  | Test (key : List Nat)
  | NewBloomInstance (clock junk : Nat → Int) (entries err_mode err_deno slice_num : Int)
      (reset : Bool)

/-- The call is an `Add`, a `Test`, or a `NewBloomInstance` whose constructor
returns an instance with `int` fields whose slices satisfy the storage invariant. -/
def BloomOp.Benign (sizing : Int → Int → Int → Int → Int × Int) : BloomOp → Prop
  | BloomOp.Add _ => True
  | BloomOp.Test _ => True
  | BloomOp.NewBloomInstance clock junk entries err_mode err_deno slice_num reset =>
    ∃ inst, BloomInstance.construct sizing clock junk entries err_mode err_deno slice_num reset =
      some inst ∧ inst.WellFormed

/-- The filter after one call; the result of the call is dropped. -/
def Bloom.step (murmurhash2 : List Nat → Nat → Nat) (TRANSITION_PERIOD_SECONDS : Int)
    (sizing : Int → Int → Int → Int → Int × Int) (b : Bloom) : BloomOp → Option Bloom
  | BloomOp.Add key => (b.Add murmurhash2 key).map Prod.snd
  | BloomOp.Test key => (b.Test murmurhash2 key).map Prod.snd
  | BloomOp.NewBloomInstance clock junk entries err_mode err_deno slice_num reset =>
    (Bloom.NewBloomInstance TRANSITION_PERIOD_SECONDS sizing clock junk b
      entries err_mode err_deno slice_num reset).map Prod.snd

/-- The filter after a sequence of calls, `none` when one of them does not return. -/
def Bloom.run (murmurhash2 : List Nat → Nat → Nat) (TRANSITION_PERIOD_SECONDS : Int)
    (sizing : Int → Int → Int → Int → Int × Int) : Bloom → List BloomOp → Option Bloom
  | b, [] => some b
  | b, op :: ops =>
    match b.step murmurhash2 TRANSITION_PERIOD_SECONDS sizing op with
    | none => none
    | some b1 => Bloom.run murmurhash2 TRANSITION_PERIOD_SECONDS sizing b1 ops

/-! ## Concrete data on which the theorems are instantiated -/

/-- A small deterministic hash, standing in for `murmurhash2` on concrete inputs. -/
def sampleHash (bytes : List Nat) (seed : Nat) : Nat :=
  bytes.foldl (fun acc c => acc * 31 + c + 7) seed

/-- A sizing function standing in for the floating-point sizing on concrete
inputs: ten bits per entry and seven probes. -/
def sampleSizing (avg_entries _err_mode _err_deno _slice_num : Int) : Int × Int :=
  (avg_entries * 10, 7)

/-- A clock that reads zero at every call of `time(NULL)`. -/
def zeroClock (_i : Nat) : Int := 0

/-- A slice of 100 bits in two words with three probes per key, all bits clear. -/
def sampleSlice : BloomSlice :=
  { m_bits := 100, m_hashes := 3, m_data := [0, 0], m_create_time := 0, m_access_time := 0 }

/-- A slice of 100 bits whose first word has all 64 bits set. -/
def fullSlice : BloomSlice :=
  { m_bits := 100, m_hashes := 3, m_data := [18446744073709551615, 0],
    m_create_time := 0, m_access_time := 0 }

/-- The slice that the constructor builds when the sizing yields no bit and no
probe, as for `Bloom(4000, 2, 1, 2)`: `avg_error` is `1.0` and its logarithm zero. -/
def emptySlice : BloomSlice :=
  { m_bits := 0, m_hashes := 0, m_data := [], m_create_time := 0, m_access_time := 0 }

/-- The slice with `m_bits = INT_MAX`, one probe per key and `2^25` words in
which every bit is set except the one that position `x` addresses. -/
def saturatedAt (x : Nat) : BloomSlice :=
  { m_bits := 2147483647, m_hashes := 1,
    m_data := List.replicate (x / 64) 18446744073709551615 ++
      (18446744073709551615 - 2 ^ (x % 64)) ::
        List.replicate (33554431 - x / 64) 18446744073709551615,
    m_create_time := 0, m_access_time := 0 }

/-- An instance of two empty 100-bit slices. -/
def sampleInstance : BloomInstance :=
  { m_entries := 20, m_err_mode := 1, m_err_deno := 10, m_slice_num := 2, m_reset := false,
    m_slices := [sampleSlice, sampleSlice], m_create_time := 0 }

/-- An instance whose first slice is full and whose other two slices are empty. -/
def routedInstance : BloomInstance :=
  { m_entries := 30, m_err_mode := 1, m_err_deno := 10, m_slice_num := 3, m_reset := false,
    m_slices := [fullSlice, sampleSlice, sampleSlice], m_create_time := 0 }

/-- An instance whose only slice is full. -/
def fullInstance : BloomInstance :=
  { m_entries := 10, m_err_mode := 1, m_err_deno := 10, m_slice_num := 1, m_reset := false,
    m_slices := [fullSlice], m_create_time := 0 }

/-- The instance of two slices without bits that `Bloom(4000, 2, 1, 2)` builds. -/
def degenerateInstance : BloomInstance :=
  { m_entries := 4000, m_err_mode := 2, m_err_deno := 1, m_slice_num := 2, m_reset := false,
    m_slices := [emptySlice, emptySlice], m_create_time := 0 }

/-- A filter with the single instance `sampleInstance`. -/
def sampleBloom : Bloom :=
  { m_trans_period := 86400, m_instances := [sampleInstance] }

/-- A filter with the two instances `routedInstance` and `sampleInstance`. -/
def twoInstanceBloom : Bloom :=
  { m_trans_period := 86400, m_instances := [routedInstance, sampleInstance] }

/-- A filter without instances, as the default constructor `Bloom()` leaves it. -/
def emptyBloom : Bloom := { m_trans_period := 0, m_instances := [] }

/-- A slice of 100 bits in two words whose `m_hashes` is `-1`, as `InitBloom`
rebuilds it from a record with `hashes = -1`. -/
def negativeHashSlice : BloomSlice :=
  { m_bits := 100, m_hashes := -1, m_data := [0, 0], m_create_time := 0, m_access_time := 0 }

/-- An encoder that accepts the one message `r0` and writes the buffer `[1]`. -/
def toyEncode (r0 : PbBloom) (r : PbBloom) : Option (List Nat) :=
  if r = r0 then some [1] else none

/-- The decoder that goes with `toyEncode r0`: it accepts the buffer `[1]` and
rejects every other buffer. -/
def toyDecode (r0 : PbBloom) (buf : List Nat) : Option PbBloom :=
  if buf = [1] then some r0 else none

/-- The instance that the constructor builds for `slice_num = -2`: its loop
body never runs. -/
def negativeCountInstance : BloomInstance :=
  { m_entries := 4000, m_err_mode := 1, m_err_deno := 1000, m_slice_num := -2,
    m_reset := false, m_slices := [], m_create_time := 0 }

/-- The filter that `Bloom(4000, 1, 1000, -2)` builds. -/
def negativeCountBloom : Bloom :=
  { m_trans_period := 86400, m_instances := [negativeCountInstance] }

/-- The slice that the constructor builds when `entries < slice_num`:
`avg_entries` is 0, so `bits` is 0 and there is no word, while `hashes` does not
depend on `entries` (7 under `sampleSizing`). -/
def zeroBitSlice : BloomSlice :=
  { m_bits := 0, m_hashes := 7, m_data := [], m_create_time := 0, m_access_time := 0 }

/-- The instance that the constructor builds for `entries = 1`, `slice_num = 2`. -/
def zeroBitInstance : BloomInstance :=
  { m_entries := 1, m_err_mode := 1, m_err_deno := 1000, m_slice_num := 2, m_reset := false,
    m_slices := [zeroBitSlice, zeroBitSlice], m_create_time := 0 }

/-- The filter that `Bloom(1, 1, 1000, 2)` builds. -/
def zeroBitBloom : Bloom :=
  { m_trans_period := 86400, m_instances := [zeroBitInstance] }

/-- The instance `sampleInstance` after `Add("hi")`. -/
def holdingInstance : BloomInstance :=
  { sampleInstance with
    m_slices := [{ sampleSlice with m_data := [8796093022210, 131072] }, sampleSlice] }

/-- The filter `zeroBitBloom` after `NewBloomInstance(20, 1, 10, 2, false)` and
`Add("hi")`. -/
def abortingBloom : Bloom :=
  { m_trans_period := 86400, m_instances := [zeroBitInstance, holdingInstance] }

/-- A slice with `m_bits = 128` that holds one word instead of two. -/
def truncatedSlice : BloomSlice :=
  { m_bits := 128, m_hashes := 3, m_data := [0], m_create_time := 0, m_access_time := 0 }

/-- An instance created with `reset = true` whose two slices are full. -/
def autoResetInstance : BloomInstance :=
  { m_entries := 20, m_err_mode := 1, m_err_deno := 10, m_slice_num := 2, m_reset := true,
    m_slices := [fullSlice, fullSlice], m_create_time := 0 }

/-! ## Machine integers: lemmas -/

theorem toUnsigned_lt (x : Int) : toUnsigned x < 4294967296 := by
  unfold toUnsigned; omega

theorem toUnsigned_natCast (n : Nat) : toUnsigned (n : Int) = n % 4294967296 := by
  unfold toUnsigned; omega

theorem toUnsigned_of_pos (x : Int) (h0 : 0 ≤ x) (h1 : x ≤ INT_MAX) :
    toUnsigned x = x.toNat := by
  unfold toUnsigned; unfold INT_MAX at h1; omega

theorem toInt_of_lt (n : Nat) (h : n < 2147483648) : toInt n = (n : Int) := by
  unfold toInt
  have h1 : n % 4294967296 = n := Nat.mod_eq_of_lt (by omega)
  rw [h1, if_pos h]

theorem toInt_toUnsigned (x : Int) (h : IsInt x) : toInt (toUnsigned x) = x := by
  unfold IsInt INT_MIN INT_MAX at h
  unfold toInt toUnsigned
  split <;> omega

theorem toInt_eq_iff (n : Nat) (x : Int) (hn : n ≤ toUnsigned x) (h : IsInt x) :
    toInt n = x ↔ n = toUnsigned x := by
  unfold IsInt INT_MIN INT_MAX at h
  unfold toUnsigned at hn ⊢
  unfold toInt
  split <;> omega

theorem wrap_wrap_add (a b : Int) :
    toInt (toUnsigned (toInt (toUnsigned a) + b)) = toInt (toUnsigned (a + b)) := by
  unfold toInt toUnsigned
  split <;> split <;> split <;> omega

/-! ## Words: lemmas -/

theorem testBit_bitset_set (w p q : Nat) :
    (bitset_set w p).testBit q = (w.testBit q || decide (p = q)) := by
  unfold bitset_set
  rw [Nat.testBit_or, Nat.one_shiftLeft, Nat.testBit_two_pow]

theorem bitset_count_mono (w v : Nat) (h : ∀ i, w.testBit i = true → v.testBit i = true) :
    bitset_count w ≤ bitset_count v :=
  List.countP_mono_left (fun i _ => h i)

theorem bitset_count_le (w : Nat) : bitset_count w ≤ 64 := by
  unfold bitset_count
  have h := List.countP_le_length (fun i => w.testBit i) (l := List.range 64)
  simpa using h

theorem bitset_count_zero : bitset_count 0 = 0 := by decide

theorem sum_count_mono (l m : List Nat) (hlen : l.length = m.length)
    (hj : ∀ j, bitset_count (l.getD j 0) ≤ bitset_count (m.getD j 0)) :
    (l.map bitset_count).sum ≤ (m.map bitset_count).sum := by
  induction l generalizing m with
  | nil =>
    cases m with
    | nil => exact le_refl _
    | cons c m => simp at hlen
  | cons a l ih =>
    cases m with
    | nil => simp at hlen
    | cons c m =>
      have h0 : bitset_count a ≤ bitset_count c := by simpa using hj 0
      have ht := ih m (by simpa using hlen) (fun j => by simpa using hj (j + 1))
      simp only [List.map_cons, List.sum_cons]
      omega

theorem sum_count_le : ∀ (l : List Nat), (l.map bitset_count).sum ≤ 64 * l.length
  | [] => by simp
  | a :: l => by
    have h1 := bitset_count_le a
    have h2 := sum_count_le l
    simp only [List.map_cons, List.sum_cons, List.length_cons]
    omega

theorem getD_set_eq (l : List Nat) (i j : Nat) (v : Nat) (hi : i < l.length) :
    (l.set i v).getD j 0 = if i = j then v else l.getD j 0 := by
  simp only [List.getD_eq_getElem?_getD, List.getElem?_set]
  by_cases hij : i = j
  · subst hij
    simp [hi]
  · simp [hij]

/-- The storage invariant in the words of the data model: `ceil(m_bits / 64)`
is the quotient `(m_bits + 63) / 64`. -/
theorem ceil_div_64 (b : Int) : (b + 63) / 64 = ⌈(b : ℚ) / 64⌉ := by
  symm
  rw [Int.ceil_eq_iff]
  constructor
  · rw [lt_div_iff₀ (by norm_num)]
    have h : ((b + 63) / 64 - 1) * 64 < b := by omega
    exact_mod_cast h
  · rw [div_le_iff₀ (by norm_num)]
    have h : b ≤ ((b + 63) / 64) * 64 := by omega
    exact_mod_cast h

/-! ## BloomSlice: lemmas -/

theorem BloomSlice.Sub.slice_refl (s : BloomSlice) : s.Sub s :=
  ⟨rfl, rfl, rfl, rfl, rfl, fun _ _ h => h⟩

theorem BloomSlice.Sub.slice_trans {s t u : BloomSlice} (h1 : s.Sub t) (h2 : t.Sub u) : s.Sub u :=
  ⟨h2.1.trans h1.1, h2.2.1.trans h1.2.1, h2.2.2.1.trans h1.2.2.1,
    h2.2.2.2.1.trans h1.2.2.2.1, h2.2.2.2.2.1.trans h1.2.2.2.2.1,
    fun j p hb => h2.2.2.2.2.2 j p (h1.2.2.2.2.2 j p hb)⟩

theorem BloomSlice.Sub.popcount_le {s t : BloomSlice} (h : s.Sub t) :
    s.popcount ≤ t.popcount := by
  obtain ⟨_, _, _, _, hlen, hbits⟩ := h
  exact sum_count_mono _ _ hlen.symm (fun j => bitset_count_mono _ _ (hbits j))

theorem BloomSlice.Sub.bit {s t : BloomSlice} (h : s.Sub t) (x : Nat) (hx : s.bit x = true) :
    t.bit x = true :=
  h.2.2.2.2.2 _ _ hx

theorem BloomSlice.Sub.slice_wf {s t : BloomSlice} (h : s.Sub t) (hw : s.WellFormed) :
    t.WellFormed := by
  obtain ⟨h1, _, _, _, h5, _⟩ := h
  unfold BloomSlice.WellFormed at hw ⊢
  rw [h1, h5]; exact hw

theorem BloomSlice.Sub.typed {s t : BloomSlice} (h : s.Sub t) (hw : s.Typed) : t.Typed := by
  obtain ⟨h1, h2, _⟩ := h
  unfold BloomSlice.Typed at hw ⊢
  rw [h1, h2]; exact hw

/-- Setting a bit of an existing word only adds that bit. -/
theorem BloomSlice.sub_set (s : BloomSlice) (j p : Nat) (hj : j < s.m_data.length) :
    s.Sub { s with m_data := s.m_data.set j (bitset_set (s.m_data.getD j 0) p) } := by
  refine ⟨rfl, rfl, rfl, rfl, by simp, fun k q hq => ?_⟩
  show ((s.m_data.set j (bitset_set (s.m_data.getD j 0) p)).getD k 0).testBit q = true
  rw [getD_set_eq _ _ _ _ hj]
  by_cases hjk : j = k
  · subst hjk
    rw [if_pos rfl, testBit_bitset_set, hq]; rfl
  · rw [if_neg hjk]; exact hq

/-- Whatever the position, `testOk` clears no bit and changes nothing but one word. -/
theorem BloomSlice.testOk_sub (s t : BloomSlice) (pos : Int) (needSet r : Bool)
    (h : s.testOk pos needSet = some (r, t)) : s.Sub t := by
  unfold BloomSlice.testOk at h
  simp only at h
  split at h
  · cases h; exact BloomSlice.Sub.slice_refl s
  · rename_i hlen
    split at h
    · cases h
    · split at h
      · cases h; exact BloomSlice.Sub.slice_refl s
      · split at h
        · cases h; exact BloomSlice.sub_set s _ _ (by omega)
        · cases h; exact BloomSlice.Sub.slice_refl s

/-- Without `needSet`, `testOk` leaves the slice as it is. -/
theorem BloomSlice.testOk_false_state (s t : BloomSlice) (pos : Int) (r : Bool)
    (h : s.testOk pos false = some (r, t)) : t = s := by
  unfold BloomSlice.testOk at h
  simp only at h
  split at h
  · cases h; rfl
  · split at h
    · cases h
    · split at h
      · cases h; rfl
      · simp at h; exact h.2.symm

/-- The call `testOk` at a position inside the backing array. -/
theorem BloomSlice.testOk_inbounds (s : BloomSlice) (x : Nat) (needSet : Bool)
    (hx : x < 2147483648) (hlen : x / 64 < s.m_data.length) :
    s.testOk (toInt x) needSet =
      some (s.bit x, if s.bit x || !needSet then s else s.setBit x) := by
  have h1 : toInt x = (x : Int) := toInt_of_lt x hx
  have h2 : toUnsigned ((x : Int) >>> (6 : Nat)) = x / 64 := by
    rw [Int.shiftRight_eq_div_pow]
    unfold toUnsigned
    norm_num
    omega
  have h3 : Int.tmod (x : Int) 64 = ((x % 64 : Nat) : Int) := by
    rw [Int.tmod_eq_emod] <;> omega
  unfold BloomSlice.testOk
  simp only [h1, h2, h3]
  rw [if_neg (by omega), if_neg (by omega)]
  simp only [Int.toNat_ofNat]
  unfold BloomSlice.bit BloomSlice.setBit
  cases hb : bitset_test (s.m_data.getD (x / 64) 0) (x % 64) <;> cases needSet <;> simp

/-- Whatever the slice, the probe loop clears no bit, changes nothing but the
words, and increments `hits` at most once per iteration. -/
theorem BloomSlice.probeLoop_sub (a b : Nat) (needSet : Bool) :
    ∀ (n i hits : Nat) (s t : BloomSlice) (r : Nat),
      BloomSlice.probeLoop a b needSet n i hits s = some (r, t) →
      s.Sub t ∧ hits ≤ r ∧ r ≤ hits + n
  | 0, i, hits, s, t, r, h => by
    simp only [BloomSlice.probeLoop] at h
    cases h
    exact ⟨BloomSlice.Sub.slice_refl s, le_refl _, le_refl _⟩
  | n + 1, i, hits, s, t, r, h => by
    simp only [BloomSlice.probeLoop] at h
    split at h
    · cases h
    · split at h
      · cases h
      · rename_i s1 hs1
        obtain ⟨h1, h2, h3⟩ := BloomSlice.probeLoop_sub a b needSet n (i + 1) (hits + 1) s1 t r h
        exact ⟨(BloomSlice.testOk_sub s s1 _ _ _ hs1).slice_trans h1, by omega, by omega⟩
      · rename_i s1 hs1
        obtain ⟨h1, h2, h3⟩ := BloomSlice.probeLoop_sub a b needSet n (i + 1) hits s1 t r h
        exact ⟨(BloomSlice.testOk_sub s s1 _ _ _ hs1).slice_trans h1, by omega, by omega⟩

/-- Without `needSet` the probe loop leaves the slice as it is. -/
theorem BloomSlice.probeLoop_false_state (a b : Nat) :
    ∀ (n i hits : Nat) (s t : BloomSlice) (r : Nat),
      BloomSlice.probeLoop a b false n i hits s = some (r, t) → t = s
  | 0, i, hits, s, t, r, h => by
    simp only [BloomSlice.probeLoop] at h
    cases h; rfl
  | n + 1, i, hits, s, t, r, h => by
    simp only [BloomSlice.probeLoop] at h
    split at h
    · cases h
    · split at h
      · cases h
      · rename_i s1 hs1
        have e := BloomSlice.testOk_false_state s s1 _ _ hs1
        subst e
        exact BloomSlice.probeLoop_false_state a b n (i + 1) (hits + 1) _ t r h
      · rename_i s1 hs1
        have e := BloomSlice.testOk_false_state s s1 _ _ hs1
        subst e
        exact BloomSlice.probeLoop_false_state a b n (i + 1) hits _ t r h

/-- In a slice that satisfies the storage invariant every probe position is
inside the backing array. -/
theorem BloomSlice.probe_inbounds (s : BloomSlice) (ht : s.Typed) (hw : s.WellFormed) (y : Nat) :
    toUnsigned s.m_bits ≠ 0 ∧ y % toUnsigned s.m_bits < 2147483648 ∧
      (y % toUnsigned s.m_bits) / 64 < s.m_data.length := by
  obtain ⟨⟨_, hmax⟩, _⟩ := ht
  obtain ⟨hpos, hlen⟩ := hw
  unfold INT_MAX at hmax
  have hM : toUnsigned s.m_bits = s.m_bits.toNat := toUnsigned_of_pos _ (by omega) hmax
  have hlt : y % toUnsigned s.m_bits < toUnsigned s.m_bits := Nat.mod_lt _ (by omega)
  refine ⟨by omega, by omega, ?_⟩
  omega

/-- One iteration of the probe loop in a slice that satisfies the storage
invariant. -/
theorem BloomSlice.probeLoop_succ (a b : Nat) (needSet : Bool) (n i hits : Nat) (s : BloomSlice)
    (ht : s.Typed) (hw : s.WellFormed) :
    BloomSlice.probeLoop a b needSet (n + 1) i hits s =
      BloomSlice.probeLoop a b needSet n (i + 1)
        (if s.bit (((a + i * b) % 4294967296) % toUnsigned s.m_bits) then hits + 1 else hits)
        (if s.bit (((a + i * b) % 4294967296) % toUnsigned s.m_bits) || !needSet then s
         else s.setBit (((a + i * b) % 4294967296) % toUnsigned s.m_bits)) := by
  obtain ⟨h0, h1, h2⟩ := BloomSlice.probe_inbounds s ht hw ((a + i * b) % 4294967296)
  simp only [BloomSlice.probeLoop]
  rw [if_neg h0, BloomSlice.testOk_inbounds s _ needSet h1 h2]
  cases hb : s.bit (((a + i * b) % 4294967296) % toUnsigned s.m_bits) <;> simp

theorem BloomSlice.bit_setBit (s : BloomSlice) (x : Nat) (h : x / 64 < s.m_data.length) :
    (s.setBit x).bit x = true := by
  unfold BloomSlice.bit BloomSlice.setBit bitset_test
  simp only
  rw [getD_set_eq _ _ _ _ h, if_pos rfl, testBit_bitset_set]
  simp

theorem BloomSlice.testBit_setBit (s : BloomSlice) (x j p : Nat) (h : x / 64 < s.m_data.length)
    (hb : ((s.setBit x).m_data.getD j 0).testBit p = true) :
    (s.m_data.getD j 0).testBit p = true ∨ (x / 64 = j ∧ x % 64 = p) := by
  unfold BloomSlice.setBit at hb
  simp only at hb
  rw [getD_set_eq _ _ _ _ h] at hb
  by_cases hj : x / 64 = j
  · rw [if_pos hj, testBit_bitset_set, hj] at hb
    simp only [Bool.or_eq_true, decide_eq_true_eq] at hb
    rcases hb with hb | hb
    · exact Or.inl hb
    · exact Or.inr ⟨hj, hb⟩
  · rw [if_neg hj] at hb
    exact Or.inl hb

/-- The probe loop in a slice that satisfies the storage invariant: it
returns, `hits` grows by the full number of iterations exactly when every
probed bit was set at the start (and then the slice is unchanged), with
`needSet` every probed bit is set at the end, and a bit set at the end was set
at the start or was probed.  `P k` is the position of iteration `k`. -/
theorem BloomSlice.probeLoop_spec (a b : Nat) (needSet : Bool) (M : Nat) (P : Nat → Nat)
    (hP : ∀ k, P k = ((a + k * b) % 4294967296) % M) :
    ∀ (n i hits : Nat) (s : BloomSlice), s.Typed → s.WellFormed → toUnsigned s.m_bits = M →
      ∃ r t, BloomSlice.probeLoop a b needSet n i hits s = some (r, t) ∧
        (r = hits + n ↔ ∀ k, k < n → s.bit (P (i + k)) = true) ∧
        ((∀ k, k < n → s.bit (P (i + k)) = true) → t = s) ∧
        (needSet = true → ∀ k, k < n → t.bit (P (i + k)) = true) ∧
        (∀ j p, (t.m_data.getD j 0).testBit p = true →
          (s.m_data.getD j 0).testBit p = true ∨
            (p < 64 ∧ ∃ k, k < n ∧ P (i + k) = 64 * j + p))
  | 0, i, hits, s, _, _, _ => by
    refine ⟨hits, s, rfl, ?_, fun _ => rfl, fun _ k hk => absurd hk (Nat.not_lt_zero k),
      fun j p h => Or.inl h⟩
    constructor
    · intro _ k hk; exact absurd hk (Nat.not_lt_zero k)
    · intro _; rfl
  | n + 1, i, hits, s, ht, hw, hM => by
    have hstep := BloomSlice.probeLoop_succ a b needSet n i hits s ht hw
    rw [hM, ← hP i] at hstep
    obtain ⟨_, _, hin⟩ := BloomSlice.probe_inbounds s ht hw ((a + i * b) % 4294967296)
    rw [hM, ← hP i] at hin
    have hshift : ∀ k, i + 1 + k = i + (k + 1) := fun k => by omega
    cases hb : s.bit (P i)
    · -- the probed bit is clear
      cases hns : needSet
      · -- Test: the slice stays as it is
        subst hns
        rw [hb] at hstep
        simp only [Bool.false_eq_true, if_false, Bool.not_false, Bool.or_true, if_true] at hstep
        obtain ⟨r, t, hr, _, _, _, h4⟩ :=
          BloomSlice.probeLoop_spec a b false M P hP n (i + 1) hits s ht hw hM
        have hle := (BloomSlice.probeLoop_sub a b false n (i + 1) hits s t r hr).2.2
        refine ⟨r, t, hstep.trans hr, ?_, ?_, ?_, ?_⟩
        · constructor
          · intro h; omega
          · intro h
            have := h 0 (Nat.succ_pos n)
            rw [Nat.add_zero, hb] at this
            cases this
        · intro h
          have := h 0 (Nat.succ_pos n)
          rw [Nat.add_zero, hb] at this
          cases this
        · intro h; cases h
        · intro j p hjp
          rcases h4 j p hjp with h | ⟨hp, k, hk, hk2⟩
          · exact Or.inl h
          · exact Or.inr ⟨hp, k + 1, Nat.succ_lt_succ hk, by rw [← hshift]; exact hk2⟩
      · -- Add: the bit gets set
        subst hns
        rw [hb] at hstep
        simp only [Bool.false_eq_true, if_false, Bool.not_true, Bool.or_false] at hstep
        have hsub : s.Sub (s.setBit (P i)) := BloomSlice.sub_set s _ _ hin
        obtain ⟨r, t, hr, _, _, h3, h4⟩ :=
          BloomSlice.probeLoop_spec a b true M P hP n (i + 1) hits (s.setBit (P i))
            (hsub.typed ht) (hsub.slice_wf hw) hM
        obtain ⟨hsub2, _, hle⟩ :=
          BloomSlice.probeLoop_sub a b true n (i + 1) hits (s.setBit (P i)) t r hr
        refine ⟨r, t, hstep.trans hr, ?_, ?_, ?_, ?_⟩
        · constructor
          · intro h; omega
          · intro h
            have := h 0 (Nat.succ_pos n)
            rw [Nat.add_zero, hb] at this
            cases this
        · intro h
          have := h 0 (Nat.succ_pos n)
          rw [Nat.add_zero, hb] at this
          cases this
        · intro _ k hk
          cases k with
          | zero => exact hsub2.bit _ (BloomSlice.bit_setBit s _ hin)
          | succ k => rw [← hshift]; exact h3 rfl k (Nat.lt_of_succ_lt_succ hk)
        · intro j p hjp
          rcases h4 j p hjp with h | ⟨hp, k, hk, hk2⟩
          · rcases BloomSlice.testBit_setBit s (P i) j p hin h with h | ⟨h5, h6⟩
            · exact Or.inl h
            · refine Or.inr ⟨by omega, 0, Nat.succ_pos n, ?_⟩
              rw [Nat.add_zero]; omega
          · exact Or.inr ⟨hp, k + 1, Nat.succ_lt_succ hk, by rw [← hshift]; exact hk2⟩
    · -- the probed bit is set: a hit, the slice stays as it is
      rw [hb] at hstep
      simp only [if_true, Bool.true_or] at hstep
      obtain ⟨r, t, hr, h1, h2, h3, h4⟩ :=
        BloomSlice.probeLoop_spec a b needSet M P hP n (i + 1) (hits + 1) s ht hw hM
      have hall : (∀ k, k < n + 1 → s.bit (P (i + k)) = true) ↔
          (∀ k, k < n → s.bit (P (i + 1 + k)) = true) := by
        constructor
        · intro h k hk; rw [hshift]; exact h (k + 1) (Nat.succ_lt_succ hk)
        · intro h k hk
          cases k with
          | zero => exact hb
          | succ k => rw [← hshift]; exact h k (Nat.lt_of_succ_lt_succ hk)
      refine ⟨r, t, hstep.trans hr, ?_, ?_, ?_, ?_⟩
      · rw [hall, ← h1]; omega
      · intro h; exact h2 (hall.mp h)
      · intro hns k hk
        cases k with
        | zero =>
          exact (BloomSlice.probeLoop_sub a b needSet n (i + 1) (hits + 1) s t r hr).1.bit _ hb
        | succ k => rw [← hshift]; exact h3 hns k (Nat.lt_of_succ_lt_succ hk)
      · intro j p hjp
        rcases h4 j p hjp with h | ⟨hp, k, hk, hk2⟩
        · exact Or.inl h
        · exact Or.inr ⟨hp, k + 1, Nat.succ_lt_succ hk, by rw [← hshift]; exact hk2⟩

theorem BloomSlice.Sub.probe {s t : BloomSlice} (h : s.Sub t)
    (murmurhash2 : List Nat → Nat → Nat) (key : List Nat) (k : Nat) :
    t.probe murmurhash2 key k = s.probe murmurhash2 key k := by
  unfold BloomSlice.probe; rw [h.1]

theorem BloomSlice.Sub.allSet {s t : BloomSlice} (h : s.Sub t)
    (murmurhash2 : List Nat → Nat → Nat) (key : List Nat) (ha : s.AllSet murmurhash2 key) :
    t.AllSet murmurhash2 key := by
  intro k hk
  rw [h.probe]
  rw [h.2.1] at hk
  exact h.bit _ (ha k hk)

/-- The call `BloomSlice::Add` on a slice that satisfies the storage invariant. -/
theorem BloomSlice.Add_spec (murmurhash2 : List Nat → Nat → Nat) (s : BloomSlice)
    (key : List Nat) (ht : s.Typed) (hw : s.WellFormed) :
    ∃ r t, s.Add murmurhash2 key = some (r, t) ∧ s.Sub t ∧
      (r = false ↔ s.AllSet murmurhash2 key) ∧
      (s.AllSet murmurhash2 key → t = s) ∧
      t.AllSet murmurhash2 key ∧
      (∀ j p, (t.m_data.getD j 0).testBit p = true →
        (s.m_data.getD j 0).testBit p = true ∨
          (p < 64 ∧ ∃ k, k < toUnsigned s.m_hashes ∧ s.probe murmurhash2 key k = 64 * j + p)) := by
  obtain ⟨n, t, hr, h1, h2, h3, h4⟩ :=
    BloomSlice.probeLoop_spec
      (murmurhash2 (c_str_bytes key) 0x9747b28c % 4294967296)
      (murmurhash2 (c_str_bytes key)
        (murmurhash2 (c_str_bytes key) 0x9747b28c % 4294967296) % 4294967296)
      true (toUnsigned s.m_bits) (s.probe murmurhash2 key) (fun _ => rfl)
      (toUnsigned s.m_hashes) 0 0 s ht hw rfl
  obtain ⟨hsub, _, hle⟩ := BloomSlice.probeLoop_sub _ _ _ _ _ _ _ _ _ hr
  simp only [Nat.zero_add] at h1 h2 h3 h4 hle
  have hcmp : toInt n = t.m_hashes ↔ n = toUnsigned s.m_hashes := by
    rw [hsub.2.1]; exact toInt_eq_iff n _ hle ht.2
  have hall : t.AllSet murmurhash2 key := by
    intro k hk
    rw [hsub.probe]
    rw [hsub.2.1] at hk
    exact h3 trivial k hk
  by_cases hn : n = toUnsigned s.m_hashes
  · refine ⟨false, t, ?_, hsub, ?_, h2, hall, h4⟩
    · unfold BloomSlice.Add
      simp only [hr]
      rw [if_pos (hcmp.mpr hn)]
    · exact ⟨fun _ => h1.mp hn, fun _ => rfl⟩
  · refine ⟨true, t, ?_, hsub, ?_, h2, hall, h4⟩
    · unfold BloomSlice.Add
      simp only [hr]
      rw [if_neg (fun h => hn (hcmp.mp h))]
    · exact ⟨fun h => Bool.noConfusion h, fun h => absurd (h1.mpr h) hn⟩

/-- The call `BloomSlice::Test` on a slice that satisfies the storage invariant. -/
theorem BloomSlice.Test_spec (murmurhash2 : List Nat → Nat → Nat) (s : BloomSlice)
    (key : List Nat) (ht : s.Typed) (hw : s.WellFormed) :
    ∃ r, s.Test murmurhash2 key = some (r, s) ∧ (r = true ↔ s.AllSet murmurhash2 key) := by
  obtain ⟨n, t, hr, h1, _, _, _⟩ :=
    BloomSlice.probeLoop_spec
      (murmurhash2 (c_str_bytes key) 0x9747b28c % 4294967296)
      (murmurhash2 (c_str_bytes key)
        (murmurhash2 (c_str_bytes key) 0x9747b28c % 4294967296) % 4294967296)
      false (toUnsigned s.m_bits) (s.probe murmurhash2 key) (fun _ => rfl)
      (toUnsigned s.m_hashes) 0 0 s ht hw rfl
  obtain ⟨_, _, hle⟩ := BloomSlice.probeLoop_sub _ _ _ _ _ _ _ _ _ hr
  have hts : t = s := BloomSlice.probeLoop_false_state _ _ _ _ _ _ _ _ hr
  subst hts
  simp only [Nat.zero_add] at h1 hle
  have hcmp : toInt n = t.m_hashes ↔ n = toUnsigned t.m_hashes := toInt_eq_iff n _ hle ht.2
  by_cases hn : n = toUnsigned t.m_hashes
  · refine ⟨true, ?_, fun _ => h1.mp hn, fun _ => rfl⟩
    unfold BloomSlice.Test
    simp only [hr]
    rw [if_pos (hcmp.mpr hn)]
  · refine ⟨false, ?_, fun h => Bool.noConfusion h, fun h => absurd (h1.mpr h) hn⟩
    unfold BloomSlice.Test
    simp only [hr]
    rw [if_neg (fun h => hn (hcmp.mp h))]

/-- Whatever the slice, a call of `Add` that returns clears no bit. -/
theorem BloomSlice.Add_sub (murmurhash2 : List Nat → Nat → Nat) (s t : BloomSlice)
    (key : List Nat) (r : Bool) (h : s.Add murmurhash2 key = some (r, t)) : s.Sub t := by
  unfold BloomSlice.Add at h
  simp only at h
  split at h
  · cases h
  · rename_i n s1 hs1
    have hsub := (BloomSlice.probeLoop_sub _ _ _ _ _ _ _ _ _ hs1).1
    split at h <;> cases h <;> exact hsub

/-- Whatever the slice, a call of `Test` that returns leaves the slice as it is. -/
theorem BloomSlice.Test_state (murmurhash2 : List Nat → Nat → Nat) (s t : BloomSlice)
    (key : List Nat) (r : Bool) (h : s.Test murmurhash2 key = some (r, t)) : t = s := by
  unfold BloomSlice.Test at h
  simp only at h
  split at h
  · cases h
  · rename_i n s1 hs1
    have hst := BloomSlice.probeLoop_false_state _ _ _ _ _ _ _ _ hs1
    split at h <;> cases h <;> exact hst

/-- Whatever the slice, a sequence of calls that returns clears no bit. -/
theorem BloomSlice.run_sub (murmurhash2 : List Nat → Nat → Nat) :
    ∀ (ops : List SliceOp) (s t : BloomSlice), BloomSlice.run murmurhash2 s ops = some t → s.Sub t
  | [], s, t, h => by
    simp only [BloomSlice.run] at h
    cases h; exact BloomSlice.Sub.slice_refl s
  | op :: ops, s, t, h => by
    simp only [BloomSlice.run] at h
    split at h
    · cases h
    · rename_i s1 hs1
      have h2 := BloomSlice.run_sub murmurhash2 ops s1 t h
      cases op with
      | Add key =>
        simp only [BloomSlice.step, Option.map_eq_some'] at hs1
        obtain ⟨⟨r, u⟩, hu, rfl⟩ := hs1
        exact (BloomSlice.Add_sub murmurhash2 s u key r hu).slice_trans h2
      | Test key =>
        simp only [BloomSlice.step, Option.map_eq_some'] at hs1
        obtain ⟨⟨r, u⟩, hu, rfl⟩ := hs1
        have := BloomSlice.Test_state murmurhash2 s u key r hu
        subst this
        exact h2

/-- On a slice that satisfies the storage invariant every sequence of calls returns. -/
theorem BloomSlice.run_total (murmurhash2 : List Nat → Nat → Nat) :
    ∀ (ops : List SliceOp) (s : BloomSlice), s.Typed → s.WellFormed →
      ∃ t, BloomSlice.run murmurhash2 s ops = some t
  | [], s, _, _ => ⟨s, rfl⟩
  | op :: ops, s, ht, hw => by
    cases op with
    | Add key =>
      obtain ⟨r, t, hr, hsub, _⟩ := BloomSlice.Add_spec murmurhash2 s key ht hw
      obtain ⟨u, hu⟩ := BloomSlice.run_total murmurhash2 ops t (hsub.typed ht) (hsub.slice_wf hw)
      exact ⟨u, by simp only [BloomSlice.run, BloomSlice.step, hr, Option.map_some']; exact hu⟩
    | Test key =>
      obtain ⟨r, hr, _⟩ := BloomSlice.Test_spec murmurhash2 s key ht hw
      obtain ⟨u, hu⟩ := BloomSlice.run_total murmurhash2 ops s ht hw
      exact ⟨u, by simp only [BloomSlice.run, BloomSlice.step, hr, Option.map_some']; exact hu⟩

/-! ## Slice level: membership, insert result, idempotence -/

/-- C1. No false negatives at slice level: on a slice with `int` fields,
`m_bits > 0` and `ceil(m_bits / 64)` words, `Add(key)` returns, whatever its
result `Test(key)` then returns true, and after any further sequence of `Add`
and `Test` calls (which all return) `Test(key)` still returns true. -/
theorem slice_no_false_negatives (murmurhash2 : List Nat → Nat → Nat) (s : BloomSlice)
    (key : List Nat) (ht : s.Typed) (hw : s.WellFormed) :
    ∃ r s1, s.Add murmurhash2 key = some (r, s1) ∧
      s1.Test murmurhash2 key = some (true, s1) ∧
      ∀ ops : List SliceOp, ∃ s2, BloomSlice.run murmurhash2 s1 ops = some s2 ∧
        s2.Test murmurhash2 key = some (true, s2) := by
  obtain ⟨r, s1, hadd, hsub, _, _, hall, _⟩ := BloomSlice.Add_spec murmurhash2 s key ht hw
  have key_test : ∀ t : BloomSlice, s1.Sub t → t.Test murmurhash2 key = some (true, t) := by
    intro t hst
    obtain ⟨q, hq, hiff⟩ :=
      BloomSlice.Test_spec murmurhash2 t key (hst.typed (hsub.typed ht))
        (hst.slice_wf (hsub.slice_wf hw))
    have : q = true := hiff.mpr (hst.allSet murmurhash2 key hall)
    rw [hq, this]
  refine ⟨r, s1, hadd, key_test s1 (BloomSlice.Sub.slice_refl s1), fun ops => ?_⟩
  obtain ⟨s2, hs2⟩ :=
    BloomSlice.run_total murmurhash2 ops s1 (hsub.typed ht) (hsub.slice_wf hw)
  exact ⟨s2, hs2, key_test s2 (BloomSlice.run_sub murmurhash2 ops s1 s2 hs2)⟩

/-- C1 at `sampleSlice` with the key `"hi"`. -/
theorem slice_no_false_negatives_witness :
    sampleSlice.Typed ∧ sampleSlice.WellFormed ∧
    ∃ r s1, sampleSlice.Add sampleHash [104, 105] = some (r, s1) ∧
      s1.Test sampleHash [104, 105] = some (true, s1) ∧
      ∀ ops : List SliceOp, ∃ s2, BloomSlice.run sampleHash s1 ops = some s2 ∧
        s2.Test sampleHash [104, 105] = some (true, s2) :=
  ⟨by decide, by decide,
    slice_no_false_negatives sampleHash sampleSlice [104, 105] (by decide) (by decide)⟩

/-- C3. Return value of slice insert: on a slice with `int` fields, `m_bits > 0`
and `ceil(m_bits / 64)` words, `Add(key)` returns false exactly when every probed
bit of `key` was set before the call, which is exactly when `Test(key)`
returned true before the call; in both cases nothing but the words changes,
their number stays, and a bit is set after the call exactly when it was set
before or is a probed bit of `key`. -/
theorem slice_add_result (murmurhash2 : List Nat → Nat → Nat) (s : BloomSlice)
    (key : List Nat) (ht : s.Typed) (hw : s.WellFormed) :
    ∃ r t, s.Add murmurhash2 key = some (r, t) ∧
      (r = false ↔ s.AllSet murmurhash2 key) ∧
      (r = false ↔ s.Test murmurhash2 key = some (true, s)) ∧
      t.m_bits = s.m_bits ∧ t.m_hashes = s.m_hashes ∧
      t.m_create_time = s.m_create_time ∧ t.m_access_time = s.m_access_time ∧
      t.m_data.length = s.m_data.length ∧
      ∀ j p, (t.m_data.getD j 0).testBit p = true ↔
        ((s.m_data.getD j 0).testBit p = true ∨
          (p < 64 ∧ ∃ k, k < toUnsigned s.m_hashes ∧
            s.probe murmurhash2 key k = 64 * j + p)) := by
  obtain ⟨r, t, hadd, hsub, hr, _, hall, hbits⟩ := BloomSlice.Add_spec murmurhash2 s key ht hw
  obtain ⟨q, hq, hqiff⟩ := BloomSlice.Test_spec murmurhash2 s key ht hw
  refine ⟨r, t, hadd, hr, ?_, hsub.1, hsub.2.1, hsub.2.2.1, hsub.2.2.2.1, hsub.2.2.2.2.1, ?_⟩
  · rw [hr, ← hqiff, hq]
    constructor
    · intro h; rw [h]
    · intro h; simpa using h
  · intro j p
    constructor
    · exact hbits j p
    · rintro (h | ⟨hp, k, hk, hk2⟩)
      · exact hsub.2.2.2.2.2 j p h
      · have hb := hall k (by rw [hsub.2.1]; exact hk)
        rw [hsub.probe, hk2] at hb
        unfold BloomSlice.bit bitset_test at hb
        have e1 : (64 * j + p) / 64 = j := by omega
        have e2 : (64 * j + p) % 64 = p := by omega
        rw [e1, e2] at hb
        exact hb

/-- C3 at `sampleSlice` with the key `"hi"`. -/
theorem slice_add_result_witness :
    sampleSlice.Typed ∧ sampleSlice.WellFormed ∧
    ∃ r t, sampleSlice.Add sampleHash [104, 105] = some (r, t) ∧
      (r = false ↔ sampleSlice.AllSet sampleHash [104, 105]) ∧
      (r = false ↔ sampleSlice.Test sampleHash [104, 105] = some (true, sampleSlice)) ∧
      t.m_bits = sampleSlice.m_bits ∧ t.m_hashes = sampleSlice.m_hashes ∧
      t.m_create_time = sampleSlice.m_create_time ∧
      t.m_access_time = sampleSlice.m_access_time ∧
      t.m_data.length = sampleSlice.m_data.length ∧
      ∀ j p, (t.m_data.getD j 0).testBit p = true ↔
        ((sampleSlice.m_data.getD j 0).testBit p = true ∨
          (p < 64 ∧ ∃ k, k < toUnsigned sampleSlice.m_hashes ∧
            sampleSlice.probe sampleHash [104, 105] k = 64 * j + p)) :=
  ⟨by decide, by decide,
    slice_add_result sampleHash sampleSlice [104, 105] (by decide) (by decide)⟩

/-- C4. Idempotence of insert-as-membership: on a slice with `int` fields,
`m_bits > 0` and `ceil(m_bits / 64)` words, when `Add(key)` is called twice in
a row the second call returns false and leaves the slice, hence every backing
word and the bit population, exactly as the first call left it. -/
theorem slice_add_twice (murmurhash2 : List Nat → Nat → Nat) (s : BloomSlice)
    (key : List Nat) (ht : s.Typed) (hw : s.WellFormed) :
    ∃ r s1, s.Add murmurhash2 key = some (r, s1) ∧
      s1.Add murmurhash2 key = some (false, s1) ∧
      ∀ r2 s2, s1.Add murmurhash2 key = some (r2, s2) →
        r2 = false ∧ s2.m_data = s1.m_data ∧ s2.popcount = s1.popcount := by
  obtain ⟨r, s1, hadd, hsub, _, _, hall, _⟩ := BloomSlice.Add_spec murmurhash2 s key ht hw
  obtain ⟨r2, s2, hadd2, _, hr2, hsame, _, _⟩ :=
    BloomSlice.Add_spec murmurhash2 s1 key (hsub.typed ht) (hsub.slice_wf hw)
  have e1 : r2 = false := hr2.mpr hall
  have e2 : s2 = s1 := hsame hall
  subst e1 e2
  refine ⟨r, s2, hadd, hadd2, fun r3 s3 h3 => ?_⟩
  rw [hadd2] at h3
  cases h3
  exact ⟨rfl, rfl, rfl⟩

/-- C4 at `sampleSlice` with the key `"hi"`. -/
theorem slice_add_twice_witness :
    sampleSlice.Typed ∧ sampleSlice.WellFormed ∧
    ∃ r s1, sampleSlice.Add sampleHash [104, 105] = some (r, s1) ∧
      s1.Add sampleHash [104, 105] = some (false, s1) ∧
      ∀ r2 s2, s1.Add sampleHash [104, 105] = some (r2, s2) →
        r2 = false ∧ s2.m_data = s1.m_data ∧ s2.popcount = s1.popcount :=
  ⟨by decide, by decide,
    slice_add_twice sampleHash sampleSlice [104, 105] (by decide) (by decide)⟩

/-! ## Fullness -/

theorem ones_foldl (l : List Nat) : ∀ init : Int,
    l.foldl (fun ones w => toInt (toUnsigned (ones + (bitset_count w : Int))))
        (toInt (toUnsigned init)) =
      toInt (toUnsigned (init + ((l.map bitset_count).sum : Nat))) := by
  induction l with
  | nil => intro init; simp
  | cons w l ih =>
    intro init
    simp only [List.foldl_cons, List.map_cons, List.sum_cons]
    rw [wrap_wrap_add, ih]
    congr 2
    push_cast
    ring

/-- The accumulator of `Full` is the population count read as an `int`. -/
theorem BloomSlice.ones_eq (s : BloomSlice) : s.ones = toInt (toUnsigned (s.popcount : Int)) := by
  have h := ones_foldl s.m_data 0
  have h0 : toInt (toUnsigned 0) = 0 := by decide
  rw [h0, Int.zero_add] at h
  exact h

/-- Below `2^31` bits of storage the accumulator of `Full` is the population count. -/
theorem BloomSlice.ones_small (s : BloomSlice) (h : 64 * s.m_data.length < 2147483648) :
    s.ones = (s.popcount : Int) := by
  have hle : s.popcount ≤ 64 * s.m_data.length := sum_count_le s.m_data
  rw [BloomSlice.ones_eq, toUnsigned_natCast, toInt_of_lt]
  · congr 1; omega
  · omega

theorem BloomSlice.Sub.full {s t : BloomSlice} (h : s.Sub t)
    (hsmall : 64 * s.m_data.length < 2147483648) (hf : s.Full = true) : t.Full = true := by
  have h1 := BloomSlice.ones_small s hsmall
  have h2 := BloomSlice.ones_small t (by rw [h.2.2.2.2.1]; exact hsmall)
  have h3 := h.popcount_le
  unfold BloomSlice.Full at hf ⊢
  rw [decide_eq_true_eq] at hf ⊢
  rw [h.1, h2]
  rw [h1] at hf
  omega

/-- Fullness below `2^31` bits of storage: on a slice that satisfies the
storage invariant every sequence of `Add` and `Test` calls returns; on every
slice a sequence of `Add` and `Test` calls that returns clears no bit and does
not decrease the population count of the words; and when the words hold fewer
than `2^31` bits, `Full()` once true is still true after the sequence. -/
theorem slice_full_monotone (murmurhash2 : List Nat → Nat → Nat) (s : BloomSlice)
    (ops : List SliceOp) :
    (s.Typed → s.WellFormed → ∃ t, BloomSlice.run murmurhash2 s ops = some t) ∧
    ∀ t, BloomSlice.run murmurhash2 s ops = some t →
      (∀ j p, (s.m_data.getD j 0).testBit p = true → (t.m_data.getD j 0).testBit p = true) ∧
      s.popcount ≤ t.popcount ∧
      (64 * s.m_data.length < 2147483648 → s.Full = true → t.Full = true) := by
  refine ⟨BloomSlice.run_total murmurhash2 ops s, fun t ht => ?_⟩
  have hsub := BloomSlice.run_sub murmurhash2 ops s t ht
  exact ⟨hsub.2.2.2.2.2, hsub.popcount_le, fun h1 h2 => hsub.full h1 h2⟩

/-- Fullness is kept at `fullSlice` by an `Add` and a `Test`. -/
theorem slice_full_monotone_witness :
    fullSlice.Full = true ∧
    ∃ t, BloomSlice.run sampleHash fullSlice [SliceOp.Add [104, 105], SliceOp.Test [97]] =
        some t ∧
      fullSlice.popcount ≤ t.popcount ∧ t.Full = true := by
  have h := slice_full_monotone sampleHash fullSlice [SliceOp.Add [104, 105], SliceOp.Test [97]]
  obtain ⟨t, ht⟩ := h.1 (by decide) (by decide)
  obtain ⟨_, h2, h3⟩ := h.2 t ht
  exact ⟨by decide, t, ht, h2, h3 (by decide) (by decide)⟩

/-- With one probe per key whose bit is clear, `Add` sets that bit and returns true. -/
theorem BloomSlice.Add_single_clear (murmurhash2 : List Nat → Nat → Nat) (s : BloomSlice)
    (key : List Nat) (ht : s.Typed) (hw : s.WellFormed) (hc : s.m_hashes = 1)
    (hb : s.bit (s.probe murmurhash2 key 0) = false) :
    s.Add murmurhash2 key = some (true, s.setBit (s.probe murmurhash2 key 0)) := by
  obtain ⟨r, t, hadd, _, hr, _, _, _⟩ := BloomSlice.Add_spec murmurhash2 s key ht hw
  have hstep := BloomSlice.probeLoop_succ
    (murmurhash2 (c_str_bytes key) 0x9747b28c % 4294967296)
    (murmurhash2 (c_str_bytes key)
      (murmurhash2 (c_str_bytes key) 0x9747b28c % 4294967296) % 4294967296)
    true 0 0 0 s ht hw
  have hx : s.probe murmurhash2 key 0 =
      ((murmurhash2 (c_str_bytes key) 0x9747b28c % 4294967296 +
        0 * (murmurhash2 (c_str_bytes key)
          (murmurhash2 (c_str_bytes key) 0x9747b28c % 4294967296) % 4294967296)) % 4294967296) %
        toUnsigned s.m_bits := rfl
  rw [← hx, hb] at hstep
  simp only [Bool.false_eq_true, if_false, Bool.not_true, Bool.or_false] at hstep
  have h0 : ∀ a b : Nat, ∀ u : BloomSlice,
      BloomSlice.probeLoop a b true 0 (0 + 1) 0 u = some (0, u) := fun _ _ _ => rfl
  rw [h0] at hstep
  have hc1 : toUnsigned s.m_hashes = 0 + 1 := by rw [hc]; decide
  have hm : (s.setBit (s.probe murmurhash2 key 0)).m_hashes = 1 := hc
  unfold BloomSlice.Add
  simp only
  rw [hc1, hstep]
  simp only [hm]
  rw [if_neg (by decide)]

set_option maxRecDepth 100000 in
theorem count_all_but_one : ∀ p, p < 64 → bitset_count (18446744073709551615 - 2 ^ p) = 63 := by
  decide

set_option maxRecDepth 100000 in
theorem testBit_all_but_one : ∀ p, p < 64 →
    (18446744073709551615 - 2 ^ p).testBit p = false := by
  decide

set_option maxRecDepth 100000 in
theorem set_all_but_one : ∀ p, p < 64 →
    bitset_set (18446744073709551615 - 2 ^ p) p = 18446744073709551615 := by
  decide

theorem saturatedAt_typed (x : Nat) : (saturatedAt x).Typed := by
  have h1 : IsInt 2147483647 := by decide
  have h2 : IsInt 1 := by decide
  exact ⟨h1, h2⟩

theorem saturatedAt_wf (x : Nat) (hx : x < 2147483647) : (saturatedAt x).WellFormed := by
  have h1 : (0 : Int) < 2147483647 := by decide
  refine ⟨h1, ?_⟩
  unfold saturatedAt
  simp only [List.length_append, List.length_cons, List.length_replicate]
  omega

theorem saturatedAt_popcount (x : Nat) (hx : x < 2147483647) :
    (saturatedAt x).popcount = 2147483647 := by
  unfold BloomSlice.popcount saturatedAt
  have h1 : bitset_count 18446744073709551615 = 64 := by decide
  simp only [List.map_append, List.map_cons, List.map_replicate, List.sum_append, List.sum_cons,
    List.sum_replicate, smul_eq_mul, h1, count_all_but_one (x % 64) (Nat.mod_lt _ (by omega))]
  omega

theorem saturatedAt_bit (x : Nat) : (saturatedAt x).bit x = false := by
  unfold BloomSlice.bit saturatedAt bitset_test
  simp only
  rw [List.getD_eq_getElem?_getD, List.getElem?_append_right (by simp)]
  simp only [List.length_replicate, Nat.sub_self, List.getElem?_cons_zero, Option.getD_some]
  exact testBit_all_but_one (x % 64) (Nat.mod_lt _ (by omega))

theorem saturatedAt_setBit_popcount (x : Nat) (hx : x < 2147483647) :
    ((saturatedAt x).setBit x).popcount = 2147483648 := by
  have hd : ((saturatedAt x).setBit x).m_data =
      List.replicate (x / 64) 18446744073709551615 ++
        18446744073709551615 :: List.replicate (33554431 - x / 64) 18446744073709551615 := by
    unfold BloomSlice.setBit saturatedAt
    simp only
    rw [List.getD_eq_getElem?_getD, List.getElem?_append_right (by simp)]
    simp only [List.length_replicate, Nat.sub_self, List.getElem?_cons_zero, Option.getD_some]
    rw [set_all_but_one (x % 64) (Nat.mod_lt _ (by omega))]
    rw [List.set_append_right _ _ (by simp)]
    simp only [List.length_replicate, Nat.sub_self, List.set_cons_zero]
  unfold BloomSlice.popcount
  rw [hd]
  have h1 : bitset_count 18446744073709551615 = 64 := by decide
  simp only [List.map_append, List.map_cons, List.map_replicate, List.sum_append, List.sum_cons,
    List.sum_replicate, smul_eq_mul, h1]
  omega

/-- Whatever the hash and the key, some slice that satisfies the storage
invariant is `Full()` before `Add(key)` and not `Full()` after it. -/
theorem full_lost_under_any_hash (murmurhash2 : List Nat → Nat → Nat) (key : List Nat) :
    ∃ s t : BloomSlice, s.Typed ∧ s.WellFormed ∧ s.Full = true ∧
      s.Add murmurhash2 key = some (true, t) ∧ t.Full = false := by
  have hM : toUnsigned 2147483647 = 2147483647 := by decide
  have hx : (saturatedAt 0).probe murmurhash2 key 0 < 2147483647 := by
    unfold BloomSlice.probe
    simp only
    have : (saturatedAt 0).m_bits = 2147483647 := rfl
    rw [this, hM]
    exact Nat.mod_lt _ (by omega)
  have hprobe : ∀ y, (saturatedAt y).probe murmurhash2 key 0 =
      (saturatedAt 0).probe murmurhash2 key 0 := fun _ => rfl
  refine ⟨saturatedAt ((saturatedAt 0).probe murmurhash2 key 0),
    (saturatedAt ((saturatedAt 0).probe murmurhash2 key 0)).setBit
      ((saturatedAt 0).probe murmurhash2 key 0),
    saturatedAt_typed _, saturatedAt_wf _ hx, ?_, ?_, ?_⟩
  · have hb : ∀ y, (saturatedAt y).m_bits = 2147483647 := fun _ => rfl
    unfold BloomSlice.Full
    rw [BloomSlice.ones_eq, saturatedAt_popcount _ hx, hb]
    decide
  · have := BloomSlice.Add_single_clear murmurhash2
      (saturatedAt ((saturatedAt 0).probe murmurhash2 key 0)) key (saturatedAt_typed _)
      (saturatedAt_wf _ hx) rfl (by rw [hprobe]; exact saturatedAt_bit _)
    rw [hprobe] at this
    exact this
  · have hb : ∀ y z, ((saturatedAt y).setBit z).m_bits = 2147483647 := fun _ _ => rfl
    unfold BloomSlice.Full
    rw [BloomSlice.ones_eq, saturatedAt_setBit_popcount _ hx, hb]
    decide

/-! ## BloomInstance: lemmas -/

theorem slices_sub_refl (l : List BloomSlice) : List.Forall₂ BloomSlice.Sub l l :=
  List.forall₂_same.mpr (fun s _ => BloomSlice.Sub.slice_refl s)

theorem slices_sub_trans {l m n : List BloomSlice} (h1 : List.Forall₂ BloomSlice.Sub l m) :
    List.Forall₂ BloomSlice.Sub m n → List.Forall₂ BloomSlice.Sub l n := by
  induction h1 generalizing n with
  | nil => intro h; cases h; exact List.Forall₂.nil
  | cons hab _ ih =>
    intro h
    cases h with
    | cons hbc htl => exact List.Forall₂.cons (hab.slice_trans hbc) (ih htl)

theorem slices_sub_wf {l m : List BloomSlice} (h : List.Forall₂ BloomSlice.Sub l m)
    (hw : ∀ s ∈ l, s.Typed ∧ s.WellFormed) : ∀ s ∈ m, s.Typed ∧ s.WellFormed := by
  induction h with
  | nil => intro s hs; cases hs
  | cons hab _ ih =>
    intro s hs
    rcases List.mem_cons.mp hs with rfl | hs
    · have := hw _ (List.mem_cons_self _ _)
      exact ⟨hab.typed this.1, hab.slice_wf this.2⟩
    · exact ih (fun s hs => hw s (List.mem_cons_of_mem _ hs)) s hs

theorem slices_sub_holds {l m : List BloomSlice} (h : List.Forall₂ BloomSlice.Sub l m)
    (murmurhash2 : List Nat → Nat → Nat) (key : List Nat)
    (hh : ∃ s ∈ l, s.AllSet murmurhash2 key) : ∃ s ∈ m, s.AllSet murmurhash2 key := by
  induction h with
  | nil => obtain ⟨s, hs, _⟩ := hh; cases hs
  | cons hab _ ih =>
    obtain ⟨s, hs, hall⟩ := hh
    rcases List.mem_cons.mp hs with rfl | hs
    · exact ⟨_, List.mem_cons_self _ _, hab.allSet murmurhash2 key hall⟩
    · obtain ⟨t, ht, htall⟩ := ih ⟨s, hs, hall⟩
      exact ⟨t, List.mem_cons_of_mem _ ht, htall⟩

/-- Whatever the slices, the loop of `BloomInstance::Add` clears no bit. -/
theorem BloomInstance.addLoop_sub (murmurhash2 : List Nat → Nat → Nat) (key : List Nat) :
    ∀ (l m : List BloomSlice) (r : Bool),
      BloomInstance.addLoop murmurhash2 key l = some (r, m) → List.Forall₂ BloomSlice.Sub l m
  | [], m, r, h => by
    simp only [BloomInstance.addLoop] at h
    cases h; exact List.Forall₂.nil
  | s :: rest, m, r, h => by
    simp only [BloomInstance.addLoop] at h
    split at h
    · split at h
      · cases h
      · rename_i q s1 hs1
        cases h
        exact List.Forall₂.cons (BloomSlice.Add_sub murmurhash2 s s1 key _ hs1)
          (slices_sub_refl rest)
    · split at h
      · cases h
      · rename_i q rest1 hrest
        cases h
        exact List.Forall₂.cons (BloomSlice.Sub.slice_refl s)
          (BloomInstance.addLoop_sub murmurhash2 key rest rest1 _ hrest)

/-- On slices that satisfy the storage invariant the loop of
`BloomInstance::Add` returns, and when it returns true some slice has every
probed bit of the key set. -/
theorem BloomInstance.addLoop_wf (murmurhash2 : List Nat → Nat → Nat) (key : List Nat) :
    ∀ (l : List BloomSlice), (∀ s ∈ l, s.Typed ∧ s.WellFormed) →
      ∃ r m, BloomInstance.addLoop murmurhash2 key l = some (r, m) ∧
        (r = true → ∃ s ∈ m, s.AllSet murmurhash2 key)
  | [], _ => ⟨false, [], rfl, fun h => Bool.noConfusion h⟩
  | s :: rest, hw => by
    have hs := hw s (List.mem_cons_self _ _)
    by_cases hf : (!s.Full) = true
    · obtain ⟨r, t, hadd, _, _, _, hall, _⟩ := BloomSlice.Add_spec murmurhash2 s key hs.1 hs.2
      refine ⟨r, t :: rest, ?_, fun _ => ⟨t, List.mem_cons_self _ _, hall⟩⟩
      simp only [BloomInstance.addLoop, hf, if_true, hadd]
    · obtain ⟨r, m, hm, hr⟩ :=
        BloomInstance.addLoop_wf murmurhash2 key rest
          (fun x hx => hw x (List.mem_cons_of_mem _ hx))
      refine ⟨r, s :: m, ?_, fun h => ?_⟩
      · simp only [BloomInstance.addLoop, hf, if_false, hm]
        simp
      · obtain ⟨x, hx, hxall⟩ := hr h
        exact ⟨x, List.mem_cons_of_mem _ hx, hxall⟩

/-- Whatever the slices, the loop of `BloomInstance::Test` leaves them as they are. -/
theorem BloomInstance.testLoop_state_inst (murmurhash2 : List Nat → Nat → Nat) (key : List Nat) :
    ∀ (l m : List BloomSlice) (r : Bool),
      BloomInstance.testLoop murmurhash2 key l = some (r, m) → m = l
  | [], m, r, h => by
    simp only [BloomInstance.testLoop] at h
    cases h; rfl
  | s :: rest, m, r, h => by
    simp only [BloomInstance.testLoop] at h
    split at h
    · cases h
    · rename_i s1 hs1
      cases h
      rw [BloomSlice.Test_state murmurhash2 s s1 key _ hs1]
    · rename_i s1 hs1
      split at h
      · cases h
      · rename_i q rest1 hrest
        cases h
        rw [BloomSlice.Test_state murmurhash2 s s1 key _ hs1,
          BloomInstance.testLoop_state_inst murmurhash2 key rest rest1 _ hrest]

/-- On slices that satisfy the storage invariant the loop of
`BloomInstance::Test` returns true exactly when some slice has every probed
bit of the key set. -/
theorem BloomInstance.testLoop_wf_inst (murmurhash2 : List Nat → Nat → Nat) (key : List Nat) :
    ∀ (l : List BloomSlice), (∀ s ∈ l, s.Typed ∧ s.WellFormed) →
      ∃ r, BloomInstance.testLoop murmurhash2 key l = some (r, l) ∧
        (r = true ↔ ∃ s ∈ l, s.AllSet murmurhash2 key)
  | [], _ => ⟨false, rfl, fun h => Bool.noConfusion h, fun ⟨_, hs, _⟩ => by cases hs⟩
  | s :: rest, hw => by
    have hs := hw s (List.mem_cons_self _ _)
    obtain ⟨q, hq, hqiff⟩ := BloomSlice.Test_spec murmurhash2 s key hs.1 hs.2
    cases q with
    | true =>
      refine ⟨true, ?_, fun _ => ⟨s, List.mem_cons_self _ _, hqiff.mp rfl⟩, fun _ => rfl⟩
      simp only [BloomInstance.testLoop, hq]
    | false =>
      obtain ⟨r, hr, hriff⟩ :=
        BloomInstance.testLoop_wf_inst murmurhash2 key rest
          (fun x hx => hw x (List.mem_cons_of_mem _ hx))
      refine ⟨r, ?_, fun h => ?_, fun h => ?_⟩
      · simp only [BloomInstance.testLoop, hq, hr]
      · obtain ⟨x, hx, hxall⟩ := hriff.mp h
        exact ⟨x, List.mem_cons_of_mem _ hx, hxall⟩
      · obtain ⟨x, hx, hxall⟩ := h
        rcases List.mem_cons.mp hx with rfl | hx
        · exact absurd (hqiff.mpr hxall) (by simp)
        · exact hriff.mpr ⟨x, hx, hxall⟩

theorem BloomInstance.Sub.inst_refl (i : BloomInstance) : i.Sub i := slices_sub_refl _

theorem BloomInstance.Sub.inst_trans {i j k : BloomInstance} (h1 : i.Sub j) (h2 : j.Sub k) :
    i.Sub k := slices_sub_trans h1 h2

theorem BloomInstance.Sub.inst_wf {i j : BloomInstance} (h : i.Sub j) (hw : i.WellFormed) :
    j.WellFormed := slices_sub_wf h hw

theorem BloomInstance.Sub.holds {i j : BloomInstance} (h : i.Sub j)
    (murmurhash2 : List Nat → Nat → Nat) (key : List Nat) (hh : i.Holds murmurhash2 key) :
    j.Holds murmurhash2 key := slices_sub_holds h murmurhash2 key hh

/-- Whatever the instance, a call of `Add` that returns clears no bit. -/
theorem BloomInstance.Add_sub_inst (murmurhash2 : List Nat → Nat → Nat) (i j : BloomInstance)
    (key : List Nat) (r : Bool) (h : i.Add murmurhash2 key = some (r, j)) : i.Sub j := by
  unfold BloomInstance.Add at h
  split at h
  · cases h
  · rename_i q m hm
    cases h
    exact BloomInstance.addLoop_sub murmurhash2 key _ _ _ hm

/-- On an instance whose slices satisfy the storage invariant `Add` returns,
and when it returns true the instance holds the key. -/
theorem BloomInstance.Add_wf_inst (murmurhash2 : List Nat → Nat → Nat) (i : BloomInstance)
    (key : List Nat) (hw : i.WellFormed) :
    ∃ r j, i.Add murmurhash2 key = some (r, j) ∧ (r = true → j.Holds murmurhash2 key) := by
  obtain ⟨r, m, hm, hr⟩ := BloomInstance.addLoop_wf murmurhash2 key i.m_slices hw
  exact ⟨r, { i with m_slices := m }, by simp only [BloomInstance.Add, hm], hr⟩

/-- Whatever the instance, a call of `Test` that returns leaves it as it is. -/
theorem BloomInstance.Test_state_inst (murmurhash2 : List Nat → Nat → Nat) (i j : BloomInstance)
    (key : List Nat) (r : Bool) (h : i.Test murmurhash2 key = some (r, j)) : j = i := by
  unfold BloomInstance.Test at h
  split at h
  · cases h
  · rename_i q m hm
    cases h
    rw [BloomInstance.testLoop_state_inst murmurhash2 key _ _ _ hm]

/-- On an instance whose slices satisfy the storage invariant `Test` returns
true exactly when the instance holds the key. -/
theorem BloomInstance.Test_wf_inst (murmurhash2 : List Nat → Nat → Nat) (i : BloomInstance)
    (key : List Nat) (hw : i.WellFormed) :
    ∃ r, i.Test murmurhash2 key = some (r, i) ∧ (r = true ↔ i.Holds murmurhash2 key) := by
  obtain ⟨r, hr, hiff⟩ := BloomInstance.testLoop_wf_inst murmurhash2 key i.m_slices hw
  exact ⟨r, by simp only [BloomInstance.Test, hr], hiff⟩

/-! ## Bloom: lemmas -/

theorem Bloom.Grows.grows_refl : ∀ l : List BloomInstance, Bloom.Grows l l
  | [] => trivial
  | a :: l => ⟨BloomInstance.Sub.inst_refl a, Bloom.Grows.grows_refl l⟩

theorem Bloom.Grows.grows_trans : ∀ (l m n : List BloomInstance),
    Bloom.Grows l m → Bloom.Grows m n → Bloom.Grows l n
  | [], _, _, _, _ => trivial
  | _ :: _, [], _, h, _ => h.elim
  | _ :: _, _ :: _, [], _, h => h.elim
  | _ :: l, _ :: m, _ :: n, h1, h2 =>
    ⟨h1.1.inst_trans h2.1, Bloom.Grows.grows_trans l m n h1.2 h2.2⟩

theorem Bloom.Grows.append : ∀ (l x : List BloomInstance), Bloom.Grows l (l ++ x)
  | [], _ => trivial
  | a :: l, x => ⟨BloomInstance.Sub.inst_refl a, Bloom.Grows.append l x⟩

theorem Bloom.Grows.last : ∀ (l : List BloomInstance) (a b : BloomInstance), a.Sub b →
    Bloom.Grows (l ++ [a]) (l ++ [b])
  | [], _, _, h => ⟨h, trivial⟩
  | c :: l, a, b, h => ⟨BloomInstance.Sub.inst_refl c, Bloom.Grows.last l a b h⟩

/-- Whatever the instances, the loop of `Bloom::Test` leaves them as they are. -/
theorem Bloom.testLoop_state_filter (murmurhash2 : List Nat → Nat → Nat) (key : List Nat) :
    ∀ (l m : List BloomInstance) (r : Bool),
      Bloom.testLoop murmurhash2 key l = some (r, m) → m = l
  | [], m, r, h => by
    simp only [Bloom.testLoop] at h
    cases h; rfl
  | s :: rest, m, r, h => by
    simp only [Bloom.testLoop] at h
    split at h
    · cases h
    · rename_i s1 hs1
      cases h
      rw [BloomInstance.Test_state_inst murmurhash2 s s1 key _ hs1]
    · rename_i s1 hs1
      split at h
      · cases h
      · rename_i q rest1 hrest
        cases h
        rw [BloomInstance.Test_state_inst murmurhash2 s s1 key _ hs1,
          Bloom.testLoop_state_filter murmurhash2 key rest rest1 _ hrest]

/-- Whatever the filter, a call of `Test` that returns leaves it as it is. -/
theorem Bloom.Test_state_filter (murmurhash2 : List Nat → Nat → Nat) (b c : Bloom)
    (key : List Nat) (r : Bool) (h : b.Test murmurhash2 key = some (r, c)) : c = b := by
  unfold Bloom.Test at h
  split at h
  · cases h
  · rename_i q m hm
    cases h
    rw [Bloom.testLoop_state_filter murmurhash2 key _ _ _ hm]

/-- The loop of `Bloom::Test` returns true on every list of instances that
starts with grown copies of well-formed instances one of which holds the key. -/
theorem Bloom.testLoop_hit (murmurhash2 : List Nat → Nat → Nat) (key : List Nat) :
    ∀ (l m : List BloomInstance), Bloom.Grows l m → (∀ i ∈ l, i.WellFormed) →
      (∃ i ∈ l, i.Holds murmurhash2 key) → Bloom.testLoop murmurhash2 key m = some (true, m)
  | [], _, _, _, ⟨_, hi, _⟩ => by cases hi
  | _ :: _, [], h, _, _ => h.elim
  | a :: l, b :: m, hg, hw, hh => by
    have hbw : b.WellFormed := hg.1.inst_wf (hw a (List.mem_cons_self _ _))
    obtain ⟨q, hq, hqiff⟩ := BloomInstance.Test_wf_inst murmurhash2 b key hbw
    cases q with
    | true => simp only [Bloom.testLoop, hq]
    | false =>
      have hrest : ∃ i ∈ l, i.Holds murmurhash2 key := by
        obtain ⟨i, hi, hih⟩ := hh
        rcases List.mem_cons.mp hi with rfl | hi
        · exact absurd (hqiff.mpr (hg.1.holds murmurhash2 key hih)) (by simp)
        · exact ⟨i, hi, hih⟩
      have := Bloom.testLoop_hit murmurhash2 key l m hg.2
        (fun i hi => hw i (List.mem_cons_of_mem _ hi)) hrest
      simp only [Bloom.testLoop, hq, this]

/-- On a well-formed filter the loop of `Bloom::Test` returns. -/
theorem Bloom.testLoop_wf_filter (murmurhash2 : List Nat → Nat → Nat) (key : List Nat) :
    ∀ (l : List BloomInstance), (∀ i ∈ l, i.WellFormed) →
      ∃ r, Bloom.testLoop murmurhash2 key l = some (r, l)
  | [], _ => ⟨false, rfl⟩
  | a :: l, hw => by
    obtain ⟨q, hq, _⟩ := BloomInstance.Test_wf_inst murmurhash2 a key (hw a (List.mem_cons_self _ _))
    cases q with
    | true => exact ⟨true, by simp only [Bloom.testLoop, hq]⟩
    | false =>
      obtain ⟨r, hr⟩ := Bloom.testLoop_wf_filter murmurhash2 key l
        (fun i hi => hw i (List.mem_cons_of_mem _ hi))
      exact ⟨r, by simp only [Bloom.testLoop, hq, hr]⟩

/-- The shape of `Bloom::Add` on a filter with a last instance. -/
theorem Bloom.Add_concat (murmurhash2 : List Nat → Nat → Nat) (b : Bloom)
    (init : List BloomInstance) (last : BloomInstance) (key : List Nat)
    (h : b.m_instances = init ++ [last]) :
    b.Add murmurhash2 key =
      (last.Add murmurhash2 key).map
        (fun r => (r.1, { b with m_instances := init ++ [r.2] })) := by
  unfold Bloom.Add
  rw [h, List.getLast?_concat, List.dropLast_concat]
  cases hadd : last.Add murmurhash2 key with
  | none => simp only [hadd, Option.map_none']
  | some r => simp only [hadd, Option.map_some']

/-- Whatever the filter, a call of `Add` that returns keeps every instance in
its place and clears no bit. -/
theorem Bloom.Add_grows (murmurhash2 : List Nat → Nat → Nat) (b c : Bloom)
    (key : List Nat) (r : Bool) (h : b.Add murmurhash2 key = some (r, c)) :
    Bloom.Grows b.m_instances c.m_instances := by
  rcases List.eq_nil_or_concat b.m_instances with hnil | ⟨init, last, hl⟩
  · unfold Bloom.Add at h
    rw [hnil] at h
    simp only [List.getLast?_nil] at h
    cases h
    exact Bloom.Grows.grows_refl _
  · rw [List.concat_eq_append] at hl
    rw [Bloom.Add_concat murmurhash2 b init last key hl] at h
    simp only [Option.map_eq_some'] at h
    obtain ⟨⟨q, j⟩, hj, hc⟩ := h
    cases hc
    rw [hl]
    exact Bloom.Grows.last init last j (BloomInstance.Add_sub_inst murmurhash2 last j key q hj)

/-- Whatever the filter, a call that returns keeps every instance in its place
and clears no bit. -/
theorem Bloom.step_grows (murmurhash2 : List Nat → Nat → Nat) (TRANSITION_PERIOD_SECONDS : Int)
    (sizing : Int → Int → Int → Int → Int × Int) (b c : Bloom) (op : BloomOp)
    (h : b.step murmurhash2 TRANSITION_PERIOD_SECONDS sizing op = some c) :
    Bloom.Grows b.m_instances c.m_instances := by
  cases op with
  | Add key =>
    simp only [Bloom.step, Option.map_eq_some'] at h
    obtain ⟨⟨r, d⟩, hd, rfl⟩ := h
    exact Bloom.Add_grows murmurhash2 b d key r hd
  | Test key =>
    simp only [Bloom.step, Option.map_eq_some'] at h
    obtain ⟨⟨r, d⟩, hd, rfl⟩ := h
    rw [Bloom.Test_state_filter murmurhash2 b d key r hd]
    exact Bloom.Grows.grows_refl _
  | NewBloomInstance clock junk entries err_mode err_deno slice_num reset =>
    simp only [Bloom.step, Option.map_eq_some'] at h
    obtain ⟨⟨r, d⟩, hd, rfl⟩ := h
    unfold Bloom.NewBloomInstance at hd
    split at hd
    · cases hd
    · cases hd
      exact Bloom.Grows.append _ _

/-- Whatever the filter, a sequence of calls that returns keeps every instance
in its place and clears no bit. -/
theorem Bloom.run_grows (murmurhash2 : List Nat → Nat → Nat) (TRANSITION_PERIOD_SECONDS : Int)
    (sizing : Int → Int → Int → Int → Int × Int) :
    ∀ (ops : List BloomOp) (b c : Bloom),
      Bloom.run murmurhash2 TRANSITION_PERIOD_SECONDS sizing b ops = some c →
      Bloom.Grows b.m_instances c.m_instances
  | [], b, c, h => by
    simp only [Bloom.run] at h
    cases h; exact Bloom.Grows.grows_refl _
  | op :: ops, b, c, h => by
    simp only [Bloom.run] at h
    split at h
    · cases h
    · rename_i b1 hb1
      exact Bloom.Grows.grows_trans _ _ _
        (Bloom.step_grows murmurhash2 TRANSITION_PERIOD_SECONDS sizing b b1 op hb1)
        (Bloom.run_grows murmurhash2 TRANSITION_PERIOD_SECONDS sizing ops b1 c h)

/-- On a well-formed filter `Add` returns, the filter stays well-formed, and
when `Add` returns true some instance holds the key. -/
theorem Bloom.Add_wf_filter (murmurhash2 : List Nat → Nat → Nat) (b : Bloom) (key : List Nat)
    (hw : b.WellFormed) :
    ∃ r c, b.Add murmurhash2 key = some (r, c) ∧ c.WellFormed ∧
      (r = true → ∃ i ∈ c.m_instances, i.Holds murmurhash2 key) := by
  rcases List.eq_nil_or_concat b.m_instances with hnil | ⟨init, last, hl⟩
  · refine ⟨false, b, ?_, hw, fun h => Bool.noConfusion h⟩
    unfold Bloom.Add
    rw [hnil]
    rfl
  · rw [List.concat_eq_append] at hl
    have hlast : last.WellFormed := hw last (by rw [hl]; simp)
    obtain ⟨r, j, hj, hr⟩ := BloomInstance.Add_wf_inst murmurhash2 last key hlast
    have hjw : j.WellFormed := (BloomInstance.Add_sub_inst murmurhash2 last j key r hj).inst_wf hlast
    refine ⟨r, { b with m_instances := init ++ [j] }, ?_, ?_, fun h => ⟨j, by simp, hr h⟩⟩
    · rw [Bloom.Add_concat murmurhash2 b init last key hl, hj]
      rfl
    · intro i hi
      rcases List.mem_append.mp hi with hi | hi
      · exact hw i (by rw [hl]; exact List.mem_append_left _ hi)
      · rw [List.mem_singleton.mp hi]; exact hjw

/-- On a well-formed filter every sequence of benign calls returns. -/
theorem Bloom.run_total_filter (murmurhash2 : List Nat → Nat → Nat)
    (TRANSITION_PERIOD_SECONDS : Int) (sizing : Int → Int → Int → Int → Int × Int) :
    ∀ (ops : List BloomOp) (b : Bloom), b.WellFormed → (∀ op ∈ ops, op.Benign sizing) →
      ∃ c, Bloom.run murmurhash2 TRANSITION_PERIOD_SECONDS sizing b ops = some c
  | [], b, _, _ => ⟨b, rfl⟩
  | op :: ops, b, hw, hq => by
    have hrest : ∀ o ∈ ops, o.Benign sizing := fun o ho => hq o (List.mem_cons_of_mem _ ho)
    cases op with
    | Add key =>
      obtain ⟨r, c, hc, hcw, _⟩ := Bloom.Add_wf_filter murmurhash2 b key hw
      obtain ⟨d, hd⟩ :=
        Bloom.run_total_filter murmurhash2 TRANSITION_PERIOD_SECONDS sizing ops c hcw hrest
      exact ⟨d, by simp only [Bloom.run, Bloom.step, hc, Option.map_some']; exact hd⟩
    | Test key =>
      obtain ⟨r, hr⟩ := Bloom.testLoop_wf_filter murmurhash2 key b.m_instances hw
      obtain ⟨d, hd⟩ :=
        Bloom.run_total_filter murmurhash2 TRANSITION_PERIOD_SECONDS sizing ops b hw hrest
      exact ⟨d, by simp only [Bloom.run, Bloom.step, Bloom.Test, hr, Option.map_some']; exact hd⟩
    | NewBloomInstance clock junk entries err_mode err_deno slice_num reset =>
      obtain ⟨inst, hinst, hiw⟩ := hq _ (List.mem_cons_self _ _)
      have hcw : Bloom.WellFormed
          { m_trans_period := TRANSITION_PERIOD_SECONDS, m_instances := b.m_instances ++ [inst] } := by
        intro i hi
        rcases List.mem_append.mp hi with hi | hi
        · exact hw i hi
        · rw [List.mem_singleton.mp hi]; exact hiw
      obtain ⟨d, hd⟩ :=
        Bloom.run_total_filter murmurhash2 TRANSITION_PERIOD_SECONDS sizing ops _ hcw hrest
      exact ⟨d, by
        simp only [Bloom.run, Bloom.step, Bloom.NewBloomInstance, hinst, Option.map_some']
        exact hd⟩

/-! ## Filter level: membership across growth -/

/-- C2. No false negatives at filter level across growth: on a filter whose
slices all have `int` fields and satisfy the storage invariant `Add(key)`
returns; when it returns true, `Test(key)` returns true, and after every
further sequence of `Add`, `Test` and `NewBloomInstance` calls that returns
`Test(key)` still returns true; such a sequence returns whenever each of its
`NewBloomInstance` calls builds an instance whose slices satisfy the storage
invariant. -/
theorem filter_no_false_negatives (murmurhash2 : List Nat → Nat → Nat)
    (TRANSITION_PERIOD_SECONDS : Int) (sizing : Int → Int → Int → Int → Int × Int)
    (b : Bloom) (key : List Nat) (hw : b.WellFormed) :
    ∃ r b1, b.Add murmurhash2 key = some (r, b1) ∧
      (r = true →
        b1.Test murmurhash2 key = some (true, b1) ∧
        (∀ ops : List BloomOp, (∀ op ∈ ops, op.Benign sizing) →
          ∃ b2, Bloom.run murmurhash2 TRANSITION_PERIOD_SECONDS sizing b1 ops = some b2) ∧
        (∀ (ops : List BloomOp) (b2 : Bloom),
          Bloom.run murmurhash2 TRANSITION_PERIOD_SECONDS sizing b1 ops = some b2 →
          b2.Test murmurhash2 key = some (true, b2))) := by
  obtain ⟨r, b1, hadd, hw1, hr⟩ := Bloom.Add_wf_filter murmurhash2 b key hw
  refine ⟨r, b1, hadd, fun hrt => ?_⟩
  have hold := hr hrt
  have key_test : ∀ c : Bloom, Bloom.Grows b1.m_instances c.m_instances →
      c.Test murmurhash2 key = some (true, c) := by
    intro c hg
    have := Bloom.testLoop_hit murmurhash2 key b1.m_instances c.m_instances hg hw1 hold
    simp only [Bloom.Test, this]
  exact ⟨key_test b1 (Bloom.Grows.grows_refl _),
    fun ops hq => Bloom.run_total_filter murmurhash2 TRANSITION_PERIOD_SECONDS sizing ops b1 hw1 hq,
    fun ops b2 hrun =>
      key_test b2 (Bloom.run_grows murmurhash2 TRANSITION_PERIOD_SECONDS sizing ops b1 b2 hrun)⟩

/-- C2 at `sampleBloom` with the key `"hi"`, whose `Add` returns true: `Test`
of the key is true at once, after every sequence that returns, and after the
sequence `NewBloomInstance(20, 1, 10, 2, false)`, `Add("yo")`, `Test("a")`,
which returns. -/
theorem filter_no_false_negatives_witness :
    sampleBloom.WellFormed ∧
    ∃ b1, sampleBloom.Add sampleHash [104, 105] = some (true, b1) ∧
      b1.Test sampleHash [104, 105] = some (true, b1) ∧
      (∀ (ops : List BloomOp) (b2 : Bloom),
        Bloom.run sampleHash 86400 sampleSizing b1 ops = some b2 →
        b2.Test sampleHash [104, 105] = some (true, b2)) ∧
      ∃ b2, Bloom.run sampleHash 86400 sampleSizing b1
          [BloomOp.NewBloomInstance zeroClock zeroClock 20 1 10 2 false,
            BloomOp.Add [121, 111], BloomOp.Test [97]] = some b2 ∧
        b2.Test sampleHash [104, 105] = some (true, b2) := by
  obtain ⟨r, b1, h1, h2⟩ :=
    filter_no_false_negatives sampleHash 86400 sampleSizing sampleBloom [104, 105] (by decide)
  have hr : r = true := by
    have hc : (sampleBloom.Add sampleHash [104, 105]).map Prod.fst = some true := by decide
    rw [h1] at hc
    simpa using hc
  subst hr
  obtain ⟨h3, h4, h5⟩ := h2 rfl
  obtain ⟨b2, hb2⟩ := h4
    [BloomOp.NewBloomInstance zeroClock zeroClock 20 1 10 2 false,
      BloomOp.Add [121, 111], BloomOp.Test [97]]
    (by
      intro op hop
      simp only [List.mem_cons, List.mem_singleton, List.not_mem_nil, or_false] at hop
      rcases hop with rfl | rfl | rfl
      · exact ⟨_, rfl, by decide⟩
      · trivial
      · trivial)
  exact ⟨by decide, b1, h1, h3, h5, b2, hb2, h5 _ b2 hb2⟩

/-! ## Instance level: insert routing and rotation -/

theorem BloomInstance.addLoop_route (murmurhash2 : List Nat → Nat → Nat) (key : List Nat)
    (s : BloomSlice) (post : List BloomSlice) (hs : s.Full = false) :
    ∀ pre : List BloomSlice, (∀ x ∈ pre, x.Full = true) →
      BloomInstance.addLoop murmurhash2 key (pre ++ s :: post) =
        (s.Add murmurhash2 key).map (fun rs => (rs.1, pre ++ rs.2 :: post))
  | [], _ => by
    simp only [List.nil_append, BloomInstance.addLoop, hs, Bool.not_false, if_true]
    cases s.Add murmurhash2 key with
    | none => rfl
    | some rs => rfl
  | a :: pre, hpre => by
    have ha : a.Full = true := hpre a (List.mem_cons_self _ _)
    have ih := BloomInstance.addLoop_route murmurhash2 key s post hs pre
      (fun x hx => hpre x (List.mem_cons_of_mem _ hx))
    show BloomInstance.addLoop murmurhash2 key (a :: (pre ++ s :: post)) = _
    rw [BloomInstance.addLoop]
    simp only [ha, Bool.not_true, Bool.false_eq_true, if_false]
    rw [ih]
    cases s.Add murmurhash2 key with
    | none => rfl
    | some rs => rfl

theorem BloomInstance.addLoop_all_full (murmurhash2 : List Nat → Nat → Nat) (key : List Nat) :
    ∀ l : List BloomSlice, (∀ x ∈ l, x.Full = true) →
      BloomInstance.addLoop murmurhash2 key l = some (false, l)
  | [], _ => rfl
  | a :: l, hl => by
    have ha : a.Full = true := hl a (List.mem_cons_self _ _)
    have ih := BloomInstance.addLoop_all_full murmurhash2 key l
      (fun x hx => hl x (List.mem_cons_of_mem _ hx))
    simp only [BloomInstance.addLoop, ha, Bool.not_true, Bool.false_eq_true, if_false, ih]

/-- C6. Instance insert routing: `BloomInstance::Add(key)` is the call
`BloomSlice::Add(key)` on the first slice in storage order that is not
`Full()`: it returns that call's result (and does not return when that call
does not), replaces that slice by the slice the call leaves and changes
nothing else; when every slice is `Full()`, or there is no slice, it returns
false and leaves the instance unchanged. -/
theorem instance_add_routing (murmurhash2 : List Nat → Nat → Nat) (inst : BloomInstance)
    (key : List Nat) :
    (∀ (pre : List BloomSlice) (s : BloomSlice) (post : List BloomSlice),
      inst.m_slices = pre ++ s :: post → (∀ x ∈ pre, x.Full = true) → s.Full = false →
      inst.Add murmurhash2 key =
        (s.Add murmurhash2 key).map
          (fun rs => (rs.1, { inst with m_slices := pre ++ rs.2 :: post }))) ∧
    ((∀ x ∈ inst.m_slices, x.Full = true) → inst.Add murmurhash2 key = some (false, inst)) := by
  constructor
  · intro pre s post hsl hpre hs
    unfold BloomInstance.Add
    rw [hsl, BloomInstance.addLoop_route murmurhash2 key s post hs pre hpre]
    cases s.Add murmurhash2 key with
    | none => rfl
    | some rs => rfl
  · intro hall
    unfold BloomInstance.Add
    rw [BloomInstance.addLoop_all_full murmurhash2 key _ hall]

/-- C6 at `routedInstance`, whose second slice is the first that is not full,
and at `fullInstance`, whose only slice is full. -/
theorem instance_add_routing_witness :
    routedInstance.Add sampleHash [104, 105] =
      (sampleSlice.Add sampleHash [104, 105]).map
        (fun rs => (rs.1, { routedInstance with m_slices := [fullSlice] ++ rs.2 :: [sampleSlice] }))
    ∧ fullInstance.Add sampleHash [104, 105] = some (false, fullInstance) :=
  ⟨(instance_add_routing sampleHash routedInstance [104, 105]).1 [fullSlice] sampleSlice
      [sampleSlice] rfl (by decide) (by decide),
    (instance_add_routing sampleHash fullInstance [104, 105]).2 (by decide)⟩

/-- C7. Instance rotation: `BloomInstance::Reset()` returns false and leaves
the instance unchanged when `m_slice_num < 2`; when `m_slice_num ≥ 2` and
`m_slices` holds `m_slice_num` slices it returns true, the new slice order is the
old one with its head moved to the tail, the moved slice has every word zeroed
and its `m_bits`, `m_hashes`, times and number of words unchanged, every other
slice and every other field is unchanged, and the number of slices is the same. -/
theorem instance_reset_rotation (inst : BloomInstance) :
    (inst.m_slice_num < 2 → inst.Reset = some (false, inst)) ∧
    (2 ≤ inst.m_slice_num → (inst.m_slices.length : Int) = inst.m_slice_num →
      ∃ head rest, inst.m_slices = head :: rest ∧
        inst.Reset = some (true, { inst with
          m_slices := rest ++ [{ head with m_data := List.replicate head.m_data.length 0 }] }) ∧
        (rest ++ [{ head with m_data := List.replicate head.m_data.length 0 }]).length =
          inst.m_slices.length) := by
  constructor
  · intro h
    unfold BloomInstance.Reset
    rw [if_pos h]
  · intro h hlen
    cases hsl : inst.m_slices with
    | nil =>
      rw [hsl] at hlen
      simp only [List.length_nil, Nat.cast_zero] at hlen
      omega
    | cons head rest =>
      refine ⟨head, rest, rfl, ?_, by simp⟩
      unfold BloomInstance.Reset
      rw [if_neg (by omega), hsl]
      simp only [BloomSlice.Reset]
      have hz : List.map (fun _ => 0) head.m_data = List.replicate head.m_data.length 0 := by
        rw [List.map_const']
      rw [hz]

/-- C7 at `fullInstance`, which has one slice, and at `routedInstance`, which
has three. -/
theorem instance_reset_rotation_witness :
    fullInstance.Reset = some (false, fullInstance) ∧
    ∃ head rest, routedInstance.m_slices = head :: rest ∧
      routedInstance.Reset = some (true, { routedInstance with
        m_slices := rest ++ [{ head with m_data := List.replicate head.m_data.length 0 }] }) ∧
      (rest ++ [{ head with m_data := List.replicate head.m_data.length 0 }]).length =
        routedInstance.m_slices.length :=
  ⟨(instance_reset_rotation fullInstance).1 (by decide),
    (instance_reset_rotation routedInstance).2 (by decide) (by decide)⟩

theorem getD_of_all_zero : ∀ (l : List Nat) (j : Nat), (∀ w ∈ l, w = 0) → l.getD j 0 = 0
  | [], _, _ => rfl
  | a :: l, 0, h => by simpa using h a (List.mem_cons_self _ _)
  | a :: l, j + 1, h => by
    simpa using getD_of_all_zero l j (fun w hw => h w (List.mem_cons_of_mem _ hw))

theorem sum_count_of_all_zero : ∀ (l : List Nat), (∀ w ∈ l, w = 0) →
    (l.map bitset_count).sum = 0
  | [], _ => rfl
  | a :: l, h => by
    have ha : a = 0 := h a (List.mem_cons_self _ _)
    have hl := sum_count_of_all_zero l (fun w hw => h w (List.mem_cons_of_mem _ hw))
    simp only [List.map_cons, List.sum_cons, hl, ha, bitset_count_zero]

/-- In a slice whose words are all zero, `testOk` without `needSet` finds no
bit set at a non-negative position. -/
theorem BloomSlice.testOk_zero (s : BloomSlice) (x : Nat) (hx : x < 2147483648)
    (hz : ∀ w ∈ s.m_data, w = 0) : s.testOk (toInt x) false = some (false, s) := by
  have h1 : toInt x = (x : Int) := toInt_of_lt x hx
  have h3 : Int.tmod (x : Int) 64 = ((x % 64 : Nat) : Int) := by
    rw [Int.tmod_eq_emod] <;> omega
  unfold BloomSlice.testOk
  simp only [h1, h3]
  split
  · rfl
  · rw [if_neg (by omega), getD_of_all_zero _ _ hz]
    simp [bitset_test]

/-- In a slice whose words are all zero and whose `m_bits` is a positive `int`,
the probe loop of `Test` counts no hit. -/
theorem BloomSlice.probeLoop_zero (a b : Nat) (s : BloomSlice) (hpos : 1 ≤ s.m_bits)
    (hmax : s.m_bits ≤ INT_MAX) (hz : ∀ w ∈ s.m_data, w = 0) :
    ∀ (n i hits : Nat), BloomSlice.probeLoop a b false n i hits s = some (hits, s)
  | 0, _, _ => rfl
  | n + 1, i, hits => by
    have hM : toUnsigned s.m_bits = s.m_bits.toNat := toUnsigned_of_pos _ (by omega) hmax
    unfold INT_MAX at hmax
    have hlt : ((a + i * b) % 4294967296) % toUnsigned s.m_bits < toUnsigned s.m_bits :=
      Nat.mod_lt _ (by omega)
    simp only [BloomSlice.probeLoop]
    rw [if_neg (by omega), BloomSlice.testOk_zero s _ (by omega) hz]
    exact BloomSlice.probeLoop_zero a b s hpos (by unfold INT_MAX; exact hmax) hz n (i + 1) hits

/-- In a slice whose words are all zero and whose `m_bits` is a positive `int`,
`Test` returns true exactly when `m_hashes` is zero. -/
theorem BloomSlice.Test_zero (murmurhash2 : List Nat → Nat → Nat) (s : BloomSlice)
    (key : List Nat) (hpos : 1 ≤ s.m_bits) (hmax : s.m_bits ≤ INT_MAX)
    (hz : ∀ w ∈ s.m_data, w = 0) :
    s.Test murmurhash2 key = some (decide (s.m_hashes = 0), s) := by
  unfold BloomSlice.Test
  simp only [BloomSlice.probeLoop_zero _ _ s hpos hmax hz]
  have h0 : toInt 0 = 0 := by decide
  rw [h0]
  by_cases hh : s.m_hashes = 0
  · rw [if_pos hh.symm]; simp [hh]
  · rw [if_neg (fun h => hh h.symm)]; simp [hh]

/-- A slice whose words are all zero is `Full()` exactly when `m_bits < 2`. -/
theorem BloomSlice.Full_zero (s : BloomSlice) (hz : ∀ w ∈ s.m_data, w = 0) :
    s.Full = false ↔ 2 ≤ s.m_bits := by
  have hp : s.popcount = 0 := sum_count_of_all_zero _ hz
  have h0 : toInt (toUnsigned ((0 : Nat) : Int)) = 0 := by decide
  unfold BloomSlice.Full
  rw [BloomSlice.ones_eq, hp, h0, decide_eq_false_iff_not]
  by_cases hb : 0 ≤ s.m_bits
  · rw [Int.tdiv_eq_ediv hb (by omega)]
    omega
  · have hneg : Int.tdiv s.m_bits 2 ≤ 0 := by
      have h1 : s.m_bits = -(-s.m_bits) := by omega
      rw [h1, Int.neg_tdiv, Int.tdiv_eq_ediv (by omega) (by omega)]
      omega
    omega

theorem BloomSlice.Reset_zero (s : BloomSlice) : ∀ w ∈ s.Reset.m_data, w = 0 := by
  intro w hw
  unfold BloomSlice.Reset at hw
  simp only [List.mem_map] at hw
  obtain ⟨_, _, rfl⟩ := hw
  rfl

/-- C8 (as amended). Rotation preserves capacity: on an instance with
`m_slice_num ≥ 2` that holds a slice, `Reset()` succeeds and the recycled slice,
now last in the order, reports `Full() == false` exactly when its `m_bits` is
at least 2; when its `m_bits` is a positive `int`, `Test(key)` on it returns
false for every key if its `m_hashes` is not zero, true for every key if it is. -/
theorem reset_recycled_slice (murmurhash2 : List Nat → Nat → Nat) (inst : BloomInstance)
    (head : BloomSlice) (rest : List BloomSlice) (hn : 2 ≤ inst.m_slice_num)
    (hs : inst.m_slices = head :: rest) :
    ∃ inst1 s, inst.Reset = some (true, inst1) ∧ inst1.m_slices.getLast? = some s ∧
      s.m_bits = head.m_bits ∧ s.m_hashes = head.m_hashes ∧
      (s.Full = false ↔ 2 ≤ head.m_bits) ∧
      (1 ≤ head.m_bits → head.m_bits ≤ INT_MAX →
        ∀ key, s.Test murmurhash2 key = some (decide (head.m_hashes = 0), s)) := by
  refine ⟨{ inst with m_slices := rest ++ [head.Reset] }, head.Reset, ?_, ?_, rfl, rfl, ?_, ?_⟩
  · unfold BloomInstance.Reset
    rw [if_neg (by omega), hs]
  · simp
  · exact BloomSlice.Full_zero head.Reset (BloomSlice.Reset_zero head)
  · intro h1 h2 key
    exact BloomSlice.Test_zero murmurhash2 head.Reset key h1 h2 (BloomSlice.Reset_zero head)

/-- C8 (as amended) at `routedInstance`, whose head slice has 100 bits, three
probes per key and 64 bits set. -/
theorem reset_recycled_slice_witness :
    ∃ inst1 s, routedInstance.Reset = some (true, inst1) ∧
      inst1.m_slices.getLast? = some s ∧ s.Full = false ∧
      ∀ key, s.Test sampleHash key = some (false, s) := by
  obtain ⟨inst1, s, h1, h2, _, _, h5, h6⟩ :=
    reset_recycled_slice sampleHash routedInstance fullSlice [sampleSlice, sampleSlice]
      (by decide) rfl
  exact ⟨inst1, s, h1, h2, h5.mpr (by decide), fun key => h6 (by decide) (by decide) key⟩

/-- C8 (as stated) fails: after `Reset()` of `degenerateInstance` the recycled
slice is `Full()`, and `Test` on it returns true. -/
theorem reset_recycled_slice_still_full :
    ∃ inst1 s, degenerateInstance.Reset = some (true, inst1) ∧
      inst1.m_slices.getLast? = some s ∧ s.Full = true ∧
      s.Test sampleHash [104, 105] = some (true, s) :=
  ⟨{ degenerateInstance with m_slices := [emptySlice, emptySlice] }, emptySlice,
    by decide, by decide, by decide, by decide⟩

/-! ## Filter level: reset modes and insert target -/

/-- C9. Filter reset and mode validation: with a mode other than
`RESET_FIRST_INSTANCE_FIRST_SLICE`, `Bloom::Reset` returns false and leaves the
filter, rotation period included, unchanged; with that mode it is the call
`BloomInstance::Reset` on the first instance: it returns that call's result and
replaces the first instance by the one the call leaves, all else unchanged; on
a filter with no instances it returns false for every mode. -/
theorem filter_reset_mode (RESET_FIRST_INSTANCE_FIRST_SLICE : Int) (b : Bloom) :
    (∀ type : Int, type ≠ RESET_FIRST_INSTANCE_FIRST_SLICE →
      b.Reset RESET_FIRST_INSTANCE_FIRST_SLICE type = some (false, b)) ∧
    (∀ (inst : BloomInstance) (rest : List BloomInstance), b.m_instances = inst :: rest →
      b.Reset RESET_FIRST_INSTANCE_FIRST_SLICE RESET_FIRST_INSTANCE_FIRST_SLICE =
        inst.Reset.map (fun r => (r.1, { b with m_instances := r.2 :: rest }))) ∧
    (b.m_instances = [] →
      ∀ type : Int, b.Reset RESET_FIRST_INSTANCE_FIRST_SLICE type = some (false, b)) := by
  refine ⟨fun type hne => ?_, fun inst rest hl => ?_, fun hnil type => ?_⟩
  · unfold Bloom.Reset
    cases hl : b.m_instances with
    | nil => rfl
    | cons inst rest => simp only [if_neg hne]
  · unfold Bloom.Reset
    rw [hl]
    simp only [if_true]
    cases inst.Reset with
    | none => rfl
    | some r => rfl
  · unfold Bloom.Reset
    rw [hnil]

/-- C9 at `twoInstanceBloom` with the enumerator valued 0: mode 1 is rejected,
mode 0 resets `routedInstance` only; and at `emptyBloom`. -/
theorem filter_reset_mode_witness :
    twoInstanceBloom.Reset 0 1 = some (false, twoInstanceBloom) ∧
    twoInstanceBloom.Reset 0 0 =
      routedInstance.Reset.map
        (fun r => (r.1, { twoInstanceBloom with m_instances := r.2 :: [sampleInstance] })) ∧
    ∀ type : Int, emptyBloom.Reset 0 type = some (false, emptyBloom) :=
  ⟨(filter_reset_mode 0 twoInstanceBloom).1 1 (by decide),
    (filter_reset_mode 0 twoInstanceBloom).2.1 routedInstance [sampleInstance] rfl,
    (filter_reset_mode 0 emptyBloom).2.2 rfl⟩

/-- C10. Filter insert target: `Bloom::Add(key)` returns false and changes
nothing on a filter with no instances; otherwise it is the call
`BloomInstance::Add(key)` on the last instance: it returns that call's result
and replaces the last instance by the one the call leaves, all else unchanged.
When `NewBloomInstance` returns it returns true and has appended one instance,
and the next `Add` is the call `BloomInstance::Add` on that new instance. -/
theorem filter_add_target (murmurhash2 : List Nat → Nat → Nat) (b : Bloom) (key : List Nat) :
    (b.m_instances = [] → b.Add murmurhash2 key = some (false, b)) ∧
    (∀ (init : List BloomInstance) (last : BloomInstance), b.m_instances = init ++ [last] →
      b.Add murmurhash2 key =
        (last.Add murmurhash2 key).map
          (fun r => (r.1, { b with m_instances := init ++ [r.2] }))) ∧
    (∀ (TRANSITION_PERIOD_SECONDS : Int) (sizing : Int → Int → Int → Int → Int × Int)
      (clock junk : Nat → Int) (entries err_mode err_deno slice_num : Int) (reset r : Bool)
      (b1 : Bloom),
      Bloom.NewBloomInstance TRANSITION_PERIOD_SECONDS sizing clock junk b
          entries err_mode err_deno slice_num reset = some (r, b1) →
      r = true ∧ ∃ inst, b1.m_instances = b.m_instances ++ [inst] ∧
        b1.Add murmurhash2 key =
          (inst.Add murmurhash2 key).map
            (fun r => (r.1, { b1 with m_instances := b.m_instances ++ [r.2] }))) := by
  refine ⟨fun hnil => ?_, fun init last hl => Bloom.Add_concat murmurhash2 b init last key hl,
    ?_⟩
  · unfold Bloom.Add
    rw [hnil]
    rfl
  · intro T sizing clock junk entries err_mode err_deno slice_num reset r b1 hnew
    unfold Bloom.NewBloomInstance at hnew
    split at hnew
    · cases hnew
    · rename_i inst _
      cases hnew
      exact ⟨rfl, inst, rfl, Bloom.Add_concat murmurhash2 _ b.m_instances inst key rfl⟩

/-- C10 at `emptyBloom`, at `twoInstanceBloom`, and at `sampleBloom` grown by
`NewBloomInstance(20, 1, 10, 2, false)`. -/
theorem filter_add_target_witness :
    emptyBloom.Add sampleHash [104, 105] = some (false, emptyBloom) ∧
    twoInstanceBloom.Add sampleHash [104, 105] =
      (sampleInstance.Add sampleHash [104, 105]).map
        (fun r => (r.1, { twoInstanceBloom with m_instances := [routedInstance] ++ [r.2] })) ∧
    ∃ b1 inst,
      Bloom.NewBloomInstance 86400 sampleSizing zeroClock zeroClock sampleBloom 20 1 10 2 false =
        some (true, b1) ∧
      b1.m_instances = sampleBloom.m_instances ++ [inst] ∧
      b1.Add sampleHash [104, 105] =
        (inst.Add sampleHash [104, 105]).map
          (fun r => (r.1, { b1 with m_instances := sampleBloom.m_instances ++ [r.2] })) := by
  refine ⟨(filter_add_target sampleHash emptyBloom [104, 105]).1 rfl,
    (filter_add_target sampleHash twoInstanceBloom [104, 105]).2.1 [routedInstance]
      sampleInstance rfl, ?_⟩
  have hnew : ∃ b1,
      Bloom.NewBloomInstance 86400 sampleSizing zeroClock zeroClock sampleBloom 20 1 10 2 false =
        some (true, b1) := ⟨_, rfl⟩
  obtain ⟨b1, hb1⟩ := hnew
  obtain ⟨_, inst, h1, h2⟩ :=
    (filter_add_target sampleHash sampleBloom [104, 105]).2.2 86400 sampleSizing zeroClock
      zeroClock 20 1 10 2 false true b1 hb1
  exact ⟨b1, inst, hb1, h1, h2⟩

/-! ## Probe sequence -/

/-- The call `testOk` at a non-negative position: beyond the backing array it
returns false and changes nothing, inside it reads bit `x mod 64` of word
`x div 64` and, with `needSet`, sets it when it is clear. -/
theorem BloomSlice.testOk_nonneg (s : BloomSlice) (x : Nat) (needSet : Bool)
    (hx : x < 2147483648) :
    s.testOk (toInt x) needSet =
      if s.m_data.length ≤ x / 64 then some (false, s)
      else some (s.bit x, if s.bit x || !needSet then s else s.setBit x) := by
  by_cases hlen : s.m_data.length ≤ x / 64
  · rw [if_pos hlen]
    have h1 : toInt x = (x : Int) := toInt_of_lt x hx
    have h2 : toUnsigned ((x : Int) >>> (6 : Nat)) = x / 64 := by
      rw [Int.shiftRight_eq_div_pow]
      unfold toUnsigned
      norm_num
      omega
    unfold BloomSlice.testOk
    simp only [h1, h2]
    rw [if_pos hlen]
  · rw [if_neg hlen]
    exact BloomSlice.testOk_inbounds s x needSet hx (by omega)

/-- Dropping the recorded positions from the recording loop gives the loop
that `Add` and `Test` run. -/
theorem BloomSlice.probeLoopTrace_erase (a b : Nat) (needSet : Bool) :
    ∀ (n i hits : Nat) (s : BloomSlice),
      (BloomSlice.probeLoopTrace a b needSet n i hits s).map (fun r => (r.1, r.2.1)) =
        BloomSlice.probeLoop a b needSet n i hits s
  | 0, _, _, _ => rfl
  | n + 1, i, hits, s => by
    simp only [BloomSlice.probeLoopTrace, BloomSlice.probeLoop]
    split
    · rfl
    · split
      · rfl
      · rename_i s1 _
        rw [← BloomSlice.probeLoopTrace_erase a b needSet n (i + 1) (hits + 1) s1]
        simp only [Option.map_map]
        rfl
      · rename_i s1 _
        rw [← BloomSlice.probeLoopTrace_erase a b needSet n (i + 1) hits s1]
        simp only [Option.map_map]
        rfl

/-- With `m_bits` a positive `int` the recording loop returns, and the
positions it records are `((a + k*b) mod 2^32) mod m_bits` for the counter
values `k = i, i+1, ...` in order. -/
theorem BloomSlice.probeLoopTrace_positions (a b : Nat) (needSet : Bool) (M : Nat)
    (hM0 : 0 < M) (hM1 : M ≤ 2147483647) :
    ∀ (n i hits : Nat) (s : BloomSlice), toUnsigned s.m_bits = M →
      ∃ r t, BloomSlice.probeLoopTrace a b needSet n i hits s =
        some (r, t, (List.range n).map (fun k => ((a + (i + k) * b) % 4294967296) % M))
  | 0, _, hits, s, _ => ⟨hits, s, rfl⟩
  | n + 1, i, hits, s, hM => by
    have hlt : ((a + i * b) % 4294967296) % M < M := Nat.mod_lt _ hM0
    have hshift : (List.range (n + 1)).map (fun k => ((a + (i + k) * b) % 4294967296) % M) =
        (((a + i * b) % 4294967296) % M) ::
          (List.range n).map (fun k => ((a + (i + 1 + k) * b) % 4294967296) % M) := by
      rw [List.range_succ_eq_map, List.map_cons, List.map_map]
      congr 1
      apply List.map_congr_left
      intro k _
      simp only [Function.comp, Nat.succ_eq_add_one]
      congr 4
      omega
    have htest := BloomSlice.testOk_nonneg s (((a + i * b) % 4294967296) % M) needSet (by omega)
    have hstep : ∃ bo s1, s.testOk (toInt (((a + i * b) % 4294967296) % M)) needSet =
        some (bo, s1) := by
      rw [htest]
      split
      · exact ⟨_, _, rfl⟩
      · exact ⟨_, _, rfl⟩
    obtain ⟨bo, s1, hs1⟩ := hstep
    have hM' : toUnsigned s1.m_bits = M := by
      rw [(BloomSlice.testOk_sub s s1 _ _ _ hs1).1]; exact hM
    simp only [BloomSlice.probeLoopTrace, hM]
    rw [if_neg (by omega), hs1, hshift]
    cases bo with
    | true =>
      obtain ⟨r, t, hr⟩ :=
        BloomSlice.probeLoopTrace_positions a b needSet M hM0 hM1 n (i + 1) (hits + 1) s1 hM'
      exact ⟨r, t, by simp only [hr, Option.map_some']⟩
    | false =>
      obtain ⟨r, t, hr⟩ :=
        BloomSlice.probeLoopTrace_positions a b needSet M hM0 hM1 n (i + 1) hits s1 hM'
      exact ⟨r, t, by simp only [hr, Option.map_some']⟩

/-- The positions that `Add` and `Test` examine in a slice whose `m_bits` is a
positive `int`. -/
theorem BloomSlice.trace_eq (murmurhash2 : List Nat → Nat → Nat) (s : BloomSlice)
    (key : List Nat) (needSet : Bool) (hb : IsInt s.m_bits) (hpos : 0 < s.m_bits) :
    s.trace murmurhash2 key needSet =
      some ((List.range (toUnsigned s.m_hashes)).map
        (fun i => ((digest_a murmurhash2 key + i * digest_b murmurhash2 key) % 4294967296) %
          s.m_bits.toNat)) := by
  have hmax : s.m_bits ≤ INT_MAX := hb.2
  have hM : toUnsigned s.m_bits = s.m_bits.toNat := toUnsigned_of_pos _ (by omega) hmax
  unfold INT_MAX at hmax
  obtain ⟨r, t, hr⟩ :=
    BloomSlice.probeLoopTrace_positions (digest_a murmurhash2 key) (digest_b murmurhash2 key)
      needSet s.m_bits.toNat (by omega) (by omega) (toUnsigned s.m_hashes) 0 0 s hM
  simp only [Nat.zero_add] at hr
  unfold BloomSlice.trace
  simp only [digest_a, digest_b] at hr ⊢
  rw [hr]
  rfl

theorem BloomSlice.trace_length (murmurhash2 : List Nat → Nat → Nat) (s : BloomSlice)
    (key : List Nat) (needSet : Bool) (hb : IsInt s.m_bits) (hpos : 0 < s.m_bits) :
    ∃ l, s.trace murmurhash2 key needSet = some l ∧ l.length = toUnsigned s.m_hashes :=
  ⟨_, BloomSlice.trace_eq murmurhash2 s key needSet hb hpos, by
    rw [List.length_map, List.length_range]⟩

/-- The recording loop run by `trace` is the loop of `Add` and of `Test`. -/
theorem BloomSlice.trace_is_loop (murmurhash2 : List Nat → Nat → Nat) (s : BloomSlice)
    (key : List Nat) :
    s.Add murmurhash2 key =
      (BloomSlice.probeLoopTrace (digest_a murmurhash2 key) (digest_b murmurhash2 key) true
        (toUnsigned s.m_hashes) 0 0 s).map
        (fun r => (!decide (toInt r.1 = r.2.1.m_hashes), r.2.1)) ∧
    s.Test murmurhash2 key =
      (BloomSlice.probeLoopTrace (digest_a murmurhash2 key) (digest_b murmurhash2 key) false
        (toUnsigned s.m_hashes) 0 0 s).map
        (fun r => (decide (toInt r.1 = r.2.1.m_hashes), r.2.1)) := by
  have e1 := BloomSlice.probeLoopTrace_erase (digest_a murmurhash2 key)
    (digest_b murmurhash2 key) true (toUnsigned s.m_hashes) 0 0 s
  have e2 := BloomSlice.probeLoopTrace_erase (digest_a murmurhash2 key)
    (digest_b murmurhash2 key) false (toUnsigned s.m_hashes) 0 0 s
  constructor
  · unfold BloomSlice.Add
    simp only [digest_a, digest_b] at e1 ⊢
    rw [← e1]
    cases BloomSlice.probeLoopTrace _ _ true (toUnsigned s.m_hashes) 0 0 s with
    | none => rfl
    | some r =>
      simp only [Option.map_some']
      by_cases h : toInt r.1 = r.2.1.m_hashes
      · simp [h]
      · simp [h]
  · unfold BloomSlice.Test
    simp only [digest_a, digest_b] at e2 ⊢
    rw [← e2]
    cases BloomSlice.probeLoopTrace _ _ false (toUnsigned s.m_hashes) 0 0 s with
    | none => rfl
    | some r =>
      simp only [Option.map_some']
      by_cases h : toInt r.1 = r.2.1.m_hashes
      · simp [h]
      · simp [h]

/-- C17 (as amended). Probe sequence: on a slice whose `m_bits` is a positive
`int`, `Add` and `Test` both return and examine exactly the positions
`x_i = ((a + i*b) mod 2^32) mod m_bits` for `i = 0 .. n-1`, in that order,
where `a` and `b` are the two 32-bit digests and `n` is `m_hashes` converted
to `unsigned int`, which is `m_hashes` when `m_hashes ≥ 0`; a position `x`
inside the backing array addresses bit `x mod 64` of word `x div 64`, and one
beyond it addresses no bit. -/
theorem probe_sequence (murmurhash2 : List Nat → Nat → Nat) (s : BloomSlice) (key : List Nat)
    (ht : s.Typed) (hpos : 0 < s.m_bits) :
    (∀ needSet : Bool, s.trace murmurhash2 key needSet =
      some ((List.range (toUnsigned s.m_hashes)).map
        (fun i => ((digest_a murmurhash2 key + i * digest_b murmurhash2 key) % 4294967296) %
          s.m_bits.toNat))) ∧
    (0 ≤ s.m_hashes → toUnsigned s.m_hashes = s.m_hashes.toNat) ∧
    (s.Add murmurhash2 key =
      (BloomSlice.probeLoopTrace (digest_a murmurhash2 key) (digest_b murmurhash2 key) true
        (toUnsigned s.m_hashes) 0 0 s).map
        (fun r => (!decide (toInt r.1 = r.2.1.m_hashes), r.2.1)) ∧
     s.Test murmurhash2 key =
      (BloomSlice.probeLoopTrace (digest_a murmurhash2 key) (digest_b murmurhash2 key) false
        (toUnsigned s.m_hashes) 0 0 s).map
        (fun r => (decide (toInt r.1 = r.2.1.m_hashes), r.2.1))) ∧
    (∀ (x : Nat) (needSet : Bool), x < s.m_bits.toNat →
      s.testOk (toInt x) needSet =
        if s.m_data.length ≤ x / 64 then some (false, s)
        else some (bitset_test (s.m_data.getD (x / 64) 0) (x % 64),
          if bitset_test (s.m_data.getD (x / 64) 0) (x % 64) || !needSet then s
          else { s with m_data :=
            s.m_data.set (x / 64) (bitset_set (s.m_data.getD (x / 64) 0) (x % 64)) })) := by
  refine ⟨fun needSet => BloomSlice.trace_eq murmurhash2 s key needSet ht.1 hpos, ?_,
    BloomSlice.trace_is_loop murmurhash2 s key, ?_⟩
  · intro h
    exact toUnsigned_of_pos _ h ht.2.2
  · intro x needSet hx
    have hmax := ht.1.2
    unfold INT_MAX at hmax
    exact BloomSlice.testOk_nonneg s x needSet (by omega)

/-- C17 (as amended) at `sampleSlice` with the key `"hi"`. -/
theorem probe_sequence_witness :
    sampleSlice.Typed ∧ 0 < sampleSlice.m_bits ∧
    (∀ needSet : Bool, sampleSlice.trace sampleHash [104, 105] needSet =
      some ((List.range (toUnsigned sampleSlice.m_hashes)).map
        (fun i => ((digest_a sampleHash [104, 105] + i * digest_b sampleHash [104, 105]) %
          4294967296) % sampleSlice.m_bits.toNat))) ∧
    toUnsigned sampleSlice.m_hashes = sampleSlice.m_hashes.toNat := by
  have h := probe_sequence sampleHash sampleSlice [104, 105] (by decide) (by decide)
  exact ⟨by decide, by decide, h.1, h.2.1 (by decide)⟩

/-- C17 (as stated) fails.  For the key `"hi"` in `sampleSlice` the sum
`a + 1*b` exceeds `2^32`: `Add` examines the positions 1, 43, 81 where the
formula on the integers gives 1, 39, 77.  In `negativeHashSlice`, where
`m_hashes = -1`, `Test` examines `2^32 - 1` positions where the range
`0 .. m_hashes - 1` is empty. -/
theorem probe_positions_wrap :
    sampleSlice.trace sampleHash [104, 105] true = some [1, 43, 81] ∧
    sampleSlice.specPositions sampleHash [104, 105] = [1, 39, 77] ∧
    (∃ l, negativeHashSlice.trace sampleHash [104, 105] false = some l ∧
      l.length = 4294967295) ∧
    negativeHashSlice.specPositions sampleHash [104, 105] = [] := by
  refine ⟨by decide, by decide, ?_, by decide⟩
  obtain ⟨l, h1, h2⟩ := BloomSlice.trace_length sampleHash negativeHashSlice [104, 105] false
    (by decide) (by decide)
  exact ⟨l, h1, by rw [h2]; decide⟩

/-! ## Storage invariant -/

/-- The word index that `testOk` computes for a non-negative position. -/
theorem word_index_eq (x : Nat) (hx : x < 2147483648) :
    toUnsigned (toInt x >>> (6 : Nat)) = x / 64 := by
  rw [toInt_of_lt x hx, Int.shiftRight_eq_div_pow]
  unfold toUnsigned
  norm_num
  omega

/-- The constructor sizes `m_data` to `ceil(bits / 64)` zero words when
`bits ≥ 0`. -/
theorem BloomSlice.construct_spec (bits hashes now access_time : Int) (hb : 0 ≤ bits) :
    ∃ s, BloomSlice.construct bits hashes now access_time = some s ∧
      s.m_bits = bits ∧ s.m_hashes = hashes ∧
      (s.m_data.length : Int) = ⌈(bits : ℚ) / 64⌉ ∧ ∀ w ∈ s.m_data, w = 0 := by
  have h1 : Int.tmod bits 64 = bits % 64 := Int.tmod_eq_emod hb (by omega)
  have h2 : Int.tdiv bits 64 = bits / 64 := Int.tdiv_eq_ediv hb (by omega)
  have hel : (if Int.tmod bits 64 ≠ 0 then Int.tdiv bits 64 + 1 else Int.tdiv bits 64) =
      (bits + 63) / 64 := by
    rw [h1, h2]
    split <;> omega
  have hnn : ¬ ((bits + 63) / 64 < 0) := by omega
  refine ⟨{ m_bits := bits, m_hashes := hashes,
            m_data := List.replicate ((bits + 63) / 64).toNat 0,
            m_create_time := now, m_access_time := access_time }, ?_, rfl, rfl, ?_, ?_⟩
  · unfold BloomSlice.construct
    simp only [hel]
    rw [if_neg hnn]
  · rw [← ceil_div_64]
    simp only [List.length_replicate]
    omega
  · intro w hw
    exact List.eq_of_mem_replicate hw

/-- C18. Slice storage invariant and in-bounds probing: the constructor, given
computed `bits ≥ 0`, returns a slice with exactly `ceil(bits / 64)` words, all
zero; `Add`, `Test` and `Reset` never change `m_bits`, `m_hashes` or the
number of words; and in a slice with `int` fields, `m_bits > 0` and
`ceil(m_bits / 64)` words every probe position of every key has a word index
below the number of words, so that the guard `m_data.size() <= bitset_idx` of
`testOk` is false at every position that `Add` and `Test` examine. -/
theorem slice_storage_invariant (murmurhash2 : List Nat → Nat → Nat) (s : BloomSlice)
    (key : List Nat) :
    (∀ bits hashes now access_time : Int, 0 ≤ bits →
      ∃ t, BloomSlice.construct bits hashes now access_time = some t ∧
        t.m_bits = bits ∧ t.m_hashes = hashes ∧
        (t.m_data.length : Int) = ⌈(bits : ℚ) / 64⌉ ∧ ∀ w ∈ t.m_data, w = 0) ∧
    (∀ r t, s.Add murmurhash2 key = some (r, t) →
      t.m_bits = s.m_bits ∧ t.m_hashes = s.m_hashes ∧ t.m_data.length = s.m_data.length) ∧
    (∀ r t, s.Test murmurhash2 key = some (r, t) →
      t.m_bits = s.m_bits ∧ t.m_hashes = s.m_hashes ∧ t.m_data.length = s.m_data.length) ∧
    (s.Reset.m_bits = s.m_bits ∧ s.Reset.m_hashes = s.m_hashes ∧
      s.Reset.m_data.length = s.m_data.length) ∧
    (s.Typed → s.WellFormed →
      (∀ i, s.probe murmurhash2 key i / 64 < s.m_data.length ∧
        ¬ (s.m_data.length ≤ toUnsigned (toInt (s.probe murmurhash2 key i) >>> (6 : Nat)))) ∧
      (∀ needSet : Bool, ∃ l, s.trace murmurhash2 key needSet = some l ∧
        ∀ x ∈ l, ¬ (s.m_data.length ≤ toUnsigned (toInt x >>> (6 : Nat))))) := by
  refine ⟨fun bits hashes now access_time hb =>
      BloomSlice.construct_spec bits hashes now access_time hb, ?_, ?_, ?_, ?_⟩
  · intro r t h
    have hsub := BloomSlice.Add_sub murmurhash2 s t key r h
    exact ⟨hsub.1, hsub.2.1, hsub.2.2.2.2.1⟩
  · intro r t h
    rw [BloomSlice.Test_state murmurhash2 s t key r h]
    exact ⟨rfl, rfl, rfl⟩
  · exact ⟨rfl, rfl, by simp [BloomSlice.Reset]⟩
  · intro ht hw
    have hM : toUnsigned s.m_bits = s.m_bits.toNat :=
      toUnsigned_of_pos _ (le_of_lt hw.1) ht.1.2
    constructor
    · intro i
      obtain ⟨_, h1, h2⟩ := BloomSlice.probe_inbounds s ht hw
        ((digest_a murmurhash2 key + i * digest_b murmurhash2 key) % 4294967296)
      have hp : s.probe murmurhash2 key i =
          ((digest_a murmurhash2 key + i * digest_b murmurhash2 key) % 4294967296) %
            toUnsigned s.m_bits := rfl
      rw [hp, word_index_eq _ h1]
      exact ⟨h2, by omega⟩
    · intro needSet
      refine ⟨_, BloomSlice.trace_eq murmurhash2 s key needSet ht.1 hw.1, ?_⟩
      intro x hx
      simp only [List.mem_map, List.mem_range] at hx
      obtain ⟨i, _, rfl⟩ := hx
      obtain ⟨_, h1, h2⟩ := BloomSlice.probe_inbounds s ht hw
        ((digest_a murmurhash2 key + i * digest_b murmurhash2 key) % 4294967296)
      rw [hM] at h1 h2
      rw [word_index_eq _ h1]
      omega

/-- C18 at the constructor with `bits = 100`, and at `sampleSlice` with the key
`"hi"`. -/
theorem slice_storage_invariant_witness :
    (∃ t, BloomSlice.construct 100 3 0 0 = some t ∧ t.m_bits = 100 ∧ t.m_hashes = 3 ∧
      (t.m_data.length : Int) = ⌈((100 : Int) : ℚ) / 64⌉ ∧ ∀ w ∈ t.m_data, w = 0) ∧
    sampleSlice.Typed ∧ sampleSlice.WellFormed ∧
    (∀ i, sampleSlice.probe sampleHash [104, 105] i / 64 < sampleSlice.m_data.length ∧
      ¬ (sampleSlice.m_data.length ≤
        toUnsigned (toInt (sampleSlice.probe sampleHash [104, 105] i) >>> (6 : Nat)))) ∧
    (∀ needSet : Bool, ∃ l, sampleSlice.trace sampleHash [104, 105] needSet = some l ∧
      ∀ x ∈ l, ¬ (sampleSlice.m_data.length ≤ toUnsigned (toInt x >>> (6 : Nat)))) := by
  have h := slice_storage_invariant sampleHash sampleSlice [104, 105]
  have h5 := h.2.2.2.2 (by decide) (by decide)
  exact ⟨h.1 100 3 0 0 (by decide), by decide, by decide, h5.1, h5.2⟩

/-! ## Keys with an embedded zero byte -/

/-- Whatever follows the first zero byte of a key is not read. -/
theorem c_str_bytes_append_zero (p rest : List Nat) (hp : ∀ c ∈ p, c ≠ 0) :
    c_str_bytes (p ++ 0 :: rest) = p := by
  unfold c_str_bytes
  induction p with
  | nil => simp
  | cons c p ih =>
    have hc : c ≠ 0 := hp c (List.mem_cons_self _ _)
    simp only [List.cons_append, List.takeWhile_cons, bne_iff_ne, ne_eq, hc, not_false_eq_true,
      if_true]
    rw [ih (fun d hd => hp d (List.mem_cons_of_mem _ hd))]

theorem BloomSlice.Add_congr_key (murmurhash2 : List Nat → Nat → Nat) (s : BloomSlice)
    (k1 k2 : List Nat) (hk : c_str_bytes k1 = c_str_bytes k2) :
    s.Add murmurhash2 k1 = s.Add murmurhash2 k2 := by
  unfold BloomSlice.Add
  rw [hk]

theorem BloomSlice.Test_congr_key (murmurhash2 : List Nat → Nat → Nat) (s : BloomSlice)
    (k1 k2 : List Nat) (hk : c_str_bytes k1 = c_str_bytes k2) :
    s.Test murmurhash2 k1 = s.Test murmurhash2 k2 := by
  unfold BloomSlice.Test
  rw [hk]

theorem BloomInstance.addLoop_congr_key (murmurhash2 : List Nat → Nat → Nat)
    (k1 k2 : List Nat) (hk : c_str_bytes k1 = c_str_bytes k2) :
    ∀ l : List BloomSlice,
      BloomInstance.addLoop murmurhash2 k1 l = BloomInstance.addLoop murmurhash2 k2 l
  | [] => rfl
  | s :: rest => by
    simp only [BloomInstance.addLoop, BloomSlice.Add_congr_key murmurhash2 s k1 k2 hk,
      BloomInstance.addLoop_congr_key murmurhash2 k1 k2 hk rest]

theorem BloomInstance.testLoop_congr_key (murmurhash2 : List Nat → Nat → Nat)
    (k1 k2 : List Nat) (hk : c_str_bytes k1 = c_str_bytes k2) :
    ∀ l : List BloomSlice,
      BloomInstance.testLoop murmurhash2 k1 l = BloomInstance.testLoop murmurhash2 k2 l
  | [] => rfl
  | s :: rest => by
    simp only [BloomInstance.testLoop, BloomSlice.Test_congr_key murmurhash2 s k1 k2 hk,
      BloomInstance.testLoop_congr_key murmurhash2 k1 k2 hk rest]

theorem BloomInstance.Add_congr_key_inst (murmurhash2 : List Nat → Nat → Nat)
    (inst : BloomInstance) (k1 k2 : List Nat) (hk : c_str_bytes k1 = c_str_bytes k2) :
    inst.Add murmurhash2 k1 = inst.Add murmurhash2 k2 := by
  unfold BloomInstance.Add
  rw [BloomInstance.addLoop_congr_key murmurhash2 k1 k2 hk]

theorem BloomInstance.Test_congr_key_inst (murmurhash2 : List Nat → Nat → Nat)
    (inst : BloomInstance) (k1 k2 : List Nat) (hk : c_str_bytes k1 = c_str_bytes k2) :
    inst.Test murmurhash2 k1 = inst.Test murmurhash2 k2 := by
  unfold BloomInstance.Test
  rw [BloomInstance.testLoop_congr_key murmurhash2 k1 k2 hk]

theorem Bloom.testLoop_congr_key_filter (murmurhash2 : List Nat → Nat → Nat)
    (k1 k2 : List Nat) (hk : c_str_bytes k1 = c_str_bytes k2) :
    ∀ l : List BloomInstance,
      Bloom.testLoop murmurhash2 k1 l = Bloom.testLoop murmurhash2 k2 l
  | [] => rfl
  | i :: rest => by
    simp only [Bloom.testLoop, BloomInstance.Test_congr_key_inst murmurhash2 i k1 k2 hk,
      Bloom.testLoop_congr_key_filter murmurhash2 k1 k2 hk rest]

/-- C19. Keys are read only up to their first zero byte: for two keys whose
bytes before the first zero byte agree, the digests and the probe positions
are the same, and on every slice, instance and filter `Add` and `Test` with
the one key are the same call as with the other: same result, same state left
behind.  In particular, on a slice that satisfies the storage invariant,
after `Add` of the one key `Test` of the other returns true. -/
theorem keys_read_to_first_zero (murmurhash2 : List Nat → Nat → Nat) (k1 k2 : List Nat)
    (hk : c_str_bytes k1 = c_str_bytes k2) :
    (digest_a murmurhash2 k1 = digest_a murmurhash2 k2 ∧
      digest_b murmurhash2 k1 = digest_b murmurhash2 k2) ∧
    (∀ s : BloomSlice,
      (∀ i, s.probe murmurhash2 k1 i = s.probe murmurhash2 k2 i) ∧
      s.Add murmurhash2 k1 = s.Add murmurhash2 k2 ∧
      s.Test murmurhash2 k1 = s.Test murmurhash2 k2) ∧
    (∀ inst : BloomInstance,
      inst.Add murmurhash2 k1 = inst.Add murmurhash2 k2 ∧
      inst.Test murmurhash2 k1 = inst.Test murmurhash2 k2) ∧
    (∀ b : Bloom,
      b.Add murmurhash2 k1 = b.Add murmurhash2 k2 ∧
      b.Test murmurhash2 k1 = b.Test murmurhash2 k2) ∧
    (∀ s : BloomSlice, s.Typed → s.WellFormed →
      ∃ r s1, s.Add murmurhash2 k1 = some (r, s1) ∧
        s1.Test murmurhash2 k2 = some (true, s1)) := by
  refine ⟨⟨?_, ?_⟩, fun s => ⟨fun i => ?_, BloomSlice.Add_congr_key murmurhash2 s k1 k2 hk,
      BloomSlice.Test_congr_key murmurhash2 s k1 k2 hk⟩,
    fun inst => ⟨BloomInstance.Add_congr_key_inst murmurhash2 inst k1 k2 hk,
      BloomInstance.Test_congr_key_inst murmurhash2 inst k1 k2 hk⟩,
    fun b => ⟨?_, ?_⟩, fun s ht hw => ?_⟩
  · unfold digest_a; rw [hk]
  · unfold digest_b digest_a; rw [hk]
  · unfold BloomSlice.probe; rw [hk]
  · unfold Bloom.Add
    cases b.m_instances.getLast? with
    | none => rfl
    | some inst =>
      simp only [BloomInstance.Add_congr_key_inst murmurhash2 inst k1 k2 hk]
  · unfold Bloom.Test
    rw [Bloom.testLoop_congr_key_filter murmurhash2 k1 k2 hk]
  · obtain ⟨r, s1, hadd, hsub, _, _, hall, _⟩ := BloomSlice.Add_spec murmurhash2 s k1 ht hw
    obtain ⟨q, hq, hqiff⟩ :=
      BloomSlice.Test_spec murmurhash2 s1 k1 (hsub.typed ht) (hsub.slice_wf hw)
    have hq1 : q = true := hqiff.mpr hall
    refine ⟨r, s1, hadd, ?_⟩
    rw [← BloomSlice.Test_congr_key murmurhash2 s1 k1 k2 hk, hq, hq1]

/-- C19 at the keys `"hi\0x"` and `"hi"`, on `sampleSlice`. -/
theorem keys_read_to_first_zero_witness :
    c_str_bytes [104, 105, 0, 120] = c_str_bytes [104, 105] ∧
    sampleSlice.Add sampleHash [104, 105, 0, 120] = sampleSlice.Add sampleHash [104, 105] ∧
    sampleSlice.Test sampleHash [104, 105, 0, 120] = sampleSlice.Test sampleHash [104, 105] ∧
    ∃ r s1, sampleSlice.Add sampleHash [104, 105, 0, 120] = some (r, s1) ∧
      s1.Test sampleHash [104, 105] = some (true, s1) := by
  have h := keys_read_to_first_zero sampleHash [104, 105, 0, 120] [104, 105] (by decide)
  exact ⟨by decide, (h.2.1 sampleSlice).2.1, (h.2.1 sampleSlice).2.2,
    h.2.2.2.2 sampleSlice (by decide) (by decide)⟩

/-! ## Persistence: lemmas -/

theorem BloomSlice.rebuild_record (s : BloomSlice) : BloomSlice.rebuild s.record = s := by
  cases s
  simp [BloomSlice.rebuild, BloomSlice.record]

theorem BloomInstance.rebuild_record_inst (inst : BloomInstance) :
    BloomInstance.rebuild inst.record = inst.withCount := by
  cases inst
  simp [BloomInstance.rebuild, BloomInstance.record, BloomInstance.withCount, List.map_map,
    Function.comp_def, BloomSlice.rebuild_record]

/-- What `InitBloom` leaves behind when the decoder yields the message that
`SaveBloom` built for `F`. -/
theorem Bloom.InitBloom_record (ParseFromString : List Nat → Option PbBloom) (F G : Bloom)
    (buf : List Nat) (h : ParseFromString buf = some F.record) :
    G.InitBloom ParseFromString buf =
      (true, { m_trans_period := F.m_trans_period,
               m_instances := F.m_instances.map BloomInstance.withCount }) := by
  unfold Bloom.InitBloom
  rw [h]
  simp [Bloom.record, List.map_map, Function.comp_def, BloomInstance.rebuild_record_inst]

theorem BloomInstance.withCount_of_count (inst : BloomInstance)
    (h : (inst.m_slices.length : Int) = inst.m_slice_num) : inst.withCount = inst := by
  cases inst
  simp only [BloomInstance.withCount] at h ⊢
  rw [h]

/-- The result of `Test` does not depend on `m_slice_num`. -/
theorem BloomInstance.Test_withCount (murmurhash2 : List Nat → Nat → Nat)
    (inst : BloomInstance) (key : List Nat) :
    inst.withCount.Test murmurhash2 key =
      (inst.Test murmurhash2 key).map
        (fun p => (p.1, { p.2 with m_slice_num := (inst.m_slices.length : Int) })) := by
  unfold BloomInstance.Test BloomInstance.withCount
  simp only
  cases BloomInstance.testLoop murmurhash2 key inst.m_slices with
  | none => rfl
  | some p => rfl

theorem Bloom.testLoop_withCount (murmurhash2 : List Nat → Nat → Nat) (key : List Nat) :
    ∀ l : List BloomInstance,
      (Bloom.testLoop murmurhash2 key (l.map BloomInstance.withCount)).map Prod.fst =
        (Bloom.testLoop murmurhash2 key l).map Prod.fst
  | [] => rfl
  | inst :: rest => by
    have ih := Bloom.testLoop_withCount murmurhash2 key rest
    simp only [List.map_cons, Bloom.testLoop, BloomInstance.Test_withCount]
    cases hi : inst.Test murmurhash2 key with
    | none => rfl
    | some p =>
      obtain ⟨r, i1⟩ := p
      cases r with
      | true => rfl
      | false =>
        simp only [Option.map_some']
        cases h1 : Bloom.testLoop murmurhash2 key (rest.map BloomInstance.withCount) with
        | none =>
          rw [h1] at ih
          cases h2 : Bloom.testLoop murmurhash2 key rest with
          | none => rfl
          | some q => rw [h2] at ih; simp at ih
        | some q1 =>
          rw [h1] at ih
          cases h2 : Bloom.testLoop murmurhash2 key rest with
          | none => rw [h2] at ih; simp at ih
          | some q2 =>
            rw [h2] at ih
            simp only [Option.map_some', Option.some.injEq] at ih
            simp only [Option.map_some', ih]

theorem BloomInstance.constructSlices_length (bits hashes : Int) (clock junk : Nat → Int) :
    ∀ (n i : Nat) (l : List BloomSlice),
      BloomInstance.constructSlices bits hashes clock junk n i = some l → l.length = n
  | 0, _, l, h => by
    simp only [BloomInstance.constructSlices] at h
    cases h; rfl
  | n + 1, i, l, h => by
    simp only [BloomInstance.constructSlices] at h
    split at h
    · cases h
    · split at h
      · cases h
      · rename_i rest hrest
        cases h
        rw [List.length_cons,
          BloomInstance.constructSlices_length bits hashes clock junk n (i + 1) rest hrest]

theorem BloomInstance.constructSlices_total (bits hashes : Int) (clock junk : Nat → Int)
    (hb : 0 ≤ bits) :
    ∀ (n i : Nat), ∃ l, BloomInstance.constructSlices bits hashes clock junk n i = some l
  | 0, _ => ⟨[], rfl⟩
  | n + 1, i => by
    obtain ⟨s, hs, _⟩ := BloomSlice.construct_spec bits hashes (clock i) (junk i) hb
    obtain ⟨l, hl⟩ := BloomInstance.constructSlices_total bits hashes clock junk hb n (i + 1)
    exact ⟨s :: l, by simp only [BloomInstance.constructSlices, hs, hl]⟩

/-! ## Persistence -/

/-- C12 (as amended). Round-trip fidelity: when `SaveBloom` of `F` returns a
buffer and the decoder inverts the encoder, `InitBloom` of that buffer into
any filter `G` returns true and leaves a filter that is `F` in every field
(rotation period; per instance entries, err_mode, err_deno, create_time,
reset; per slice create_time, access_time, bits, hashes and every word in
order) except that `m_slice_num` of each instance is the number of its slices;
it is `F` itself when every instance of `F` holds `m_slice_num` slices; nothing
of `G` remains; and `Test` gives the same answer on it as on `F` for every
key. -/
theorem roundtrip_fidelity (SerializeToString : PbBloom → Option (List Nat))
    (ParseFromString : List Nat → Option PbBloom) (F G : Bloom) (buf : List Nat)
    (hcodec : ∀ r bytes, SerializeToString r = some bytes → ParseFromString bytes = some r)
    (hsave : F.SaveBloom SerializeToString = some buf) :
    ∃ G1, G.InitBloom ParseFromString buf = (true, G1) ∧
      G1.m_trans_period = F.m_trans_period ∧
      G1.m_instances = F.m_instances.map BloomInstance.withCount ∧
      ((∀ inst ∈ F.m_instances, (inst.m_slices.length : Int) = inst.m_slice_num) → G1 = F) ∧
      ∀ (murmurhash2 : List Nat → Nat → Nat) (key : List Nat),
        (G1.Test murmurhash2 key).map Prod.fst = (F.Test murmurhash2 key).map Prod.fst := by
  have hparse : ParseFromString buf = some F.record := hcodec _ _ hsave
  refine ⟨_, Bloom.InitBloom_record ParseFromString F G buf hparse, rfl, rfl, ?_, ?_⟩
  · intro hcount
    have hmap : F.m_instances.map BloomInstance.withCount = F.m_instances := by
      conv_rhs => rw [← List.map_id F.m_instances]
      apply List.map_congr_left
      intro inst hinst
      exact BloomInstance.withCount_of_count inst (hcount inst hinst)
    rw [hmap]
  · intro murmurhash2 key
    have h := Bloom.testLoop_withCount murmurhash2 key F.m_instances
    unfold Bloom.Test
    simp only
    cases h1 : Bloom.testLoop murmurhash2 key (F.m_instances.map BloomInstance.withCount) with
    | none =>
      rw [h1] at h
      cases h2 : Bloom.testLoop murmurhash2 key F.m_instances with
      | none => rfl
      | some q => rw [h2] at h; simp at h
    | some q1 =>
      rw [h1] at h
      cases h2 : Bloom.testLoop murmurhash2 key F.m_instances with
      | none => rw [h2] at h; simp at h
      | some q2 =>
        rw [h2] at h
        simp only [Option.map_some', Option.some.injEq] at h
        simp only [Option.map_some', h]

/-- C12 (as amended) at `twoInstanceBloom`, saved with `toyEncode` and loaded
into `sampleBloom` with `toyDecode`. -/
theorem roundtrip_fidelity_witness :
    twoInstanceBloom.SaveBloom (toyEncode twoInstanceBloom.record) = some [1] ∧
    sampleBloom.InitBloom (toyDecode twoInstanceBloom.record) [1] =
      (true, twoInstanceBloom) := by
  have hcodec : ∀ r bytes, toyEncode twoInstanceBloom.record r = some bytes →
      toyDecode twoInstanceBloom.record bytes = some r := by
    intro r bytes h
    unfold toyEncode at h
    split at h
    · rename_i hr
      cases h
      rw [hr]
      rfl
    · cases h
  obtain ⟨G1, h1, _, _, h4, _⟩ :=
    roundtrip_fidelity (toyEncode twoInstanceBloom.record) (toyDecode twoInstanceBloom.record)
      twoInstanceBloom sampleBloom [1] hcodec (by decide)
  have hG : G1 = twoInstanceBloom := h4 (by decide)
  subst hG
  exact ⟨by decide, h1⟩

/-- C12 (as stated) fails on `slice_num`.  The constructor called with
`slice_num = -2` builds `negativeCountInstance`, with `m_slice_num = -2` and no
slice; `SaveBloom` records `slice_num = -2`; `InitBloom` of that record leaves
`m_slice_num = 0`. -/
theorem roundtrip_changes_slice_num :
    BloomInstance.construct sampleSizing zeroClock zeroClock 4000 1 1000 (-2) false =
      some negativeCountInstance ∧
    negativeCountBloom.SaveBloom (toyEncode negativeCountBloom.record) = some [1] ∧
    negativeCountBloom.record.instances.map (fun r => r.slice_num) = [-2] ∧
    (emptyBloom.InitBloom (toyDecode negativeCountBloom.record) [1]).1 = true ∧
    (emptyBloom.InitBloom (toyDecode negativeCountBloom.record) [1]).2.m_instances.map
      (fun inst => inst.m_slice_num) = [0] ∧
    negativeCountBloom.m_instances.map (fun inst => inst.m_slice_num) = [-2] := by
  decide

/-- C13. Decode failure is atomic: when `ParseFromString` rejects the buffer,
`InitBloom` returns false and the filter it leaves is the filter it found:
rotation period, instances and every slice are as before the call. -/
theorem init_failure_atomic (ParseFromString : List Nat → Option PbBloom) (b : Bloom)
    (buf : List Nat) (h : ParseFromString buf = none) :
    b.InitBloom ParseFromString buf = (false, b) := by
  unfold Bloom.InitBloom
  rw [h]

/-- C13 at `twoInstanceBloom` with the buffer `[2]`, which `toyDecode` rejects. -/
theorem init_failure_atomic_witness :
    toyDecode sampleBloom.record [2] = none ∧
    twoInstanceBloom.InitBloom (toyDecode sampleBloom.record) [2] = (false, twoInstanceBloom) :=
  ⟨by decide, init_failure_atomic (toyDecode sampleBloom.record) twoInstanceBloom [2]
    (by decide)⟩

/-! ## Slice count -/

theorem BloomInstance.Add_fields (murmurhash2 : List Nat → Nat → Nat) (inst i1 : BloomInstance)
    (key : List Nat) (r : Bool) (h : inst.Add murmurhash2 key = some (r, i1)) :
    i1.m_slice_num = inst.m_slice_num ∧ i1.m_slices.length = inst.m_slices.length := by
  have hsub := BloomInstance.Add_sub_inst murmurhash2 inst i1 key r h
  refine ⟨?_, (List.Forall₂.length_eq hsub).symm⟩
  unfold BloomInstance.Add at h
  split at h
  · cases h
  · cases h; rfl

/-- C20. Slice-count invariant: an instance that the constructor builds with
`slice_num ≥ 1` (it does whenever the computed `bits` is not negative), and an
instance that `InitBloom` rebuilds from any record, hold `m_slice_num` slices;
`Add`, `Test` and `Reset` change neither `m_slice_num` nor the number of
slices; hence, when `m_slice_num` slices are held and `Reset` passes its check
`m_slice_num ≥ 2`, the slice list has at least two elements, its head exists,
and `Reset` returns. -/
theorem slice_count_invariant (murmurhash2 : List Nat → Nat → Nat) (inst : BloomInstance)
    (key : List Nat) :
    (∀ (sizing : Int → Int → Int → Int → Int × Int) (clock junk : Nat → Int)
      (entries err_mode err_deno slice_num : Int) (reset : Bool), 1 ≤ slice_num →
      (∀ i1, BloomInstance.construct sizing clock junk entries err_mode err_deno slice_num
          reset = some i1 →
        i1.m_slice_num = slice_num ∧ (i1.m_slices.length : Int) = i1.m_slice_num) ∧
      (0 ≤ (sizing (Int.tdiv entries slice_num) err_mode err_deno slice_num).1 →
        ∃ i1, BloomInstance.construct sizing clock junk entries err_mode err_deno slice_num
          reset = some i1)) ∧
    (∀ (ParseFromString : List Nat → Option PbBloom) (b b1 : Bloom) (buf : List Nat),
      b.InitBloom ParseFromString buf = (true, b1) →
      ∀ i1 ∈ b1.m_instances, (i1.m_slices.length : Int) = i1.m_slice_num) ∧
    (∀ r i1, inst.Add murmurhash2 key = some (r, i1) →
      i1.m_slice_num = inst.m_slice_num ∧ i1.m_slices.length = inst.m_slices.length) ∧
    (∀ r i1, inst.Test murmurhash2 key = some (r, i1) →
      i1.m_slice_num = inst.m_slice_num ∧ i1.m_slices.length = inst.m_slices.length) ∧
    (∀ r i1, inst.Reset = some (r, i1) →
      i1.m_slice_num = inst.m_slice_num ∧ i1.m_slices.length = inst.m_slices.length) ∧
    ((inst.m_slices.length : Int) = inst.m_slice_num → 2 ≤ inst.m_slice_num →
      2 ≤ inst.m_slices.length ∧
      ∃ head rest, inst.m_slices = head :: rest ∧
        inst.Reset = some (true, { inst with m_slices := rest ++ [head.Reset] })) := by
  refine ⟨?_, ?_, fun r i1 h => BloomInstance.Add_fields murmurhash2 inst i1 key r h, ?_, ?_,
    ?_⟩
  · intro sizing clock junk entries err_mode err_deno slice_num reset hsn
    have hguard : ¬ (slice_num = 0 ∨ (entries = INT_MIN ∧ slice_num = -1)) := by omega
    constructor
    · intro i1 h
      unfold BloomInstance.construct at h
      rw [if_neg hguard] at h
      simp only at h
      split at h
      · cases h
      · rename_i slices hslices
        cases h
        refine ⟨rfl, ?_⟩
        have hl := BloomInstance.constructSlices_length _ _ _ _ _ _ _ hslices
        simp only [hl]
        omega
    · intro hb
      obtain ⟨l, hl⟩ := BloomInstance.constructSlices_total
        (sizing (Int.tdiv entries slice_num) err_mode err_deno slice_num).1
        (sizing (Int.tdiv entries slice_num) err_mode err_deno slice_num).2
        clock junk hb slice_num.toNat 0
      refine ⟨{ m_entries := entries, m_err_mode := err_mode, m_err_deno := err_deno,
                m_slice_num := slice_num, m_reset := reset, m_slices := l,
                m_create_time := clock slice_num.toNat }, ?_⟩
      unfold BloomInstance.construct
      rw [if_neg hguard]
      simp only [hl]
  · intro ParseFromString b b1 buf h i1 hi1
    unfold Bloom.InitBloom at h
    split at h
    · cases h
    · cases h
      simp only [List.mem_map] at hi1
      obtain ⟨r, _, rfl⟩ := hi1
      simp [BloomInstance.rebuild]
  · intro r i1 h
    rw [BloomInstance.Test_state_inst murmurhash2 inst i1 key r h]
    exact ⟨rfl, rfl⟩
  · intro r i1 h
    unfold BloomInstance.Reset at h
    split at h
    · cases h; exact ⟨rfl, rfl⟩
    · split at h
      · cases h
      · rename_i ptr rest hsl
        cases h
        refine ⟨rfl, ?_⟩
        rw [hsl]
        simp
  · intro hcount hn
    have hlen : 2 ≤ inst.m_slices.length := by omega
    refine ⟨hlen, ?_⟩
    cases hsl : inst.m_slices with
    | nil => rw [hsl] at hlen; simp at hlen
    | cons head rest =>
      refine ⟨head, rest, rfl, ?_⟩
      unfold BloomInstance.Reset
      rw [if_neg (by omega), hsl]

/-- C20 at the constructor with `slice_num = 2`, at `InitBloom` of the record of
`negativeCountBloom`, whose `slice_num` field is `-2`, and at `routedInstance`. -/
theorem slice_count_invariant_witness :
    (∃ i1, BloomInstance.construct sampleSizing zeroClock zeroClock 20 1 10 2 false = some i1 ∧
      (i1.m_slices.length : Int) = i1.m_slice_num) ∧
    (∀ i1 ∈ (emptyBloom.InitBloom (toyDecode negativeCountBloom.record) [1]).2.m_instances,
      (i1.m_slices.length : Int) = i1.m_slice_num) ∧
    2 ≤ routedInstance.m_slices.length ∧
    ∃ head rest, routedInstance.m_slices = head :: rest ∧
      routedInstance.Reset =
        some (true, { routedInstance with m_slices := rest ++ [head.Reset] }) := by
  have h := slice_count_invariant sampleHash routedInstance [104, 105]
  obtain ⟨hc1, hc2⟩ := h.1 sampleSizing zeroClock zeroClock 20 1 10 2 false (by decide)
  obtain ⟨i1, hi1⟩ := hc2 (by decide)
  have hinit := h.2.1 (toyDecode negativeCountBloom.record) emptyBloom
    (emptyBloom.InitBloom (toyDecode negativeCountBloom.record) [1]).2 [1] (by decide)
  have hreset := h.2.2.2.2.2 (by decide) (by decide)
  exact ⟨⟨i1, hi1, (hc1 i1 hi1).2⟩, hinit, hreset.1, hreset.2⟩

/-! ## Membership as a union -/

/-- Whatever the slices, when the loop of `BloomInstance::Test` returns, it
returns true exactly when `BloomSlice::Test` returns true on some slice. -/
theorem BloomInstance.testLoop_union (murmurhash2 : List Nat → Nat → Nat) (key : List Nat) :
    ∀ (l m : List BloomSlice) (r : Bool),
      BloomInstance.testLoop murmurhash2 key l = some (r, m) →
      (r = true ↔ ∃ s ∈ l, s.Test murmurhash2 key = some (true, s))
  | [], m, r, h => by
    simp only [BloomInstance.testLoop] at h
    cases h
    simp
  | s :: rest, m, r, h => by
    simp only [BloomInstance.testLoop] at h
    split at h
    · cases h
    · rename_i s1 hs1
      cases h
      have e := BloomSlice.Test_state murmurhash2 s s1 key _ hs1
      subst e
      exact ⟨fun _ => ⟨_, List.mem_cons_self _ _, hs1⟩, fun _ => rfl⟩
    · rename_i s1 hs1
      split at h
      · cases h
      · rename_i q rest1 hrest
        cases h
        have ih := BloomInstance.testLoop_union murmurhash2 key rest rest1 _ hrest
        rw [ih]
        constructor
        · rintro ⟨x, hx, hxt⟩
          exact ⟨x, List.mem_cons_of_mem _ hx, hxt⟩
        · rintro ⟨x, hx, hxt⟩
          rcases List.mem_cons.mp hx with rfl | hx
          · rw [hs1] at hxt; simp at hxt
          · exact ⟨x, hx, hxt⟩

/-- Whatever the filter, when `Bloom::Test` returns, it leaves the filter as it
is and returns true exactly when `BloomSlice::Test` returns true on some slice
of some instance. -/
theorem Bloom.testLoop_union_filter (murmurhash2 : List Nat → Nat → Nat) (key : List Nat) :
    ∀ (l m : List BloomInstance) (r : Bool),
      Bloom.testLoop murmurhash2 key l = some (r, m) →
      (r = true ↔ ∃ inst ∈ l, ∃ s ∈ inst.m_slices, s.Test murmurhash2 key = some (true, s))
  | [], m, r, h => by
    simp only [Bloom.testLoop] at h
    cases h
    simp
  | inst :: rest, m, r, h => by
    have hinst : ∀ q i1, inst.Test murmurhash2 key = some (q, i1) →
        (q = true ↔ ∃ s ∈ inst.m_slices, s.Test murmurhash2 key = some (true, s)) := by
      intro q i1 hq
      unfold BloomInstance.Test at hq
      split at hq
      · cases hq
      · rename_i q1 sl hsl
        cases hq
        exact BloomInstance.testLoop_union murmurhash2 key _ _ _ hsl
    simp only [Bloom.testLoop] at h
    split at h
    · cases h
    · rename_i i1 hi1
      cases h
      exact ⟨fun _ => ⟨inst, List.mem_cons_self _ _, (hinst _ _ hi1).mp rfl⟩, fun _ => rfl⟩
    · rename_i i1 hi1
      split at h
      · cases h
      · rename_i q rest1 hrest
        cases h
        have ih := Bloom.testLoop_union_filter murmurhash2 key rest rest1 _ hrest
        rw [ih]
        constructor
        · rintro ⟨x, hx, hxt⟩
          exact ⟨x, List.mem_cons_of_mem _ hx, hxt⟩
        · rintro ⟨x, hx, hxt⟩
          rcases List.mem_cons.mp hx with rfl | hx
          · have := (hinst _ _ hi1).mpr hxt
            simp at this
          · exact ⟨x, hx, hxt⟩

/-- The union reading of `Bloom::Test` on the filters on which it returns: the
filter is left as it is and the result is true exactly when `BloomSlice::Test`
is true on some slice of some instance; without instances the result is false. -/
theorem Bloom.Test_union (murmurhash2 : List Nat → Nat → Nat) (b : Bloom) (key : List Nat) :
    (b.m_instances = [] → b.Test murmurhash2 key = some (false, b)) ∧
    ∀ r b1, b.Test murmurhash2 key = some (r, b1) →
      b1 = b ∧
      (r = true ↔
        ∃ inst ∈ b.m_instances, ∃ s ∈ inst.m_slices,
          s.Test murmurhash2 key = some (true, s)) := by
  constructor
  · intro h
    cases b with
    | mk period instances =>
      simp only at h
      subst h
      rfl
  · intro r b1 h
    refine ⟨Bloom.Test_state_filter murmurhash2 b b1 key r h, ?_⟩
    unfold Bloom.Test at h
    split at h
    · cases h
    · rename_i q m hm
      cases h
      exact Bloom.testLoop_union_filter murmurhash2 key _ _ _ hm

/-- C11 at its failing input.  `abortingBloom` is reached through the public
calls: the constructor with `entries = 1`, `slice_num = 2` builds
`zeroBitInstance`, and `Add("hi")` on `sampleInstance` leaves
`holdingInstance`.  `BloomSlice::Test("hi")` is true on a slice of
`holdingInstance`, but `Bloom::Test("hi")` does not return: it reaches a slice
of `zeroBitInstance` first and takes a remainder modulo `m_bits = 0`. -/
theorem filter_test_aborts_before_hit :
    BloomInstance.construct sampleSizing zeroClock zeroClock 1 1 1000 2 false =
      some zeroBitInstance ∧
    sampleInstance.Add sampleHash [104, 105] = some (true, holdingInstance) ∧
    (∃ inst ∈ abortingBloom.m_instances, ∃ s ∈ inst.m_slices,
      s.Test sampleHash [104, 105] = some (true, s)) ∧
    abortingBloom.Test sampleHash [104, 105] = none := by
  refine ⟨by decide, by decide, ⟨holdingInstance, by decide, _, List.mem_cons_self _ _, ?_⟩,
    by decide⟩
  decide

/-! ## Probes beyond the backing array -/

/-- With `m_bits` a positive `int` the probe loop returns. -/
theorem BloomSlice.probeLoop_returns (a b : Nat) (needSet : Bool) (M : Nat)
    (hM0 : 0 < M) (hM1 : M ≤ 2147483647) (n i hits : Nat) (s : BloomSlice)
    (hM : toUnsigned s.m_bits = M) :
    ∃ r t, BloomSlice.probeLoop a b needSet n i hits s = some (r, t) := by
  obtain ⟨r, t, h⟩ := BloomSlice.probeLoopTrace_positions a b needSet M hM0 hM1 n i hits s hM
  refine ⟨r, t, ?_⟩
  rw [← BloomSlice.probeLoopTrace_erase, h]
  rfl

/-- With `m_bits` a positive `int`, when some position of the probe loop has a
word index at or beyond the number of words, `hits` grows by less than the
number of iterations. -/
theorem BloomSlice.probeLoop_miss (a b : Nat) (needSet : Bool) (M : Nat)
    (hM0 : 0 < M) (hM1 : M ≤ 2147483647) :
    ∀ (n i hits : Nat) (s : BloomSlice), toUnsigned s.m_bits = M →
      (∃ k, k < n ∧ s.m_data.length ≤ (((a + (i + k) * b) % 4294967296) % M) / 64) →
      ∃ r t, BloomSlice.probeLoop a b needSet n i hits s = some (r, t) ∧ r < hits + n
  | 0, _, _, _, _, ⟨k, hk, _⟩ => absurd hk (Nat.not_lt_zero k)
  | n + 1, i, hits, s, hM, ⟨k, hk, hoob⟩ => by
    have hlt : ((a + i * b) % 4294967296) % M < M := Nat.mod_lt _ hM0
    have htest := BloomSlice.testOk_nonneg s (((a + i * b) % 4294967296) % M) needSet (by omega)
    cases k with
    | zero =>
      rw [Nat.add_zero] at hoob
      rw [if_pos hoob] at htest
      obtain ⟨r, t, hr⟩ :=
        BloomSlice.probeLoop_returns a b needSet M hM0 hM1 n (i + 1) hits s hM
      have hle := (BloomSlice.probeLoop_sub a b needSet n (i + 1) hits s t r hr).2.2
      refine ⟨r, t, ?_, by omega⟩
      simp only [BloomSlice.probeLoop, hM]
      rw [if_neg (by omega), htest]
      exact hr
    | succ k =>
      have hstep : ∃ bo s1, s.testOk (toInt (((a + i * b) % 4294967296) % M)) needSet =
          some (bo, s1) := by
        rw [htest]
        split
        · exact ⟨_, _, rfl⟩
        · exact ⟨_, _, rfl⟩
      obtain ⟨bo, s1, hs1⟩ := hstep
      have hsub := BloomSlice.testOk_sub s s1 _ _ _ hs1
      have hM' : toUnsigned s1.m_bits = M := by rw [hsub.1]; exact hM
      have hoob' : ∃ j, j < n ∧
          s1.m_data.length ≤ (((a + (i + 1 + j) * b) % 4294967296) % M) / 64 := by
        refine ⟨k, by omega, ?_⟩
        rw [hsub.2.2.2.2.1]
        have e : i + 1 + k = i + (k + 1) := by omega
        rw [e]
        exact hoob
      cases bo with
      | true =>
        obtain ⟨r, t, hr, hlt2⟩ :=
          BloomSlice.probeLoop_miss a b needSet M hM0 hM1 n (i + 1) (hits + 1) s1 hM' hoob'
        refine ⟨r, t, ?_, by omega⟩
        simp only [BloomSlice.probeLoop, hM]
        rw [if_neg (by omega), hs1]
        exact hr
      | false =>
        obtain ⟨r, t, hr, hlt2⟩ :=
          BloomSlice.probeLoop_miss a b needSet M hM0 hM1 n (i + 1) hits s1 hM' hoob'
        refine ⟨r, t, ?_, by omega⟩
        simp only [BloomSlice.probeLoop, hM]
        rw [if_neg (by omega), hs1]
        exact hr

/-- In every slice with `int` fields and `m_bits > 0`, when some probe position
of the key has a word index at or beyond the number of words, `Add` returns
true, clears no bit and keeps the number of words, and `Test` returns false. -/
theorem BloomSlice.Add_out_of_bounds (murmurhash2 : List Nat → Nat → Nat) (s : BloomSlice)
    (key : List Nat) (ht : s.Typed) (hpos : 0 < s.m_bits)
    (hoob : ∃ k, k < toUnsigned s.m_hashes ∧
      s.m_data.length ≤ s.probe murmurhash2 key k / 64) :
    (∃ t, s.Add murmurhash2 key = some (true, t) ∧ s.Sub t) ∧
    s.Test murmurhash2 key = some (false, s) := by
  have hmax := ht.1.2
  have hM : toUnsigned s.m_bits = s.m_bits.toNat := toUnsigned_of_pos _ (le_of_lt hpos) hmax
  unfold INT_MAX at hmax
  have hoob' : ∃ k, k < toUnsigned s.m_hashes ∧
      s.m_data.length ≤
        (((digest_a murmurhash2 key + (0 + k) * digest_b murmurhash2 key) % 4294967296) %
          s.m_bits.toNat) / 64 := by
    obtain ⟨k, hk, hk2⟩ := hoob
    refine ⟨k, hk, ?_⟩
    rw [Nat.zero_add, ← hM]
    exact hk2
  have key_fact : ∀ needSet : Bool, ∃ r t,
      BloomSlice.probeLoop (digest_a murmurhash2 key) (digest_b murmurhash2 key) needSet
        (toUnsigned s.m_hashes) 0 0 s = some (r, t) ∧ toInt r ≠ t.m_hashes ∧ s.Sub t := by
    intro needSet
    obtain ⟨r, t, hr, hlt⟩ := BloomSlice.probeLoop_miss (digest_a murmurhash2 key)
      (digest_b murmurhash2 key) needSet s.m_bits.toNat (by omega) (by omega)
      (toUnsigned s.m_hashes) 0 0 s hM hoob'
    have hsub := (BloomSlice.probeLoop_sub _ _ _ _ _ _ _ _ _ hr).1
    refine ⟨r, t, hr, ?_, hsub⟩
    rw [hsub.2.1]
    intro hcontra
    have := (toInt_eq_iff r s.m_hashes (by omega) ht.2).mp hcontra
    omega
  constructor
  · obtain ⟨r, t, hr, hne, hsub⟩ := key_fact true
    refine ⟨t, ?_, hsub⟩
    unfold BloomSlice.Add
    simp only [digest_a, digest_b] at hr
    simp only [hr]
    rw [if_neg hne]
  · obtain ⟨r, t, hr, hne, _⟩ := key_fact false
    have hts : t = s := BloomSlice.probeLoop_false_state _ _ _ _ _ _ _ _ hr
    subst hts
    unfold BloomSlice.Test
    simp only [digest_a, digest_b] at hr
    simp only [hr]
    rw [if_neg hne]

/-- C14 at its failing input.  In `truncatedSlice` the key `"hi"` has the probe
positions 109, 123 and 9; the first has word index 1, beyond the one word.
`Add("hi")` returns true, not false, and changes the word: it sets bit 9.
`Test("hi")` returns false right after. -/
theorem add_reports_success_on_corruption :
    truncatedSlice.trace sampleHash [104, 105] true = some [109, 123, 9] ∧
    truncatedSlice.m_data.length ≤ truncatedSlice.probe sampleHash [104, 105] 0 / 64 ∧
    truncatedSlice.Add sampleHash [104, 105] =
      some (true, { truncatedSlice with m_data := [512] }) ∧
    BloomSlice.Test sampleHash { truncatedSlice with m_data := [512] } [104, 105] =
      some (false, { truncatedSlice with m_data := [512] }) := by
  decide

/-- C15 at its failing input.  `autoResetInstance` was created with
`reset = true`, has `m_slice_num = 2` and two full slices.  `Add("hi")` returns
false and leaves the instance as it is, although `Reset()` would succeed and
`Add("hi")` on the recycled slice, then last, would return true. -/
theorem auto_reset_not_performed :
    autoResetInstance.m_reset = true ∧ autoResetInstance.m_slice_num = 2 ∧
    (∀ s ∈ autoResetInstance.m_slices, s.Full = true) ∧
    autoResetInstance.Add sampleHash [104, 105] = some (false, autoResetInstance) ∧
    ∃ i1 t, autoResetInstance.Reset = some (true, i1) ∧ i1.m_slices.getLast? = some t ∧
      (t.Add sampleHash [104, 105]).map Prod.fst = some true := by
  refine ⟨rfl, rfl, by decide, by decide, ?_⟩
  exact ⟨{ autoResetInstance with m_slices := [fullSlice, fullSlice.Reset] }, fullSlice.Reset,
    by decide, by decide, by decide⟩

/-- C16 at its failing inputs.  The filter that `Bloom(1, 1, 1000, 2)` builds
has slices with `m_bits = 0` and `m_hashes = 7`: `Test` takes a remainder
modulo 0 and does not return, and the same holds for the filter that
`InitBloom` rebuilds from its record.  `NewBloomInstance` with
`slice_num = 0` divides `entries` by 0 and does not return. -/
theorem operations_abort :
    BloomInstance.construct sampleSizing zeroClock zeroClock 1 1 1000 2 false =
      some zeroBitInstance ∧
    zeroBitBloom.Test sampleHash [104, 105] = none ∧
    (emptyBloom.InitBloom (toyDecode zeroBitBloom.record) [1]).1 = true ∧
    (emptyBloom.InitBloom (toyDecode zeroBitBloom.record) [1]).2.Test sampleHash [104, 105] =
      none ∧
    Bloom.NewBloomInstance 86400 sampleSizing zeroClock zeroClock sampleBloom 4000 1 1000 0
      false = none := by
  decide

/-! ## Slices without bits -/

/-- On a slice with `m_bits = 0` and at least one probe, neither `Test` nor
`Add` returns: the first probe takes a remainder modulo 0. -/
theorem BloomSlice.zero_bits_abort (murmurhash2 : List Nat → Nat → Nat) (s : BloomSlice)
    (key : List Nat) (hbits : s.m_bits = 0) (hprobes : 0 < toUnsigned s.m_hashes) :
    s.Test murmurhash2 key = none ∧ s.Add murmurhash2 key = none := by
  have hM : toUnsigned s.m_bits = 0 := by rw [hbits]; rfl
  have hloop : ∀ needSet : Bool, ∀ a b : Nat,
      BloomSlice.probeLoop a b needSet (toUnsigned s.m_hashes) 0 0 s = none := by
    intro needSet a b
    obtain ⟨n, hn⟩ : ∃ n, toUnsigned s.m_hashes = n + 1 := ⟨toUnsigned s.m_hashes - 1, by omega⟩
    rw [hn]
    simp only [BloomSlice.probeLoop, hM]
    rfl
  constructor
  · unfold BloomSlice.Test
    simp only [hloop]
  · unfold BloomSlice.Add
    simp only [hloop]

/-! ## Fullness on slices without a bit beyond `m_bits` -/

set_option maxRecDepth 100000 in
theorem countP_below : ∀ r, r ≤ 64 → (List.range 64).countP (fun i => decide (i < r)) = r := by
  decide

/-- A word whose bits from `r` on are clear has at most `r` bits set. -/
theorem bitset_count_le_of_clear (w r : Nat) (hr : r ≤ 64)
    (h : ∀ q, r ≤ q → q < 64 → w.testBit q = false) : bitset_count w ≤ r := by
  unfold bitset_count
  have hmono : (List.range 64).countP (fun i => w.testBit i) ≤
      (List.range 64).countP (fun i => decide (i < r)) := by
    apply List.countP_mono_left
    intro q hq hset
    rw [List.mem_range] at hq
    rw [decide_eq_true_eq]
    by_contra hge
    rw [h q (by omega) hq] at hset
    cases hset
  rw [countP_below r hr] at hmono
  exact hmono

/-- Words whose bits at the positions from `M` on are clear hold at most `M`
bits. -/
theorem sum_count_le_of_clear : ∀ (l : List Nat) (M : Nat),
    (∀ j p, p < 64 → M ≤ 64 * j + p → (l.getD j 0).testBit p = false) →
    (l.map bitset_count).sum ≤ M
  | [], _, _ => by simp
  | w :: l, M, h => by
    simp only [List.map_cons, List.sum_cons]
    by_cases hM : 64 ≤ M
    · have h1 := bitset_count_le w
      have h2 := sum_count_le_of_clear l (M - 64) (fun j p hp hle => by
        have := h (j + 1) p hp (by omega)
        simpa using this)
      omega
    · have h1 := bitset_count_le_of_clear w M (by omega) (fun q hq hq64 => by
        have := h 0 q hq64 (by omega)
        simpa using this)
      have h2 := sum_count_le_of_clear l 0 (fun j p hp _ => by
        have := h (j + 1) p hp (by omega)
        simpa using this)
      omega

/-- In a slice without a bit beyond `m_bits` at most `m_bits` bits are set. -/
theorem BloomSlice.InRange.popcount_le_bits {s : BloomSlice} (h : s.InRange) :
    s.popcount ≤ s.m_bits.toNat := by
  unfold BloomSlice.popcount
  apply sum_count_le_of_clear
  intro j p hp hle
  have := h (64 * j + p) hle
  unfold BloomSlice.bit bitset_test at this
  have e1 : (64 * j + p) / 64 = j := by omega
  have e2 : (64 * j + p) % 64 = p := by omega
  rw [e1, e2] at this
  exact this

/-- In a slice without a bit beyond `m_bits` the accumulator of `Full` is the
population count. -/
theorem BloomSlice.InRange.ones_exact {s : BloomSlice} (h : s.InRange) (ht : s.Typed) :
    s.ones = (s.popcount : Int) := by
  have hle := h.popcount_le_bits
  have hmax := ht.1.2
  unfold INT_MAX at hmax
  rw [BloomSlice.ones_eq, toUnsigned_natCast, toInt_of_lt]
  · congr 1; omega
  · omega

/-- The constructor leaves no bit beyond `m_bits`, and neither does `Reset`. -/
theorem BloomSlice.InRange.of_all_zero {s : BloomSlice} (h : ∀ w ∈ s.m_data, w = 0) :
    s.InRange := by
  intro x _
  unfold BloomSlice.bit bitset_test
  rw [getD_of_all_zero s.m_data _ h]
  exact Nat.zero_testBit _

/-- The call `Add` sets no bit beyond `m_bits`. -/
theorem BloomSlice.InRange.after_Add (murmurhash2 : List Nat → Nat → Nat) {s : BloomSlice}
    (key : List Nat) (h : s.InRange) (ht : s.Typed) (hw : s.WellFormed) (r : Bool)
    (t : BloomSlice) (hadd : s.Add murmurhash2 key = some (r, t)) : t.InRange := by
  obtain ⟨r1, t1, hadd1, hsub, _, _, _, hbits⟩ := BloomSlice.Add_spec murmurhash2 s key ht hw
  rw [hadd] at hadd1
  cases hadd1
  have hmax := ht.1.2
  have hM : toUnsigned s.m_bits = s.m_bits.toNat :=
    toUnsigned_of_pos _ (le_of_lt hw.1) hmax
  have hpos := hw.1
  intro x hx
  rw [hsub.1] at hx
  by_contra hset
  rw [Bool.not_eq_false] at hset
  unfold BloomSlice.bit bitset_test at hset
  rcases hbits _ _ hset with hold | ⟨_, k, _, hk⟩
  · have := h x hx
    unfold BloomSlice.bit bitset_test at this
    rw [this] at hold
    cases hold
  · have hlt : s.probe murmurhash2 key k < toUnsigned s.m_bits := by
      unfold BloomSlice.probe
      exact Nat.mod_lt _ (by omega)
    have e : 64 * (x / 64) + x % 64 = x := Nat.div_add_mod x 64
    omega

/-- A sequence of `Add` and `Test` calls on a slice with the storage invariant
and without a bit beyond `m_bits` returns and sets no bit beyond `m_bits`. -/
theorem BloomSlice.InRange.after_run (murmurhash2 : List Nat → Nat → Nat) :
    ∀ (ops : List SliceOp) (s : BloomSlice), s.Typed → s.WellFormed → s.InRange →
      ∃ t, BloomSlice.run murmurhash2 s ops = some t ∧ t.InRange
  | [], s, _, _, h => ⟨s, rfl, h⟩
  | op :: ops, s, ht, hw, h => by
    cases op with
    | Add key =>
      obtain ⟨r, t, hr, hsub, _⟩ := BloomSlice.Add_spec murmurhash2 s key ht hw
      obtain ⟨u, hu, hin⟩ := BloomSlice.InRange.after_run murmurhash2 ops t (hsub.typed ht)
        (hsub.slice_wf hw) (BloomSlice.InRange.after_Add murmurhash2 key h ht hw r t hr)
      exact ⟨u, by simp only [BloomSlice.run, BloomSlice.step, hr, Option.map_some']; exact hu,
        hin⟩
    | Test key =>
      obtain ⟨r, hr, _⟩ := BloomSlice.Test_spec murmurhash2 s key ht hw
      obtain ⟨u, hu, hin⟩ := BloomSlice.InRange.after_run murmurhash2 ops s ht hw h
      exact ⟨u, by simp only [BloomSlice.run, BloomSlice.step, hr, Option.map_some']; exact hu,
        hin⟩

/-- Fullness monotonicity on the slices that the operations of the slice
produce.  The constructor, given computed `bits ≥ 0`, and `Reset` leave no bit
at or beyond `m_bits`.  On a slice with `int` fields that satisfies the
storage invariant and has no such bit, every sequence of `Add` and `Test`
calls returns, sets no such bit, does not decrease the population count, and
`Full()` once true is still true after it, whatever the number of words. -/
theorem BloomSlice.full_monotone_in_range (murmurhash2 : List Nat → Nat → Nat)
    (s : BloomSlice) (ops : List SliceOp) :
    (∀ bits hashes now access_time : Int, 0 ≤ bits →
      ∃ t, BloomSlice.construct bits hashes now access_time = some t ∧ t.InRange) ∧
    s.Reset.InRange ∧
    (s.Typed → s.WellFormed → s.InRange →
      ∃ t, BloomSlice.run murmurhash2 s ops = some t ∧ t.InRange ∧
        s.popcount ≤ t.popcount ∧ (s.Full = true → t.Full = true)) := by
  refine ⟨fun bits hashes now access_time hb => ?_, ?_, fun ht hw hin => ?_⟩
  · obtain ⟨t, ht, _, _, _, hz⟩ := BloomSlice.construct_spec bits hashes now access_time hb
    exact ⟨t, ht, BloomSlice.InRange.of_all_zero hz⟩
  · apply BloomSlice.InRange.of_all_zero
    intro w hw
    unfold BloomSlice.Reset at hw
    simp only [List.mem_map] at hw
    obtain ⟨_, _, rfl⟩ := hw
    rfl
  · obtain ⟨t, hrun, htin⟩ := BloomSlice.InRange.after_run murmurhash2 ops s ht hw hin
    have hsub := BloomSlice.run_sub murmurhash2 ops s t hrun
    refine ⟨t, hrun, htin, hsub.popcount_le, fun hf => ?_⟩
    have h1 := hin.ones_exact ht
    have h2 := htin.ones_exact (hsub.typed ht)
    have h3 := hsub.popcount_le
    unfold BloomSlice.Full at hf ⊢
    rw [decide_eq_true_eq] at hf ⊢
    rw [hsub.1, h2]
    rw [h1] at hf
    omega

/-! ## Fullness lost by overflow of the accumulator -/

